import Mathlib

/-!
# Verification of `payload_generator/extent_ranges.cc`

A shallow embedding of the extent-range interval-set module and proofs of the
specification's claims about it.

Conventions of the embedding:
* `uint64_t` values are natural numbers; every arithmetic operation the C++
  code performs on `uint64_t` is performed here modulo `2^64` (`u64add`,
  `u64sub`), so wrap-around behaves exactly as in the source.
* `std::set<Extent, ExtentLess>` is a list kept sorted by the comparator;
  `lowerBound`/`upperBound` mirror `std::set::lower_bound/upper_bound`, and
  iterator brackets become index brackets into the list.
* `CHECK` failures (fatal aborts) are modelled by an `Option` result where a
  claim depends on them (`GetExtentsForBlockCount`).
-/

/-- The modulus of 64-bit unsigned machine arithmetic. -/
def U64 : Nat := 2 ^ 64

/-- Addition as performed on `uint64_t` operands. -/
def u64add (a b : Nat) : Nat := (a + b) % U64

/-- Subtraction as performed on `uint64_t` operands (for `a b < U64`). -/
def u64sub (a b : Nat) : Nat := (a + U64 - b) % U64

/-- Modelled from the spec: the reserved sentinel `start_block` value
`kSparseHole`, declared in `payload_consumer/payload_constants.h` which is not
under `src/`; the spec reserves a sentinel value of `start_block` meaning
"sparse hole / not a real block", and the constant is the maximum 64-bit
unsigned value. -/
def kSparseHole : Nat := U64 - 1

/-- The `Extent` protobuf message: two `uint64` fields.  A default-constructed
`Extent` (`Extent()` / `{}` in the source) has both fields zero. -/
structure Extent where
  start_block : Nat
  num_blocks : Nat
deriving DecidableEq, Repr

/-- `ExtentForRange` from the source: builds an extent from start and length. -/
def ExtentForRange (start_block num_blocks : Nat) : Extent :=
  ⟨start_block, num_blocks⟩

/-- Modelled from the spec: the `ExtentLess` comparator of
`ExtentRanges::ExtentSet` (declared in `extent_ranges.h`, not under `src/`):
extents are ordered for storage primarily by `start_block`, ties broken by
`num_blocks`. -/
def extentLess (a b : Extent) : Bool :=
  decide (a.start_block < b.start_block) ||
    (decide (a.start_block = b.start_block) && decide (a.num_blocks < b.num_blocks))

/-- Modelled from the spec: `utils::BlocksInExtents` (from `common/utils.h`,
not under `src/`): the total number of blocks in a collection of extents,
i.e. the sum of the `num_blocks` fields. -/
def BlocksInExtents (l : List Extent) : Nat :=
  (l.map Extent.num_blocks).sum

/-- The state of an `ExtentRanges` object: the sorted entry set, the cached
block counter (a `uint64_t`) and the construction-time merge mode flag. -/
structure ExtentRanges where
  extent_set_ : List Extent
  blocks_ : Nat
  merge_touching_extents_ : Bool
deriving DecidableEq, Repr

/-- A freshly constructed, empty `ExtentRanges` with the given merge mode. -/
def ExtentRanges.empty (merge_touching_extents : Bool) : ExtentRanges :=
  ⟨[], 0, merge_touching_extents⟩

/-- `ExtentRanges::ExtentsOverlapOrTouch` from the source. -/
def ExtentRanges.ExtentsOverlapOrTouch (a b : Extent) : Bool :=
  if a.start_block = b.start_block then
    true
  else if a.start_block = kSparseHole ∨ b.start_block = kSparseHole then
    false
  else if a.start_block < b.start_block then
    decide (u64add a.start_block a.num_blocks ≥ b.start_block)
  else
    decide (u64add b.start_block b.num_blocks ≥ a.start_block)

/-- `ExtentRanges::ExtentsOverlap` from the source. -/
def ExtentRanges.ExtentsOverlap (a b : Extent) : Bool :=
  if a.start_block = b.start_block then
    decide (a.num_blocks ≠ 0)
  else if a.start_block = kSparseHole ∨ b.start_block = kSparseHole then
    false
  else if a.start_block < b.start_block then
    decide (u64add a.start_block a.num_blocks > b.start_block)
  else
    decide (u64add b.start_block b.num_blocks > a.start_block)

/-- `UnionOverlappingExtents` from the source (the two `CHECK_NE(kSparseHole, …)`
assertions only guard against sentinel inputs and are not modelled; no claim
exercises them). -/
def UnionOverlappingExtents (first second : Extent) : Extent :=
  let start := min first.start_block second.start_block
  let stop := max (u64add first.start_block first.num_blocks)
      (u64add second.start_block second.num_blocks)
  ExtentForRange start (u64sub stop start)

/-- `std::set::insert` on the sorted entry list: insert at the sorted position
unless an equivalent element (same `start_block` and `num_blocks`) is present. -/
def setInsert : List Extent → Extent → List Extent
  | [], x => [x]
  | e :: rest, x =>
    if extentLess x e then x :: e :: rest
    else if extentLess e x then e :: setInsert rest x
    else e :: rest

/-- `std::set::lower_bound` on the sorted entry list: the index of the first
element that is not less than `x`. -/
def lowerBound (l : List Extent) (x : Extent) : Nat :=
  (l.takeWhile (fun a => extentLess a x)).length

/-- `std::set::upper_bound` on the sorted entry list: the index of the first
element that is greater than `x`. -/
def upperBound (l : List Extent) (x : Extent) : Nat :=
  (l.takeWhile (fun a => !extentLess x a)).length

/-- The backward walk of `ExtentRanges::GetCandidateRange`: starting from
index `j`, decrement while not at the beginning and the current position is
the end or its entry's (wrapped) end exceeds the query's `start_block`. -/
def lowerWalk (l : List Extent) (s : Nat) : Nat → Nat
  | 0 => 0
  | j + 1 =>
    match l[j + 1]? with
    | none => lowerWalk l s j
    | some it =>
      if s < u64add it.start_block it.num_blocks then lowerWalk l s j else j + 1

/-- The forward walk of `ExtentRanges::GetCandidateRange`: starting from index
`j`, advance while not at the end and the entry's `start_block` is at most the
query's (wrapped) end; i.e. skip the maximal such prefix of the remainder. -/
def upperWalk (l : List Extent) (bnd j : Nat) : Nat :=
  j + ((l.drop j).takeWhile (fun it => decide (it.start_block ≤ bnd))).length

/-- `ExtentRanges::GetCandidateRange` from the source, as an index bracket
`[lower, upper)` into the sorted entry list. -/
def GetCandidateRange (l : List Extent) (extent : Extent) : Nat × Nat :=
  let lower := lowerWalk l extent.start_block (lowerBound l extent)
  let stop := u64add extent.start_block extent.num_blocks
  let upper := upperWalk l stop (upperBound l (ExtentForRange stop 1))
  (lower, upper)

/-- The loop body of `ExtentRanges::AddExtent`: scan the candidate entries
(`i` is the absolute index of the head), accumulating the erase bracket
`begin_del/end_del` (`none` while no entry merged), the deleted block count
`del_blocks` and the growing union `extent`. -/
def addScanLoop (merge : Bool) :
    List Extent → Nat → Option (Nat × Nat) → Nat → Extent →
      Option (Nat × Nat) × Nat × Extent
  | [], _, del, del_blocks, extent => (del, del_blocks, extent)
  | it :: rest, i, del, del_blocks, extent =>
    let should_merge :=
      if merge then ExtentRanges.ExtentsOverlapOrTouch it extent
      else ExtentRanges.ExtentsOverlap it extent
    if should_merge then
      addScanLoop merge rest (i + 1) (some ((del.map Prod.fst).getD i, i + 1))
        (u64add del_blocks it.num_blocks) (UnionOverlappingExtents extent it)
    else
      addScanLoop merge rest (i + 1) del del_blocks extent

/-- `ExtentRanges::AddExtent` from the source. -/
def ExtentRanges.AddExtent (s : ExtentRanges) (extent : Extent) : ExtentRanges :=
  if extent.start_block = kSparseHole ∨ extent.num_blocks = 0 then s
  else
    let r := GetCandidateRange s.extent_set_ extent
    let cand := (s.extent_set_.drop r.1).take (r.2 - r.1)
    let scan := addScanLoop s.merge_touching_extents_ cand r.1 none 0 extent
    let after_erase :=
      match scan.1 with
      | none => s.extent_set_
      | some be => s.extent_set_.take be.1 ++ s.extent_set_.drop be.2
    { extent_set_ := setInsert after_erase scan.2.2
      blocks_ := u64add (u64sub s.blocks_ scan.2.1) scan.2.2.num_blocks
      merge_touching_extents_ := s.merge_touching_extents_ }

/-- `SubtractOverlappingExtents` from the source: the (sorted-set of)
residual pieces of `base` minus `subtractee`. -/
def SubtractOverlappingExtents (base subtractee : Extent) : List Extent :=
  let ret : List Extent := []
  let ret :=
    if subtractee.start_block > base.start_block then
      setInsert ret
        (ExtentForRange base.start_block (u64sub subtractee.start_block base.start_block))
    else ret
  let base_end := u64add base.start_block base.num_blocks
  let subtractee_end := u64add subtractee.start_block subtractee.num_blocks
  if base_end > subtractee_end then
    setInsert ret (ExtentForRange subtractee_end (u64sub base_end subtractee_end))
  else ret

/-- The loop body of `ExtentRanges::SubtractExtent`: scan all entries (`i` is
the absolute index of the head), accumulating the erase bracket, the net
deleted block count and the sorted set `new_extents` of residual pieces. -/
def subScanLoop (extent : Extent) :
    List Extent → Nat → Option (Nat × Nat) → Nat → List Extent →
      Option (Nat × Nat) × Nat × List Extent
  | [], _, del, del_blocks, news => (del, del_blocks, news)
  | it :: rest, i, del, del_blocks, news =>
    if ExtentRanges.ExtentsOverlap it extent then
      let subtraction := SubtractOverlappingExtents it extent
      let folded :=
        subtraction.foldl (fun acc jt => (u64sub acc.1 jt.num_blocks, setInsert acc.2 jt))
          (u64add del_blocks it.num_blocks, news)
      subScanLoop extent rest (i + 1) (some ((del.map Prod.fst).getD i, i + 1))
        folded.1 folded.2
    else
      subScanLoop extent rest (i + 1) del del_blocks news

/-- `ExtentRanges::SubtractExtent` from the source. -/
def ExtentRanges.SubtractExtent (s : ExtentRanges) (extent : Extent) : ExtentRanges :=
  if extent.start_block = kSparseHole ∨ extent.num_blocks = 0 then s
  else
    let scan := subScanLoop extent s.extent_set_ 0 none 0 []
    let after_erase :=
      match scan.1 with
      | none => s.extent_set_
      | some be => s.extent_set_.take be.1 ++ s.extent_set_.drop be.2
    { extent_set_ := scan.2.2.foldl setInsert after_erase
      blocks_ := u64sub s.blocks_ scan.2.1
      merge_touching_extents_ := s.merge_touching_extents_ }

/-- `ExtentRanges::ContainsBlock` from the source. -/
def ExtentRanges.ContainsBlock (s : ExtentRanges) (block : Nat) : Bool :=
  let l := s.extent_set_
  let lower0 := lowerBound l (ExtentForRange block 1)
  let lower := if lower0 ≠ 0 then lower0 - 1 else lower0
  let upper := lowerBound l (ExtentForRange (u64add block 1) 0)
  ((l.drop lower).take (upper - lower)).any fun it =>
    decide (it.start_block ≤ block) && decide (block < u64add it.start_block it.num_blocks)

/-- The loop of `ExtentRanges::GetExtentsForBlockCount`, returning the final
`out_blocks` accumulator and the output vector. -/
def getExtentsLoop (count : Nat) :
    List Extent → Nat → List Extent → Nat × List Extent
  | [], out_blocks, out => (out_blocks, out)
  | extent :: rest, out_blocks, out =>
    let blocks_needed := u64sub count out_blocks
    let out' := out ++ [extent]
    let out_blocks' := u64add out_blocks extent.num_blocks
    if extent.num_blocks < blocks_needed then
      getExtentsLoop count rest out_blocks' out'
    else if extent.num_blocks = blocks_needed then
      (out_blocks', out')
    else
      (u64add (u64sub out_blocks' extent.num_blocks) blocks_needed,
        out ++ [ExtentForRange extent.start_block blocks_needed])

/-- `ExtentRanges::GetExtentsForBlockCount` from the source; `none` models a
fatal `CHECK` failure (the precondition `count <= blocks_`, and the final
sanity check `out_blocks == BlocksInExtents(out)`). -/
def ExtentRanges.GetExtentsForBlockCount (s : ExtentRanges) (count : Nat) :
    Option (List Extent) :=
  if count = 0 then some []
  else if count ≤ s.blocks_ then
    let r := getExtentsLoop count s.extent_set_ 0 []
    if r.1 = BlocksInExtents r.2 then some r.2 else none
  else none

/-- `GetOverlapExtent` from the source; `return {}` yields a
default-constructed extent, i.e. both fields zero. -/
def GetOverlapExtent (extent1 extent2 : Extent) : Extent :=
  if !ExtentRanges.ExtentsOverlap extent1 extent2 then ⟨0, 0⟩
  else
    let start_block := max extent1.start_block extent2.start_block
    let end_block := min (u64add extent1.start_block extent1.num_blocks)
      (u64add extent2.start_block extent2.num_blocks)
    ExtentForRange start_block (u64sub end_block start_block)

/-- The inner trimming loop of `FilterExtentRanges`, over the candidate
entries of the exclude set; `res` is the shared output vector. -/
def filterLoop : List Extent → Extent → List Extent → List Extent
  | [], extent, res =>
    if extent.num_blocks > 0 then res ++ [extent] else res
  | it :: rest, extent, res =>
    if !ExtentRanges.ExtentsOverlap extent it then filterLoop rest extent res
    else if it.start_block ≤ extent.start_block then
      let cut_blocks := u64sub (u64add it.start_block it.num_blocks) extent.start_block
      if cut_blocks ≥ extent.num_blocks then res
      else
        filterLoop rest
          (ExtentForRange (u64add extent.start_block cut_blocks)
            (u64sub extent.num_blocks cut_blocks)) res
    else
      let res' := res ++
        [ExtentForRange extent.start_block (u64sub it.start_block extent.start_block)]
      let new_start := u64add it.start_block it.num_blocks
      let old_end := u64add extent.start_block extent.num_blocks
      if new_start ≥ old_end then res'
      else filterLoop rest (ExtentForRange new_start (u64sub old_end new_start)) res'

/-- `FilterExtentRanges` from the source. -/
def FilterExtentRanges (extents : List Extent) (ranges : ExtentRanges) : List Extent :=
  extents.foldl
    (fun result extent =>
      let es := ranges.extent_set_
      let lower0 := lowerBound es extent
      let lower := if lower0 ≠ 0 then lower0 - 1 else lower0
      let upper := lowerBound es
        (ExtentForRange (u64add extent.start_block extent.num_blocks) 0)
      filterLoop ((es.drop lower).take (upper - lower)) extent result)
    []

/-! ## Semantic notions used by the specification's claims -/

/-- The (mathematical, non-wrapping) end of an extent's half-open interval. -/
def eEnd (e : Extent) : Nat := e.start_block + e.num_blocks

/-- Membership of a block index in an extent's half-open interval
`[start_block, start_block + num_blocks)`. -/
def spanMem (e : Extent) (x : Nat) : Prop :=
  e.start_block ≤ x ∧ x < eEnd e

instance (e : Extent) (x : Nat) : Decidable (spanMem e x) := by
  unfold spanMem; infer_instance

/-- A block is covered by an entry list if it lies in some entry's interval. -/
def coveredBy (l : List Extent) (x : Nat) : Prop :=
  ∃ e ∈ l, spanMem e x

instance (l : List Extent) (x : Nat) : Decidable (coveredBy l x) := by
  unfold coveredBy; infer_instance

/-- An extent is a non-degenerate, non-overflowing `uint64` interval: it has
at least one block and its end fits in 64 bits. -/
def WfExtent (e : Extent) : Prop :=
  0 < e.num_blocks ∧ eEnd e < U64 ∧ e.start_block ≠ kSparseHole

/-- The separation between consecutive entries that the set maintains:
non-overlapping, and strictly apart (non-touching) in merge mode. -/
def sep (m : Bool) (a b : Extent) : Prop :=
  if m then eEnd a < b.start_block else eEnd a ≤ b.start_block

/-- The internal invariant of an `ExtentRanges` entry list. -/
def GoodList (m : Bool) (l : List Extent) : Prop :=
  (∀ e ∈ l, WfExtent e) ∧ l.Chain' (sep m)

/-- The internal invariant of an `ExtentRanges` object. -/
def SetInv (s : ExtentRanges) : Prop :=
  GoodList s.merge_touching_extents_ s.extent_set_ ∧
    s.blocks_ = BlocksInExtents s.extent_set_

/-- The extents an `AddExtent`/`SubtractExtent` call candidate merges with:
those whose interval meets the argument's (also just touching it, in merge
mode).  This is the arithmetic form of `ExtentsOverlap(OrTouch)` for
well-formed extents. -/
def qualifies (m : Bool) (e q : Extent) : Prop :=
  if m then e.start_block ≤ eEnd q ∧ q.start_block ≤ eEnd e
  else e.start_block < eEnd q ∧ q.start_block < eEnd e

/-- `p` is a sub-range of `E`: its interval is contained in `E`'s. -/
def subRangeOf (p E : Extent) : Prop :=
  E.start_block ≤ p.start_block ∧ eEnd p ≤ eEnd E

/-- The set of blocks covered by an entry list, as a finite set. -/
def coveredFinset (l : List Extent) : Finset ℕ :=
  l.foldr (fun e acc => Finset.Ico e.start_block (eEnd e) ∪ acc) ∅

/-- The number of blocks in the intersection between a sequence of input
extents and an exclude entry list: for each input extent, the number of its
blocks that the exclude list covers, summed over the inputs. -/
def inputIntersectionBlocks (extents : List Extent) (l : List Extent) : Nat :=
  (extents.map fun e => ((Finset.Ico e.start_block (eEnd e)) ∩ coveredFinset l).card).sum

/-- A single mutation of an `ExtentRanges`. -/
inductive RangeOp where
  | add (e : Extent)
  | sub (e : Extent)

/-- The extent argument of a mutation. -/
def RangeOp.extent : RangeOp → Extent
  | .add e => e
  | .sub e => e

/-- Apply a single mutation. -/
def applyOp (s : ExtentRanges) : RangeOp → ExtentRanges
  | .add e => s.AddExtent e
  | .sub e => s.SubtractExtent e

/-- Apply a sequence of mutations in order. -/
def applyOps (s : ExtentRanges) (ops : List RangeOp) : ExtentRanges :=
  ops.foldl applyOp s

/-- An argument extent that does not overflow `uint64` arithmetic: it is
either one of the no-op inputs (sentinel start or zero length) or its end
fits in 64 bits. -/
def okInput (e : Extent) : Prop :=
  e.start_block = kSparseHole ∨ e.num_blocks = 0 ∨ eEnd e < U64

instance (e : Extent) : Decidable (okInput e) := by
  unfold okInput
  infer_instance

/-- The invariant stated by the specification (claim C1): no sentinel or
empty entry, entries sorted and pairwise non-overlapping (non-touching in
merge mode), and the cached counter equals the sum of entry sizes. -/
def ClaimedInvariant (s : ExtentRanges) : Prop :=
  (∀ e ∈ s.extent_set_, e.start_block ≠ kSparseHole ∧ e.num_blocks ≠ 0) ∧
  s.extent_set_.Chain' (fun a b => eEnd a ≤ b.start_block) ∧
  (s.merge_touching_extents_ = true →
    s.extent_set_.Chain' (fun a b => eEnd a < b.start_block)) ∧
  s.blocks_ = BlocksInExtents s.extent_set_

/-- The Boolean test "entry `q` lies entirely before the reach of `e`": its
interval ends at or before (strictly before, in merge mode) `e`'s start, so
the scan of an add (subtract uses the non-merge form) leaves it alone. -/
def leftOfB (m : Bool) (e q : Extent) : Bool :=
  if m then decide (eEnd q < e.start_block) else decide (eEnd q ≤ e.start_block)

/-- The Boolean test "entry `q` merges with `e`": overlap (or touch, in merge
mode), in arithmetic form valid for non-overflowing extents. -/
def qualB (m : Bool) (e q : Extent) : Bool :=
  if m then decide (q.start_block ≤ eEnd e) && decide (e.start_block ≤ eEnd q)
  else decide (q.start_block < eEnd e) && decide (e.start_block < eEnd q)

/-- The entries before the contiguous run that an operation on `e` affects. -/
def runL (m : Bool) (l : List Extent) (e : Extent) : List Extent :=
  l.takeWhile (leftOfB m e)

/-- The contiguous run of entries that an operation on `e` affects. -/
def runMid (m : Bool) (l : List Extent) (e : Extent) : List Extent :=
  (l.dropWhile (leftOfB m e)).takeWhile (qualB m e)

/-- The entries after the contiguous run that an operation on `e` affects. -/
def runR (m : Bool) (l : List Extent) (e : Extent) : List Extent :=
  (l.dropWhile (leftOfB m e)).dropWhile (qualB m e)

/-- The union extent an `AddExtent(e)` call inserts: `e` merged with every
entry of the affected run, in scan order. -/
def runU (m : Bool) (l : List Extent) (e : Extent) : Extent :=
  (runMid m l e).foldl UnionOverlappingExtents e

/-- The residual piece of a subtracted run that lies before `e`: only the
first run entry can stick out on the left. -/
def headPiece (e : Extent) : List Extent → List Extent
  | [] => []
  | q :: _ =>
    if q.start_block < e.start_block then
      [⟨q.start_block, e.start_block - q.start_block⟩]
    else []

/-- The residual piece of a subtracted run that lies after `e`: only the
last run entry can stick out on the right. -/
def tailPiece (e : Extent) (M : List Extent) : List Extent :=
  match M.getLast? with
  | none => []
  | some k => if eEnd e < eEnd k then [⟨eEnd e, eEnd k - eEnd e⟩] else []

/-- The residual pieces a `SubtractExtent(e)` call inserts in place of the
affected run. -/
def subPieces (e : Extent) (M : List Extent) : List Extent :=
  headPiece e M ++ tailPiece e M

/-! ## Arithmetic infrastructure -/

theorem U64_pos : 0 < U64 := by decide

theorem u64add_eq {a b : Nat} (h : a + b < U64) : u64add a b = a + b :=
  Nat.mod_eq_of_lt h

theorem u64sub_eq {a b : Nat} (ha : a < U64) (h : b ≤ a) : u64sub a b = a - b := by
  unfold u64sub
  have h1 : a + U64 - b = (a - b) + U64 := by omega
  rw [h1, Nat.add_mod_right, Nat.mod_eq_of_lt (by omega)]

theorem u64sub_u64add_cancel {a b : Nat} (ha : a < U64) (hb : b < U64) :
    u64sub (u64add a b) b = a := by
  unfold u64sub u64add
  rcases Nat.lt_or_ge (a + b) U64 with h | h
  · rw [Nat.mod_eq_of_lt h]
    have h1 : a + b + U64 - b = a + U64 := by omega
    rw [h1, Nat.add_mod_right, Nat.mod_eq_of_lt ha]
  · have h2 : (a + b) % U64 = a + b - U64 := by
      rw [Nat.mod_eq_sub_mod h, Nat.mod_eq_of_lt (by omega)]
    rw [h2]
    have h3 : a + b - U64 + U64 - b = a := by omega
    rw [h3, Nat.mod_eq_of_lt ha]

theorem u64add_split {s n : Nat} (hs : s < U64) (hn : n < U64) :
    (s + n < U64 ∧ u64add s n = s + n) ∨
      (U64 ≤ s + n ∧ u64add s n = s + n - U64) := by
  rcases Nat.lt_or_ge (s + n) U64 with h | h
  · exact Or.inl ⟨h, Nat.mod_eq_of_lt h⟩
  · refine Or.inr ⟨h, ?_⟩
    unfold u64add
    rw [Nat.mod_eq_sub_mod h, Nat.mod_eq_of_lt (by omega)]

/-! ## Order and list infrastructure -/

theorem extentLess_iff {a b : Extent} :
    extentLess a b = true ↔
      (a.start_block < b.start_block ∨
        (a.start_block = b.start_block ∧ a.num_blocks < b.num_blocks)) := by
  simp [extentLess, Bool.or_eq_true, Bool.and_eq_true, decide_eq_true_eq]

theorem extentLess_false_iff {a b : Extent} :
    extentLess a b = false ↔
      ¬ (a.start_block < b.start_block ∨
        (a.start_block = b.start_block ∧ a.num_blocks < b.num_blocks)) := by
  rw [← extentLess_iff]
  cases extentLess a b <;> simp

theorem takeWhile_append_all {α : Type} {p : α → Bool} {l1 l2 : List α}
    (h : ∀ x ∈ l1, p x = true) :
    (l1 ++ l2).takeWhile p = l1 ++ l2.takeWhile p := by
  induction l1 with
  | nil => simp
  | cons x xs ih =>
    have hx := h x (by simp)
    simp only [List.cons_append, List.takeWhile_cons, hx, if_true]
    rw [ih fun y hy => h y (by simp [hy])]

theorem length_takeWhile_mono {α : Type} {p q : α → Bool} {l : List α}
    (h : ∀ x ∈ l, p x = true → q x = true) :
    (l.takeWhile p).length ≤ (l.takeWhile q).length := by
  induction l with
  | nil => simp
  | cons x xs ih =>
    by_cases hx : p x = true
    · have hq := h x (by simp) hx
      simp only [List.takeWhile_cons, hx, hq, if_true, List.length_cons]
      exact Nat.succ_le_succ (ih fun y hy hp => h y (by simp [hy]) hp)
    · simp only [List.takeWhile_cons]
      rw [if_neg hx]
      simp

theorem drop_length_takeWhile {α : Type} {p : α → Bool} {l : List α} :
    l.drop (l.takeWhile p).length = l.dropWhile p := by
  induction l with
  | nil => simp
  | cons x xs ih =>
    by_cases hx : p x = true
    · simp only [List.takeWhile_cons, List.dropWhile_cons, hx, if_true,
        List.length_cons, List.drop_succ_cons]
      exact ih
    · simp only [List.takeWhile_cons, List.dropWhile_cons]
      rw [if_neg hx, if_neg hx]
      simp

theorem mem_takeWhile_sat {α : Type} {p : α → Bool} {l : List α} {x : α}
    (h : x ∈ l.takeWhile p) : p x = true :=
  List.mem_takeWhile_imp h

theorem dropWhile_head_not {α : Type} {p : α → Bool} {l : List α} {y : α} {ys : List α}
    (h : l.dropWhile p = y :: ys) : p y = false := by
  induction l with
  | nil => simp at h
  | cons x xs ih =>
    rw [List.dropWhile_cons] at h
    by_cases hx : p x = true
    · rw [if_pos hx] at h
      exact ih h
    · rw [if_neg hx] at h
      cases h
      exact Bool.eq_false_iff.mpr hx

/-- In a chain of separated positive extents, the head's end is at or before
every later element's start. -/
theorem chain_sep_head {x : Extent} {xs : List Extent}
    (hpos : ∀ e ∈ xs, 0 < e.num_blocks)
    (hch : List.Chain' (fun a b => eEnd a ≤ b.start_block) (x :: xs)) :
    ∀ b ∈ xs, eEnd x ≤ b.start_block := by
  induction xs generalizing x with
  | nil => simp
  | cons y ys ih =>
    intro b hb
    rw [List.chain'_cons] at hch
    rcases List.mem_cons.mp hb with rfl | hb'
    · exact hch.1
    · have hy : 0 < y.num_blocks := hpos y (by simp)
      have h1 := ih (fun e he => hpos e (by simp [he])) hch.2 b hb'
      have h2 := hch.1
      unfold eEnd at *
      omega

theorem chain_sep_pairwise {l : List Extent}
    (hpos : ∀ e ∈ l, 0 < e.num_blocks)
    (hch : List.Chain' (fun a b => eEnd a ≤ b.start_block) l) :
    l.Pairwise fun a b => eEnd a ≤ b.start_block := by
  induction l with
  | nil => simp
  | cons x xs ih =>
    rw [List.chain'_cons'] at hch
    refine List.Pairwise.cons ?_ (ih (fun e he => hpos e (by simp [he])) hch.2)
    exact chain_sep_head (fun e he => hpos e (by simp [he]))
      (List.chain'_cons'.mpr hch)

/-! ## Bridges between the code's Bool predicates and interval arithmetic -/

theorem ExtentsOverlap_eq_true_iff {a b : Extent}
    (hap : 0 < a.num_blocks) (hbp : 0 < b.num_blocks)
    (haw : eEnd a < U64) (hbw : eEnd b < U64)
    (has : a.start_block ≠ kSparseHole) (hbs : b.start_block ≠ kSparseHole) :
    ExtentRanges.ExtentsOverlap a b = true ↔
      (b.start_block < eEnd a ∧ a.start_block < eEnd b) := by
  unfold ExtentRanges.ExtentsOverlap
  split_ifs with h1 h2 h3
  · simp only [decide_eq_true_eq]
    unfold eEnd at *
    omega
  · rcases h2 with h | h
    · exact absurd h has
    · exact absurd h hbs
  · rw [show u64add a.start_block a.num_blocks = eEnd a from u64add_eq haw]
    simp only [decide_eq_true_eq, gt_iff_lt]
    unfold eEnd at *
    omega
  · rw [show u64add b.start_block b.num_blocks = eEnd b from u64add_eq hbw]
    simp only [decide_eq_true_eq, gt_iff_lt]
    unfold eEnd at *
    omega

theorem ExtentsOverlapOrTouch_eq_true_iff {a b : Extent}
    (hap : 0 < a.num_blocks) (hbp : 0 < b.num_blocks)
    (haw : eEnd a < U64) (hbw : eEnd b < U64)
    (has : a.start_block ≠ kSparseHole) (hbs : b.start_block ≠ kSparseHole) :
    ExtentRanges.ExtentsOverlapOrTouch a b = true ↔
      (b.start_block ≤ eEnd a ∧ a.start_block ≤ eEnd b) := by
  unfold ExtentRanges.ExtentsOverlapOrTouch
  split_ifs with h1 h2 h3
  · simp only [true_iff]
    unfold eEnd at *
    omega
  · rcases h2 with h | h
    · exact absurd h has
    · exact absurd h hbs
  · rw [show u64add a.start_block a.num_blocks = eEnd a from u64add_eq haw]
    simp only [decide_eq_true_eq, ge_iff_le]
    unfold eEnd at *
    omega
  · rw [show u64add b.start_block b.num_blocks = eEnd b from u64add_eq hbw]
    simp only [decide_eq_true_eq, ge_iff_le]
    unfold eEnd at *
    omega

/-! ## `GetOverlapExtent` computations -/

theorem GetOverlapExtent_eq_of_true {a b : Extent}
    (h : ExtentRanges.ExtentsOverlap a b = true) :
    GetOverlapExtent a b =
      ExtentForRange (max a.start_block b.start_block)
        (u64sub
          (min (u64add a.start_block a.num_blocks) (u64add b.start_block b.num_blocks))
          (max a.start_block b.start_block)) := by
  unfold GetOverlapExtent
  rw [h]
  rfl

theorem GetOverlapExtent_eq_of_false {a b : Extent}
    (h : ExtentRanges.ExtentsOverlap a b = false) :
    GetOverlapExtent a b = ⟨0, 0⟩ := by
  unfold GetOverlapExtent
  rw [h]
  rfl

theorem overlap_true_max_le_min {a b : Extent} (ha : eEnd a < U64) (hb : eEnd b < U64)
    (h : ExtentRanges.ExtentsOverlap a b = true) :
    max a.start_block b.start_block ≤ min (eEnd a) (eEnd b) := by
  unfold ExtentRanges.ExtentsOverlap at h
  split_ifs at h with h1 h2 h3
  · simp only [decide_eq_true_eq] at h
    unfold eEnd at *
    omega
  · rw [u64add_eq ha] at h
    simp only [decide_eq_true_eq, gt_iff_lt] at h
    unfold eEnd at *
    omega
  · rw [u64add_eq hb] at h
    simp only [decide_eq_true_eq, gt_iff_lt] at h
    unfold eEnd at *
    omega

theorem overlap_false_no_shared {a b : Extent} (ha : eEnd a < U64) (hb : eEnd b < U64)
    (h : ExtentRanges.ExtentsOverlap a b = false) (x : Nat) :
    ¬ (spanMem a x ∧ spanMem b x) := by
  have hk : kSparseHole + 1 = U64 := by decide
  unfold ExtentRanges.ExtentsOverlap at h
  simp only [spanMem]
  split_ifs at h with h1 h2 h3
  · simp only [decide_eq_false_iff_not, ne_eq, not_not] at h
    unfold eEnd at *
    omega
  · rcases h2 with h2 | h2 <;> (unfold eEnd at *; omega)
  · rw [u64add_eq ha] at h
    simp only [decide_eq_false_iff_not, gt_iff_lt, not_lt] at h
    unfold eEnd at *
    omega
  · rw [u64add_eq hb] at h
    simp only [decide_eq_false_iff_not, gt_iff_lt, not_lt] at h
    unfold eEnd at *
    omega

theorem GetOverlapExtent_spanMem {a b : Extent} (ha : eEnd a < U64) (hb : eEnd b < U64)
    (x : Nat) :
    spanMem (GetOverlapExtent a b) x ↔ spanMem a x ∧ spanMem b x := by
  cases hov : ExtentRanges.ExtentsOverlap a b with
  | false =>
    rw [GetOverlapExtent_eq_of_false hov]
    have hL : ¬ spanMem (⟨0, 0⟩ : Extent) x := by
      simp [spanMem, eEnd]
    exact iff_of_false hL (overlap_false_no_shared ha hb hov x)
  | true =>
    rw [GetOverlapExtent_eq_of_true hov, u64add_eq ha, u64add_eq hb]
    have hmm := overlap_true_max_le_min ha hb hov
    unfold eEnd at hmm
    rw [u64sub_eq
      (lt_of_le_of_lt
        (min_le_left (a.start_block + a.num_blocks) (b.start_block + b.num_blocks)) ha)
      hmm]
    simp only [spanMem, ExtentForRange, eEnd]
    omega

/-! ## Covered-set bridge lemmas -/

theorem coveredFinset_nil : coveredFinset [] = ∅ := rfl

theorem coveredFinset_cons (e : Extent) (l : List Extent) :
    coveredFinset (e :: l) = Finset.Ico e.start_block (eEnd e) ∪ coveredFinset l := rfl

theorem inputIntersectionBlocks_nil (l : List Extent) :
    inputIntersectionBlocks [] l = 0 := rfl

theorem inputIntersectionBlocks_cons (e : Extent) (es l : List Extent) :
    inputIntersectionBlocks (e :: es) l =
      ((Finset.Ico e.start_block (eEnd e)) ∩ coveredFinset l).card +
        inputIntersectionBlocks es l := rfl

theorem mem_coveredFinset {l : List Extent} {x : Nat} :
    x ∈ coveredFinset l ↔ ∃ E ∈ l, E.start_block ≤ x ∧ x < eEnd E := by
  induction l with
  | nil => simp [coveredFinset_nil]
  | cons E rest ih =>
    rw [coveredFinset_cons, Finset.mem_union, Finset.mem_Ico, ih]
    simp [or_and_right, exists_or]

theorem card_inter_coveredFinset (a b : Nat) (l : List Extent)
    (hpos : ∀ E ∈ l, 0 < E.num_blocks)
    (hch : l.Chain' fun p q => eEnd p ≤ q.start_block) :
    ((Finset.Ico a b) ∩ coveredFinset l).card =
      (l.map fun E => min b (eEnd E) - max a E.start_block).sum := by
  induction l with
  | nil => simp [coveredFinset_nil]
  | cons E rest ih =>
    rw [coveredFinset_cons, Finset.inter_union_distrib_left,
      Finset.card_union_of_disjoint, Finset.Ico_inter_Ico, Nat.card_Ico]
    · rw [List.chain'_cons'] at hch
      rw [ih (fun F hF => hpos F (by simp [hF])) hch.2]
      simp only [List.map_cons, List.sum_cons]
    · rw [Finset.disjoint_left]
      intro x hx1 hx2
      simp only [Finset.mem_inter, Finset.mem_Ico, mem_coveredFinset] at hx1 hx2
      obtain ⟨-, F, hF, hFx⟩ := hx2
      have hsep := chain_sep_head (fun e he => hpos e (by simp [he])) hch F hF
      omega

theorem inputIntersectionBlocks_eq_sum (extents l : List Extent)
    (hpos : ∀ E ∈ l, 0 < E.num_blocks)
    (hch : l.Chain' fun p q => eEnd p ≤ q.start_block) :
    inputIntersectionBlocks extents l =
      (extents.map fun e =>
        (l.map fun E => min (eEnd e) (eEnd E) - max e.start_block E.start_block).sum).sum := by
  induction extents with
  | nil => rw [inputIntersectionBlocks_nil]; rfl
  | cons e es ih =>
    rw [inputIntersectionBlocks_cons, card_inter_coveredFinset _ _ _ hpos hch, ih]
    simp

/-! ## Claim C5 -/

/-- Claim C5 counterexample: the claim states that `ExtentsOverlap(a, b)` is
true iff the two intervals share a block, and is false whenever either
argument's `start_block` is the sentinel `kSparseHole`.  At
`a = {kSparseHole, 1}`, `b = {kSparseHole, 0}` the code returns `true`
(the equal-start branch precedes the sentinel check and only tests
`a.num_blocks != 0`), although `a`'s start is the sentinel and the two
intervals share no block (`b` is empty), so both halves of the claim fail. -/
theorem claim_C5_counterexample :
    ExtentRanges.ExtentsOverlap ⟨kSparseHole, 1⟩ ⟨kSparseHole, 0⟩ = true ∧
      ¬ ∃ x, spanMem ⟨kSparseHole, 1⟩ x ∧ spanMem ⟨kSparseHole, 0⟩ x := by
  constructor
  · decide
  · rintro ⟨x, h1, h2⟩
    simp only [spanMem, eEnd] at h2
    omega

/-- Claim C5 (amended): for extents with at least one block, non-overflowing
ends and non-sentinel starts, `ExtentsOverlap(a, b)` is true iff the two
half-open intervals share at least one block; whenever the two `start_block`
values differ and either one is the sentinel `kSparseHole` the result is
false; and whenever the two `start_block` values are equal (sentinel or not)
the result is just `a.num_blocks != 0`. -/
theorem claim_C5_amended :
    (∀ a b : Extent, WfExtent a → WfExtent b →
      (ExtentRanges.ExtentsOverlap a b = true ↔ ∃ x, spanMem a x ∧ spanMem b x)) ∧
    (∀ a b : Extent, a.start_block ≠ b.start_block →
      (a.start_block = kSparseHole ∨ b.start_block = kSparseHole) →
      ExtentRanges.ExtentsOverlap a b = false) ∧
    (∀ a b : Extent, a.start_block = b.start_block →
      (ExtentRanges.ExtentsOverlap a b = true ↔ a.num_blocks ≠ 0)) := by
  refine ⟨fun a b ha hb => ?_, fun a b hne hs => ?_, fun a b heq => ?_⟩
  · obtain ⟨hap, haw, has⟩ := ha
    obtain ⟨hbp, hbw, hbs⟩ := hb
    rw [ExtentsOverlap_eq_true_iff hap hbp haw hbw has hbs]
    constructor
    · intro h
      unfold eEnd at h
      refine ⟨max a.start_block b.start_block, ?_, ?_⟩ <;>
        · simp only [spanMem, eEnd]
          omega
    · rintro ⟨x, h1, h2⟩
      simp only [spanMem, eEnd] at h1 h2
      unfold eEnd
      omega
  · unfold ExtentRanges.ExtentsOverlap
    split_ifs with h1 h2
    · exact absurd h1 hne
    · rfl
  · unfold ExtentRanges.ExtentsOverlap
    rw [if_pos heq]
    simp

/-- Claim C5 witness: the amended equivalence at `a = {3,4}`, `b = {5,6}`. -/
theorem claim_C5_witness :
    ExtentRanges.ExtentsOverlap ⟨3, 4⟩ ⟨5, 6⟩ = true ↔
      ∃ x, spanMem ⟨3, 4⟩ x ∧ spanMem ⟨5, 6⟩ x :=
  claim_C5_amended.1 ⟨3, 4⟩ ⟨5, 6⟩ ⟨by decide, by decide, by decide⟩
    ⟨by decide, by decide, by decide⟩

/-! ## Claim C6 -/

/-- Claim C6: for every pair of `uint64` extents, `ExtentsOverlapOrTouch`
returns the same value as `ExtentsOverlap`, except on inputs where one extent
ends exactly where the other begins, where `ExtentsOverlapOrTouch`
additionally returns true (and `ExtentsOverlap` false). -/
theorem claim_C6 (a b : Extent) (ha1 : a.start_block < U64) (ha2 : a.num_blocks < U64)
    (hb1 : b.start_block < U64) (hb2 : b.num_blocks < U64) :
    ExtentRanges.ExtentsOverlapOrTouch a b = ExtentRanges.ExtentsOverlap a b ∨
      ((eEnd a = b.start_block ∨ eEnd b = a.start_block) ∧
        ExtentRanges.ExtentsOverlapOrTouch a b = true ∧
        ExtentRanges.ExtentsOverlap a b = false) := by
  unfold ExtentRanges.ExtentsOverlapOrTouch ExtentRanges.ExtentsOverlap
  split_ifs with h1 h2 h3
  · by_cases hn : a.num_blocks = 0
    · right
      refine ⟨Or.inl ?_, rfl, ?_⟩
      · unfold eEnd
        omega
      · simp [hn]
    · left
      exact (decide_eq_true hn).symm
  · left
    rfl
  · rcases u64add_split ha1 ha2 with ⟨hlt, heq⟩ | ⟨hge, heq⟩
    · rw [heq]
      rcases Nat.lt_trichotomy (a.start_block + a.num_blocks) b.start_block with h | h | h
      · left
        rw [decide_eq_decide]
        omega
      · right
        refine ⟨Or.inl (by unfold eEnd; omega), ?_, ?_⟩
        · simp only [decide_eq_true_eq]
          omega
        · simp only [decide_eq_false_iff_not]
          omega
      · left
        rw [decide_eq_decide]
        omega
    · rw [heq]
      left
      rw [decide_eq_decide]
      omega
  · rcases u64add_split hb1 hb2 with ⟨hlt, heq⟩ | ⟨hge, heq⟩
    · rw [heq]
      rcases Nat.lt_trichotomy (b.start_block + b.num_blocks) a.start_block with h | h | h
      · left
        rw [decide_eq_decide]
        omega
      · right
        refine ⟨Or.inr (by unfold eEnd; omega), ?_, ?_⟩
        · simp only [decide_eq_true_eq]
          omega
        · simp only [decide_eq_false_iff_not]
          omega
      · left
        rw [decide_eq_decide]
        omega
    · rw [heq]
      left
      rw [decide_eq_decide]
      omega

/-- Claim C6 witness: the relation at the touching pair `{1,2}`, `{3,4}`. -/
theorem claim_C6_witness :
    ExtentRanges.ExtentsOverlapOrTouch ⟨1, 2⟩ ⟨3, 4⟩ =
        ExtentRanges.ExtentsOverlap ⟨1, 2⟩ ⟨3, 4⟩ ∨
      ((eEnd ⟨1, 2⟩ = (⟨3, 4⟩ : Extent).start_block ∨
          eEnd ⟨3, 4⟩ = (⟨1, 2⟩ : Extent).start_block) ∧
        ExtentRanges.ExtentsOverlapOrTouch ⟨1, 2⟩ ⟨3, 4⟩ = true ∧
        ExtentRanges.ExtentsOverlap ⟨1, 2⟩ ⟨3, 4⟩ = false) :=
  claim_C6 ⟨1, 2⟩ ⟨3, 4⟩ (by decide) (by decide) (by decide) (by decide)

/-! ## Claim C8 -/

/-- Claim C8: on an empty set, `AddExtent({5,3})` then `AddExtent({8,2})`
yields the single entry `{5,5}` with `blocks_ == 5` in merge mode, and the
two entries `{5,3}`, `{8,2}` with `blocks_ == 5` with merge mode off. -/
theorem claim_C8 :
    ((ExtentRanges.empty true).AddExtent ⟨5, 3⟩).AddExtent ⟨8, 2⟩ =
      { extent_set_ := [⟨5, 5⟩], blocks_ := 5, merge_touching_extents_ := true } ∧
    ((ExtentRanges.empty false).AddExtent ⟨5, 3⟩).AddExtent ⟨8, 2⟩ =
      { extent_set_ := [⟨5, 3⟩, ⟨8, 2⟩], blocks_ := 5,
        merge_touching_extents_ := false } :=
  ⟨by decide, by decide⟩

/-! ## Claim C9 -/

/-- Claim C9 counterexample: the claim states `GetOverlapExtent(a, b)` and
`GetOverlapExtent(b, a)` denote the same extent.  At `a = {2^64-2, 0}`,
`b = {2^64-2, 5}` (equal starts, first argument empty) the two calls return
`{0,0}` and `{2^64-2, 5}` respectively: the first denotes the empty interval
while the second contains block `2^64-2`, so they denote different extents. -/
theorem claim_C9_counterexample :
    GetOverlapExtent ⟨U64 - 2, 0⟩ ⟨U64 - 2, 5⟩ = ⟨0, 0⟩ ∧
    GetOverlapExtent ⟨U64 - 2, 5⟩ ⟨U64 - 2, 0⟩ = ⟨U64 - 2, 5⟩ ∧
    spanMem (GetOverlapExtent ⟨U64 - 2, 5⟩ ⟨U64 - 2, 0⟩) (U64 - 2) ∧
    ¬ spanMem (GetOverlapExtent ⟨U64 - 2, 0⟩ ⟨U64 - 2, 5⟩) (U64 - 2) := by
  refine ⟨by decide, by decide, by decide, by decide⟩

/-- Claim C9 (amended): for extents whose ends do not overflow `uint64`,
`GetOverlapExtent` is symmetric up to the denoted block interval, and its
result denotes exactly the intersection of the two argument intervals (hence
an empty interval when they do not overlap). -/
theorem claim_C9_amended (a b : Extent) (ha : eEnd a < U64) (hb : eEnd b < U64) :
    (∀ x, spanMem (GetOverlapExtent a b) x ↔ spanMem (GetOverlapExtent b a) x) ∧
    (∀ x, spanMem (GetOverlapExtent a b) x ↔ spanMem a x ∧ spanMem b x) :=
  ⟨fun x => (GetOverlapExtent_spanMem ha hb x).trans
      (and_comm.trans (GetOverlapExtent_spanMem hb ha x).symm),
    GetOverlapExtent_spanMem ha hb⟩

/-- Claim C9 witness: the intersection of `{3,4}` and `{5,6}` at block 5. -/
theorem claim_C9_witness :
    spanMem (GetOverlapExtent ⟨3, 4⟩ ⟨5, 6⟩) 5 ↔ spanMem ⟨3, 4⟩ 5 ∧ spanMem ⟨5, 6⟩ 5 :=
  (claim_C9_amended ⟨3, 4⟩ ⟨5, 6⟩ (by decide) (by decide)).2 5

/-! ## Counterexamples for the overflow-sensitive claims -/

/-- Claim C1 counterexample: the claim quantifies over arbitrary call
sequences.  After `AddExtent({5, 2^64-1})` (whose end overflows `uint64`)
and `AddExtent({100, 50})` on an empty non-merging set, the cached `blocks_`
counter (49, after wrap-around) no longer equals the sum of `num_blocks`
over the stored entries. -/
theorem claim_C1_counterexample :
    (((ExtentRanges.empty false).AddExtent ⟨5, U64 - 1⟩).AddExtent ⟨100, 50⟩).blocks_ ≠
      BlocksInExtents
        ((((ExtentRanges.empty false).AddExtent ⟨5, U64 - 1⟩).AddExtent
          ⟨100, 50⟩)).extent_set_ := by
  decide

/-- Claim C2 counterexample: the claim states `SubtractExtent(e)` removes
exactly `e`'s blocks.  On the set `{[5,1]}`, subtracting the non-degenerate
extent `{5, 2^64-1}` (whose end overflows `uint64`) leaves the entry `{4,2}`:
block 4 is covered afterwards although it was not covered before, so the
covered set is not `old ∖ e`. -/
theorem claim_C2_counterexample :
    ¬ (coveredBy (((ExtentRanges.empty false).AddExtent ⟨5, 1⟩).SubtractExtent
          ⟨5, U64 - 1⟩).extent_set_ 4 ↔
        (coveredBy ((ExtentRanges.empty false).AddExtent ⟨5, 1⟩).extent_set_ 4 ∧
          ¬ spanMem ⟨5, U64 - 1⟩ 4)) := by
  decide

/-- Claim C7 counterexample: the claim quantifies over every reachable set.
After `AddExtent({5, 2^64-1})` (end overflows `uint64`), block 100 lies
inside the stored entry `{5, 2^64-1}`, yet `ContainsBlock(100)` returns
false because the code compares against the wrapped end. -/
theorem claim_C7_counterexample :
    ExtentRanges.ContainsBlock ((ExtentRanges.empty false).AddExtent ⟨5, U64 - 1⟩) 100 =
        false ∧
      coveredBy ((ExtentRanges.empty false).AddExtent ⟨5, U64 - 1⟩).extent_set_ 100 := by
  refine ⟨by decide, by decide⟩

/-- Claim C10 counterexample: adding `{10, 2^64-1}` (end overflows `uint64`)
twice to an empty set changes `blocks_` the second time (the candidate-range
bracket computed from the wrapped end misses the stored entry, so the entry
is not re-merged but its size is added again, wrapping `blocks_`), so
`AddExtent` is not idempotent as claimed. -/
theorem claim_C10_counterexample :
    (((ExtentRanges.empty false).AddExtent ⟨10, U64 - 1⟩).AddExtent ⟨10, U64 - 1⟩).blocks_ ≠
      ((ExtentRanges.empty false).AddExtent ⟨10, U64 - 1⟩).blocks_ := by
  decide

/-- Claim C3 counterexample: the claim's accounting equation fails when an
input extent's end overflows `uint64`: filtering `[{5, 2^64-1}]` against the
exclude set `{[7,1]}` returns the input unchanged (the exclude-set bracket is
computed from the wrapped end `4`), so no blocks are removed although the
intersection contains block 7. -/
theorem claim_C3_counterexample :
    BlocksInExtents
        (FilterExtentRanges [⟨5, U64 - 1⟩] ((ExtentRanges.empty false).AddExtent ⟨7, 1⟩)) ≠
      BlocksInExtents [⟨5, U64 - 1⟩] -
        inputIntersectionBlocks [⟨5, U64 - 1⟩]
          ((ExtentRanges.empty false).AddExtent ⟨7, 1⟩).extent_set_ := by
  have h2 : ((ExtentRanges.empty false).AddExtent ⟨7, 1⟩).extent_set_ = [⟨7, 1⟩] := by
    decide
  rw [h2, inputIntersectionBlocks_eq_sum _ _ (by decide) (List.chain'_singleton _)]
  decide

/-! ## takeWhile index lemmas -/

theorem takeWhile_length_le {α : Type} (p : α → Bool) (l : List α) :
    (l.takeWhile p).length ≤ l.length := by
  induction l with
  | nil => simp
  | cons x xs ih =>
    by_cases hp : p x = true
    · rw [List.takeWhile_cons, if_pos hp]
      simpa using ih
    · rw [List.takeWhile_cons, if_neg hp]
      simp

theorem takeWhile_congr_mem {α : Type} {p q : α → Bool} {l : List α}
    (h : ∀ y ∈ l, p y = q y) : l.takeWhile p = l.takeWhile q := by
  induction l with
  | nil => rfl
  | cons x xs ih =>
    rw [List.takeWhile_cons, List.takeWhile_cons, h x (by simp)]
    by_cases hq : q x = true
    · rw [if_pos hq, if_pos hq, ih fun y hy => h y (by simp [hy])]
    · rw [if_neg hq, if_neg hq]

theorem takeWhile_getElem_true {α : Type} {p : α → Bool} {l : List α} {i : Nat}
    (hi : i < l.length) (h : i < (l.takeWhile p).length) :
    p (l.get ⟨i, hi⟩) = true := by
  induction l generalizing i with
  | nil => simp at hi
  | cons x xs ih =>
    by_cases hp : p x = true
    · rw [List.takeWhile_cons, if_pos hp] at h
      cases i with
      | zero => simpa using hp
      | succ j =>
        simp only [List.length_cons, Nat.add_lt_add_iff_right] at h
        simpa using ih (Nat.lt_of_succ_lt_succ hi) h
    · rw [List.takeWhile_cons, if_neg hp] at h
      simp at h

theorem takeWhile_length_false {α : Type} {p : α → Bool} {l : List α} {i : Nat}
    (hi : i < l.length) (heq : i = (l.takeWhile p).length) :
    p (l.get ⟨i, hi⟩) = false := by
  induction l generalizing i with
  | nil => simp at hi
  | cons x xs ih =>
    by_cases hp : p x = true
    · rw [List.takeWhile_cons, if_pos hp] at heq
      cases i with
      | zero => simp at heq
      | succ j =>
        simp only [List.length_cons, Nat.add_right_cancel_iff] at heq
        simpa using ih (Nat.lt_of_succ_lt_succ hi) heq
    · rw [List.takeWhile_cons, if_neg hp] at heq
      cases i with
      | zero => simpa using Bool.eq_false_iff.mpr hp
      | succ j => simp at heq

/-! ## `sep` facts -/

theorem sep_le {m : Bool} {a b : Extent} (h : sep m a b) : eEnd a ≤ b.start_block := by
  cases m <;> simp [sep] at h <;> omega

theorem goodList_chain_le {m : Bool} {l : List Extent} (h : GoodList m l) :
    l.Chain' fun a b => eEnd a ≤ b.start_block :=
  h.2.imp fun _ _ => sep_le

theorem goodList_pairwise {m : Bool} {l : List Extent} (h : GoodList m l) :
    l.Pairwise fun a b => eEnd a ≤ b.start_block :=
  chain_sep_pairwise (fun e he => (h.1 e he).1) (goodList_chain_le h)

/-! ## Simplifications of `extentLess` against probe extents -/

theorem extentLess_probe_one {y : Extent} {c : Nat} (hy : 0 < y.num_blocks) :
    extentLess y (ExtentForRange c 1) = decide (y.start_block < c) := by
  simp only [extentLess, ExtentForRange]
  cases hlt : decide (y.start_block < c) <;> cases heq : decide (y.start_block = c) <;>
    simp_all <;> omega

theorem extentLess_probe_zero {y : Extent} {c : Nat} :
    extentLess y (ExtentForRange c 0) = decide (y.start_block < c) := by
  simp only [extentLess, ExtentForRange]
  cases hlt : decide (y.start_block < c) <;> cases heq : decide (y.start_block = c) <;>
    simp_all

/-! ## Claim C7 -/

/-- Claim C7 (amended): on a set whose entries satisfy the maintained
invariant (positive sizes, non-overflowing ends, sorted and disjoint), and
for a block index `x` with `x + 1 < 2^64` (at `x = 2^64 - 1` the probe start
`block + 1` wraps to `0` and the C++ iterator loop runs off the container),
`ContainsBlock(x)` is true iff `x` lies inside some stored entry. -/
theorem claim_C7_amended (s : ExtentRanges) (x : Nat) (hInv : SetInv s)
    (hx1 : x + 1 < U64) :
    (ExtentRanges.ContainsBlock s x = true ↔
      ∃ E ∈ s.extent_set_, E.start_block ≤ x ∧ x < E.start_block + E.num_blocks) := by
  obtain ⟨⟨hwf, hch⟩, -⟩ := hInv
  have hpw := chain_sep_pairwise (fun e he => (hwf e he).1)
    (List.Chain'.imp (fun _ _ => sep_le) hch)
  rw [List.pairwise_iff_getElem] at hpw
  unfold ExtentRanges.ContainsBlock
  simp only [List.any_eq_true, Bool.and_eq_true, decide_eq_true_eq]
  have hub2 : lowerBound s.extent_set_ (ExtentForRange (u64add x 1) 0) =
      (s.extent_set_.takeWhile fun y => decide (y.start_block < x + 1)).length := by
    rw [u64add_eq hx1]
    unfold lowerBound
    exact congrArg List.length (takeWhile_congr_mem fun y _ => extentLess_probe_zero)
  have hlb2 : lowerBound s.extent_set_ (ExtentForRange x 1) =
      (s.extent_set_.takeWhile fun y => decide (y.start_block < x)).length := by
    unfold lowerBound
    exact congrArg List.length
      (takeWhile_congr_mem fun y hy => extentLess_probe_one (hwf y hy).1)
  rw [hub2, hlb2]
  constructor
  · rintro ⟨it, hit, h1, h2⟩
    have hmem : it ∈ s.extent_set_ :=
      List.mem_of_mem_drop (List.mem_of_mem_take hit)
    refine ⟨it, hmem, h1, ?_⟩
    rw [u64add_eq ((hwf it hmem).2.1)] at h2
    exact h2
  · rintro ⟨E, hE, hE1, hE2⟩
    obtain ⟨i, hi, rfl⟩ := List.mem_iff_getElem.mp hE
    have hposi : 0 < (s.extent_set_[i]).num_blocks := (hwf _ hE).1
    have hwfi : eEnd s.extent_set_[i] < U64 := (hwf _ hE).2.1
    -- the slice bracket
    set lb := (s.extent_set_.takeWhile fun y => decide (y.start_block < x)).length
      with hlbdef
    set ub := (s.extent_set_.takeWhile fun y => decide (y.start_block < x + 1)).length
      with hubdef
    set low := if lb ≠ 0 then lb - 1 else lb with hlowdef
    have hlow_le : low ≤ i := by
      rcases Nat.eq_zero_or_pos lb with h0 | h0
      · simp [hlowdef, h0]
      · have : lb - 1 ≤ i := by
          by_contra hcon
          push_neg at hcon
          have hi1 : i + 1 < lb := by omega
          have hlen : i + 1 < s.extent_set_.length :=
            Nat.lt_of_lt_of_le hi1 (hlbdef ▸ takeWhile_length_le _ _)
          have htrue := takeWhile_getElem_true hlen hi1
          simp only [decide_eq_true_eq] at htrue
          have hsep := hpw i (i + 1) hi hlen (by omega)
          rw [show s.extent_set_.get ⟨i + 1, hlen⟩ = s.extent_set_[i + 1] from rfl]
            at htrue
          unfold eEnd at hsep
          omega
        simp only [hlowdef]
        split <;> omega
    have hup : i < ub := by
      by_contra hcon
      push_neg at hcon
      have hub_lt : ub < s.extent_set_.length := Nat.lt_of_le_of_lt hcon hi
      have hfalse := takeWhile_length_false hub_lt (Eq.symm hubdef)
      simp only [decide_eq_true_eq] at hfalse
      rw [show s.extent_set_.get ⟨ub, hub_lt⟩ = s.extent_set_[ub] from rfl] at hfalse
      have hfalse' : ¬ s.extent_set_[ub].start_block < x + 1 := by
        simpa using hfalse
      rcases Nat.eq_or_lt_of_le hcon with heq | hlt
      · have hEq : s.extent_set_[ub] = s.extent_set_[i] := by
          have hfin : (⟨ub, hub_lt⟩ : Fin s.extent_set_.length) = ⟨i, hi⟩ :=
            Fin.ext heq
          simpa using congrArg s.extent_set_.get hfin
        rw [hEq] at hfalse'
        omega
      · have hsep := hpw ub i hub_lt hi hlt
        have hposub : 0 < (s.extent_set_[ub]).num_blocks :=
          (hwf _ (List.getElem_mem hub_lt)).1
        unfold eEnd at hsep
        omega
    refine ⟨s.extent_set_[i], ?_, hE1, ?_⟩
    · have hsl : i - low < ((s.extent_set_.drop low).take (ub - low)).length := by
        rw [List.length_take, List.length_drop]
        omega
      have hgl : ((s.extent_set_.drop low).take (ub - low))[i - low] =
          s.extent_set_[i] := by
        rw [List.getElem_take, List.getElem_drop]
        congr 1
        omega
      exact hgl ▸ List.getElem_mem hsl
    · rw [u64add_eq hwfi]
      exact hE2

/-- Claim C7 witness: containment on the singleton set `{[5,3]}` at block 6. -/
theorem claim_C7_witness :
    ExtentRanges.ContainsBlock ⟨[⟨5, 3⟩], 3, true⟩ 6 = true ↔
      ∃ E ∈ (⟨[⟨5, 3⟩], 3, true⟩ : ExtentRanges).extent_set_,
        E.start_block ≤ 6 ∧ 6 < E.start_block + E.num_blocks :=
  claim_C7_amended ⟨[⟨5, 3⟩], 3, true⟩ 6
    ⟨⟨fun e he => by
        simp only [List.mem_singleton] at he
        subst he
        exact ⟨by decide, by decide, by decide⟩,
      List.chain'_singleton _⟩, rfl⟩
    (by decide)

/-! ## Claim C4 -/

theorem chain_sep_imp_lt {l : List Extent} (hpos : ∀ e ∈ l, 0 < e.num_blocks)
    (h : l.Chain' fun a b => eEnd a ≤ b.start_block) :
    l.Chain' fun a b => a.start_block < b.start_block := by
  induction l with
  | nil => simp
  | cons x xs ih =>
    rw [List.chain'_cons'] at h ⊢
    refine ⟨fun y hy => ?_, ih (fun e he => hpos e (by simp [he])) h.2⟩
    have h1 := h.1 y hy
    have h2 : 0 < x.num_blocks := hpos x (by simp)
    unfold eEnd at h1
    omega

theorem getExtentsLoop_spec (count : Nat) :
    ∀ (l : List Extent) (outB : Nat) (out : List Extent),
      (∀ e ∈ l, 0 < e.num_blocks) →
      (∀ e ∈ l, e.num_blocks < U64) →
      l.Chain' (fun a b => eEnd a ≤ b.start_block) →
      count < U64 →
      outB < count →
      count ≤ outB + BlocksInExtents l →
      ∃ extra, getExtentsLoop count l outB out = (count, out ++ extra) ∧
        BlocksInExtents extra = count - outB ∧
        (∀ p ∈ extra, ∃ E ∈ l, subRangeOf p E) ∧
        extra.Chain' (fun a b => eEnd a ≤ b.start_block) ∧
        (∀ p ∈ extra.head?, ∃ E ∈ l.head?, p.start_block = E.start_block) ∧
        (∀ p ∈ extra, 0 < p.num_blocks) := by
  intro l
  induction l with
  | nil =>
    intro outB out _ _ _ _ hlt hle
    simp only [BlocksInExtents, List.map_nil, List.sum_nil, Nat.add_zero] at hle
    omega
  | cons E rest ih =>
    intro outB out hpos hnum hch hcU hlt hle
    have hEpos : 0 < E.num_blocks := hpos E (by simp)
    have hEnum : E.num_blocks < U64 := hnum E (by simp)
    have houtB : outB < U64 := by omega
    have hneed : u64sub count outB = count - outB := u64sub_eq hcU (by omega)
    rw [List.chain'_cons'] at hch
    simp only [getExtentsLoop, hneed]
    rcases Nat.lt_trichotomy E.num_blocks (count - outB) with hc | hc | hc
    · -- whole entry consumed, continue
      rw [if_pos hc]
      have hadd : u64add outB E.num_blocks = outB + E.num_blocks :=
        u64add_eq (by omega)
      rw [hadd]
      simp only [BlocksInExtents, List.map_cons, List.sum_cons] at hle
      obtain ⟨extra, heq, hsum, hsub, hchain, hhead, hpos'⟩ :=
        ih (outB + E.num_blocks) (out ++ [E])
          (fun e he => hpos e (by simp [he])) (fun e he => hnum e (by simp [he]))
          hch.2 hcU (by omega) (by simp [BlocksInExtents]; omega)
      refine ⟨E :: extra, ?_, ?_, ?_, ?_, ?_, ?_⟩
      · rw [heq, List.append_assoc]
        rfl
      · simp only [BlocksInExtents, List.map_cons, List.sum_cons] at hsum ⊢
        omega
      · rintro p hp
        rcases List.mem_cons.mp hp with rfl | hp'
        · exact ⟨p, by simp, le_refl _, le_refl _⟩
        · obtain ⟨E', hE', hs⟩ := hsub p hp'
          exact ⟨E', by simp [hE'], hs⟩
      · rw [List.chain'_cons']
        refine ⟨fun y hy => ?_, hchain⟩
        obtain ⟨E', hE', hstart⟩ := hhead y hy
        cases hrest : rest with
        | nil => simp [hrest] at hE'
        | cons F rest' =>
          simp only [hrest, List.head?_cons, Option.mem_def, Option.some.injEq] at hE'
          subst hE'
          have := hch.1 F (by simp [hrest])
          omega
      · intro p hp
        simp only [List.head?_cons, Option.mem_def, Option.some.injEq] at hp
        subst hp
        exact ⟨E, by simp, rfl⟩
      · intro p hp
        rcases List.mem_cons.mp hp with rfl | hp'
        · exact hEpos
        · exact hpos' p hp'
    · -- exact fit, stop
      rw [if_neg (by omega), if_pos hc]
      have hadd : u64add outB E.num_blocks = outB + E.num_blocks :=
        u64add_eq (by omega)
      refine ⟨[E], ?_, ?_, ?_, ?_, ?_, ?_⟩
      · rw [hadd, hc]
        have : outB + (count - outB) = count := by omega
        rw [this]
      · simp only [BlocksInExtents, List.map_cons, List.map_nil, List.sum_cons,
          List.sum_nil]
        omega
      · rintro p hp
        rcases List.mem_cons.mp hp with rfl | hp'
        · exact ⟨p, by simp, le_refl _, le_refl _⟩
        · simp at hp'
      · exact List.chain'_singleton _
      · intro p hp
        simp only [List.head?_cons, Option.mem_def, Option.some.injEq] at hp
        subst hp
        exact ⟨E, by simp, rfl⟩
      · intro p hp
        rcases List.mem_cons.mp hp with rfl | hp'
        · exact hEpos
        · simp at hp'
    · -- overshoot: truncate the last entry
      rw [if_neg (by omega), if_neg (by omega)]
      rw [show u64sub (u64add outB E.num_blocks) E.num_blocks = outB from
          u64sub_u64add_cancel houtB hEnum,
        u64add_eq (by omega : outB + (count - outB) < U64)]
      refine ⟨[ExtentForRange E.start_block (count - outB)], ?_, ?_, ?_, ?_, ?_, ?_⟩
      · have : outB + (count - outB) = count := by omega
        rw [this]
      · simp only [BlocksInExtents, ExtentForRange, List.map_cons, List.map_nil,
          List.sum_cons, List.sum_nil]
        omega
      · rintro p hp
        rcases List.mem_cons.mp hp with rfl | hp'
        · exact ⟨E, by simp, le_refl _, by simp only [ExtentForRange, eEnd]; omega⟩
        · simp at hp'
      · exact List.chain'_singleton _
      · intro p hp
        simp only [List.head?_cons, Option.mem_def, Option.some.injEq] at hp
        subst hp
        exact ⟨E, by simp, rfl⟩
      · intro p hp
        rcases List.mem_cons.mp hp with rfl | hp'
        · simp only [ExtentForRange]
          omega
        · simp at hp'

/-- Claim C4: on a set satisfying the maintained invariant,
`GetExtentsForBlockCount(0)` returns the empty sequence; for
`0 < n <= blocks_` it returns extents in ascending order, each a sub-range of
a stored entry, whose sizes sum to exactly `n`; and for `n > blocks_` the
fatal `CHECK(count <= blocks_)` branch is reached (modelled as `none`). -/
theorem claim_C4 (s : ExtentRanges) (n : Nat)
    (hpos : ∀ e ∈ s.extent_set_, 0 < e.num_blocks)
    (hnum : ∀ e ∈ s.extent_set_, e.num_blocks < U64)
    (hch : s.extent_set_.Chain' fun a b => eEnd a ≤ b.start_block)
    (hblocks : s.blocks_ = BlocksInExtents s.extent_set_)
    (hbU : s.blocks_ < U64) :
    (s.GetExtentsForBlockCount 0 = some []) ∧
    (0 < n → n ≤ s.blocks_ →
      ∃ out, s.GetExtentsForBlockCount n = some out ∧
        BlocksInExtents out = n ∧
        out.Chain' (fun a b => a.start_block < b.start_block) ∧
        ∀ p ∈ out, ∃ E ∈ s.extent_set_, subRangeOf p E) ∧
    (s.blocks_ < n → s.GetExtentsForBlockCount n = none) := by
  refine ⟨rfl, fun hn hle => ?_, fun hgt => ?_⟩
  · obtain ⟨extra, heq, hsum, hsub, hchain, -, hpos'⟩ :=
      getExtentsLoop_spec n s.extent_set_ 0 [] hpos hnum hch (by omega) hn
        (by omega)
    refine ⟨extra, ?_, by omega, chain_sep_imp_lt hpos' hchain, hsub⟩
    unfold ExtentRanges.GetExtentsForBlockCount
    rw [if_neg (by omega), if_pos hle, heq]
    simp only [List.nil_append]
    rw [if_pos (by omega)]
  · unfold ExtentRanges.GetExtentsForBlockCount
    rw [if_neg (by omega), if_neg (by omega)]

/-- Claim C4 witness: the set `{[0,4],[10,4]}` (8 blocks) with `n = 5`. -/
theorem claim_C4_witness :
    ((⟨[⟨0, 4⟩, ⟨10, 4⟩], 8, true⟩ : ExtentRanges).GetExtentsForBlockCount 0 = some []) ∧
    (0 < 5 → 5 ≤ (⟨[⟨0, 4⟩, ⟨10, 4⟩], 8, true⟩ : ExtentRanges).blocks_ →
      ∃ out, (⟨[⟨0, 4⟩, ⟨10, 4⟩], 8, true⟩ : ExtentRanges).GetExtentsForBlockCount 5 =
          some out ∧
        BlocksInExtents out = 5 ∧
        out.Chain' (fun a b => a.start_block < b.start_block) ∧
        ∀ p ∈ out, ∃ E ∈ (⟨[⟨0, 4⟩, ⟨10, 4⟩], 8, true⟩ : ExtentRanges).extent_set_,
          subRangeOf p E) ∧
    ((⟨[⟨0, 4⟩, ⟨10, 4⟩], 8, true⟩ : ExtentRanges).blocks_ < 5 →
      (⟨[⟨0, 4⟩, ⟨10, 4⟩], 8, true⟩ : ExtentRanges).GetExtentsForBlockCount 5 = none) :=
  claim_C4 ⟨[⟨0, 4⟩, ⟨10, 4⟩], 8, true⟩ 5 (by decide) (by decide)
    (List.chain'_cons.mpr ⟨by decide, List.chain'_singleton _⟩) rfl (by decide)

/-! ## Claim C3 -/

theorem BlocksInExtents_append (l1 l2 : List Extent) :
    BlocksInExtents (l1 ++ l2) = BlocksInExtents l1 + BlocksInExtents l2 := by
  simp [BlocksInExtents]

theorem nonsent_of_wf {e : Extent} (hp : 0 < e.num_blocks) (hw : eEnd e < U64) :
    e.start_block ≠ kSparseHole := by
  have hk : kSparseHole + 1 = U64 := by decide
  unfold eEnd at hw
  omega

theorem filterLoop_spec :
    ∀ (cand : List Extent) (c : Extent) (res : List Extent),
      0 < c.num_blocks → eEnd c < U64 →
      (∀ E ∈ cand, 0 < E.num_blocks ∧ eEnd E < U64) →
      cand.Chain' (fun a b => eEnd a ≤ b.start_block) →
      BlocksInExtents (filterLoop cand c res) +
          (cand.map fun E =>
            min (eEnd c) (eEnd E) - max c.start_block E.start_block).sum =
        BlocksInExtents res + c.num_blocks := by
  intro cand
  induction cand with
  | nil =>
    intro c res hc hcw _ _
    simp only [filterLoop, List.map_nil, List.sum_nil, Nat.add_zero]
    rw [if_pos hc, BlocksInExtents_append]
    simp [BlocksInExtents]
  | cons iter rest ih =>
    intro c res hc hcw hent hch
    have hip : 0 < iter.num_blocks := (hent iter (by simp)).1
    have hiw : eEnd iter < U64 := (hent iter (by simp)).2
    have hcs : c.start_block ≠ kSparseHole := nonsent_of_wf hc hcw
    have his : iter.start_block ≠ kSparseHole := nonsent_of_wf hip hiw
    have hrest_entries : ∀ E ∈ rest, 0 < E.num_blocks ∧ eEnd E < U64 :=
      fun E hE => hent E (by simp [hE])
    rw [List.chain'_cons'] at hch
    have hrestsep : ∀ E ∈ rest, eEnd iter ≤ E.start_block :=
      chain_sep_head (fun e he => (hrest_entries e he).1)
        (List.chain'_cons'.mpr hch)
    simp only [List.map_cons, List.sum_cons]
    cases hov : ExtentRanges.ExtentsOverlap c iter with
    | false =>
      have hno := (ExtentsOverlap_eq_true_iff hc hip hcw hiw hcs his).symm.not.mpr
        (by rw [hov]; simp)
      have hzero : min (eEnd c) (eEnd iter) - max c.start_block iter.start_block = 0 := by
        push_neg at hno
        rcases Nat.lt_or_ge iter.start_block (eEnd c) with h | h
        · have := hno h
          omega
        · omega
      simp only [filterLoop, hov, Bool.not_false, if_true]
      rw [hzero]
      have := ih c res hc hcw hrest_entries hch.2
      omega
    | true =>
      have hovf := (ExtentsOverlap_eq_true_iff hc hip hcw hiw hcs his).mp hov
      simp only [filterLoop, hov, Bool.not_true, Bool.false_eq_true, if_false]
      by_cases hdir : iter.start_block ≤ c.start_block
      · rw [if_pos hdir]
        have hcut : u64sub (u64add iter.start_block iter.num_blocks) c.start_block =
            eEnd iter - c.start_block := by
          rw [show u64add iter.start_block iter.num_blocks = eEnd iter from
            u64add_eq hiw]
          exact u64sub_eq hiw (le_of_lt hovf.2)
        rw [hcut]
        by_cases hbig : eEnd iter - c.start_block ≥ c.num_blocks
        · rw [if_pos hbig]
          have h1 : min (eEnd c) (eEnd iter) - max c.start_block iter.start_block
              = c.num_blocks := by
            unfold eEnd at *
            omega
          have h2 : (rest.map fun E => min (eEnd c) (eEnd E) -
              max c.start_block E.start_block).sum = 0 := by
            apply List.sum_eq_zero
            intro x hx
            simp only [List.mem_map] at hx
            obtain ⟨E, hE, rfl⟩ := hx
            have h3 := hrestsep E hE
            unfold eEnd at *
            omega
          omega
        · rw [if_neg hbig]
          push_neg at hbig
          have hstart' : u64add c.start_block (eEnd iter - c.start_block) = eEnd iter := by
            rw [u64add_eq (by unfold eEnd at *; omega)]
            unfold eEnd at *
            omega
          have hnum' : u64sub c.num_blocks (eEnd iter - c.start_block) =
              c.num_blocks - (eEnd iter - c.start_block) :=
            u64sub_eq (by unfold eEnd at hcw; omega) (le_of_lt hbig)
          rw [hstart', hnum']
          have hc'pos : 0 < (ExtentForRange (eEnd iter)
              (c.num_blocks - (eEnd iter - c.start_block))).num_blocks := by
            simp only [ExtentForRange]
            omega
          have hc'end : eEnd (ExtentForRange (eEnd iter)
              (c.num_blocks - (eEnd iter - c.start_block))) = eEnd c := by
            simp only [ExtentForRange, eEnd]
            unfold eEnd at *
            omega
          have hih := ih (ExtentForRange (eEnd iter)
              (c.num_blocks - (eEnd iter - c.start_block))) res hc'pos
            (by rw [hc'end]; exact hcw) hrest_entries hch.2
          have hmapeq : (rest.map fun E =>
              min (eEnd (ExtentForRange (eEnd iter)
                (c.num_blocks - (eEnd iter - c.start_block)))) (eEnd E) -
              max (ExtentForRange (eEnd iter)
                (c.num_blocks - (eEnd iter - c.start_block))).start_block
                E.start_block) =
              (rest.map fun E => min (eEnd c) (eEnd E) -
                max c.start_block E.start_block) := by
            apply List.map_congr_left
            intro E hE
            have h3 := hrestsep E hE
            rw [hc'end]
            simp only [ExtentForRange]
            unfold eEnd at *
            omega
          rw [hmapeq] at hih
          have h1 : min (eEnd c) (eEnd iter) - max c.start_block iter.start_block =
              eEnd iter - c.start_block := by
            unfold eEnd at *
            omega
          have hc'num : (ExtentForRange (eEnd iter)
              (c.num_blocks - (eEnd iter - c.start_block))).num_blocks =
              c.num_blocks - (eEnd iter - c.start_block) := rfl
          rw [hc'num] at hih
          omega
      · rw [if_neg hdir]
        push_neg at hdir
        have hpiece : u64sub iter.start_block c.start_block =
            iter.start_block - c.start_block :=
          u64sub_eq (by unfold eEnd at hiw; omega) (le_of_lt hdir)
        rw [hpiece,
          show u64add iter.start_block iter.num_blocks = eEnd iter from u64add_eq hiw,
          show u64add c.start_block c.num_blocks = eEnd c from u64add_eq hcw]
        have hresBlocks : BlocksInExtents (res ++
            [ExtentForRange c.start_block (iter.start_block - c.start_block)]) =
            BlocksInExtents res + (iter.start_block - c.start_block) := by
          rw [BlocksInExtents_append]
          simp [BlocksInExtents, ExtentForRange]
        by_cases hend : eEnd iter ≥ eEnd c
        · rw [if_pos hend, hresBlocks]
          have h1 : min (eEnd c) (eEnd iter) - max c.start_block iter.start_block =
              eEnd c - iter.start_block := by
            unfold eEnd at *
            omega
          have h2 : (rest.map fun E => min (eEnd c) (eEnd E) -
              max c.start_block E.start_block).sum = 0 := by
            apply List.sum_eq_zero
            intro x hx
            simp only [List.mem_map] at hx
            obtain ⟨E, hE, rfl⟩ := hx
            have h3 := hrestsep E hE
            unfold eEnd at *
            omega
          unfold eEnd at *
          omega
        · rw [if_neg hend]
          push_neg at hend
          have hnum2 : u64sub (eEnd c) (eEnd iter) = eEnd c - eEnd iter :=
            u64sub_eq hcw (le_of_lt hend)
          rw [hnum2]
          have hc'pos : 0 < (ExtentForRange (eEnd iter) (eEnd c - eEnd iter)).num_blocks := by
            simp only [ExtentForRange]
            omega
          have hc'end : eEnd (ExtentForRange (eEnd iter) (eEnd c - eEnd iter)) = eEnd c := by
            show eEnd iter + (eEnd c - eEnd iter) = eEnd c
            omega
          have hih := ih (ExtentForRange (eEnd iter) (eEnd c - eEnd iter))
            (res ++ [ExtentForRange c.start_block (iter.start_block - c.start_block)])
            hc'pos (by rw [hc'end]; exact hcw) hrest_entries hch.2
          have hmapeq : (rest.map fun E =>
              min (eEnd (ExtentForRange (eEnd iter) (eEnd c - eEnd iter))) (eEnd E) -
              max (ExtentForRange (eEnd iter) (eEnd c - eEnd iter)).start_block
                E.start_block) =
              (rest.map fun E => min (eEnd c) (eEnd E) -
                max c.start_block E.start_block) := by
            apply List.map_congr_left
            intro E hE
            have h3 := hrestsep E hE
            rw [hc'end]
            simp only [ExtentForRange]
            unfold eEnd at *
            omega
          have hc'num : (ExtentForRange (eEnd iter) (eEnd c - eEnd iter)).num_blocks =
              eEnd c - eEnd iter := rfl
          rw [hmapeq, hresBlocks, hc'num] at hih
          have he1 : eEnd iter = iter.start_block + iter.num_blocks := rfl
          have he2 : eEnd c = c.start_block + c.num_blocks := rfl
          omega

theorem filterLoop_zero :
    ∀ (cand : List Extent) (c : Extent) (res : List Extent),
      c.num_blocks = 0 → c.start_block < U64 → filterLoop cand c res = res := by
  intro cand
  induction cand with
  | nil =>
    intro c res h0 _
    simp only [filterLoop]
    rw [if_neg (by omega)]
  | cons iter rest ih =>
    intro c res h0 hcs
    cases hov : ExtentRanges.ExtentsOverlap c iter with
    | false =>
      simp only [filterLoop, hov, Bool.not_false, if_true]
      exact ih c res h0 hcs
    | true =>
      have hlt : iter.start_block < c.start_block := by
        unfold ExtentRanges.ExtentsOverlap at hov
        split_ifs at hov with h1 h2 h3
        · simp only [decide_eq_true_eq] at hov
          omega
        · simp only [decide_eq_true_eq, gt_iff_lt] at hov
          have : u64add c.start_block c.num_blocks = c.start_block := by
            rw [h0]
            exact Nat.mod_eq_of_lt (by omega)
          rw [this] at hov
          omega
        · omega
      simp only [filterLoop, hov, Bool.not_true, Bool.false_eq_true, if_false]
      rw [if_pos (le_of_lt hlt), if_pos (by omega)]

theorem BlocksInExtents_cons (e : Extent) (l : List Extent) :
    BlocksInExtents (e :: l) = e.num_blocks + BlocksInExtents l := by
  simp [BlocksInExtents]

theorem filterOne_spec (es : List Extent) (e : Extent) (res : List Extent)
    (hent : ∀ E ∈ es, 0 < E.num_blocks ∧ eEnd E < U64)
    (hch : es.Chain' fun a b => eEnd a ≤ b.start_block)
    (hpos : 0 < e.num_blocks) (hew : eEnd e < U64) :
    BlocksInExtents
        (filterLoop
          ((es.drop (if lowerBound es e ≠ 0 then lowerBound es e - 1
              else lowerBound es e)).take
            (lowerBound es (ExtentForRange (u64add e.start_block e.num_blocks) 0) -
              (if lowerBound es e ≠ 0 then lowerBound es e - 1 else lowerBound es e)))
          e res) +
      (es.map fun E => min (eEnd e) (eEnd E) - max e.start_block E.start_block).sum =
    BlocksInExtents res + e.num_blocks := by
  have hpw0 := chain_sep_pairwise (fun E hE => (hent E hE).1) hch
  rw [List.pairwise_iff_getElem] at hpw0
  set lb := lowerBound es e with hlbd
  set ub := lowerBound es
    (ExtentForRange (u64add e.start_block e.num_blocks) 0) with hubd
  set low := if lb ≠ 0 then lb - 1 else lb with hlowd
  have hlb_eq : lb = (es.takeWhile fun a => extentLess a e).length := hlbd
  have hub2 : ub = (es.takeWhile fun E => decide (E.start_block < eEnd e)).length := by
    rw [hubd, show u64add e.start_block e.num_blocks = eEnd e from u64add_eq hew]
    unfold lowerBound
    exact congrArg List.length (takeWhile_congr_mem fun y _ => extentLess_probe_zero)
  have hub_len : ub ≤ es.length := by
    rw [hub2]
    exact takeWhile_length_le _ _
  have hlb_le_ub : lb ≤ ub := by
    rw [hlb_eq, hub2]
    apply length_takeWhile_mono
    intro E hE hless
    rw [extentLess_iff] at hless
    simp only [decide_eq_true_eq]
    unfold eEnd
    rcases hless with h | ⟨h, -⟩ <;> omega
  have hlb_len : lb ≤ es.length := by
    rw [hlb_eq]
    exact takeWhile_length_le _ _
  have hlow_le_lb : low ≤ lb := by
    rw [hlowd]
    split <;> omega
  have hP0 : ∀ E ∈ es.take low,
      min (eEnd e) (eEnd E) - max e.start_block E.start_block = 0 := by
    intro E hEmem
    rw [List.mem_take_iff_getElem] at hEmem
    obtain ⟨i, hm, rfl⟩ := hEmem
    have hi_lt : i < low := lt_of_lt_of_le hm (min_le_left _ _)
    have hi_len : i < es.length := lt_of_lt_of_le hm (min_le_right _ _)
    have hlb0 : lb ≠ 0 := by
      intro h0
      have : low = 0 := by
        rw [hlowd, h0]
        simp
      omega
    have hi1 : i + 1 < lb := by
      rw [hlowd, if_pos hlb0] at hi_lt
      omega
    have hlen1 : i + 1 < es.length := by omega
    have htrue := takeWhile_getElem_true hlen1 (hlb_eq ▸ hi1)
    rw [show es.get ⟨i + 1, hlen1⟩ = es[i + 1] from rfl] at htrue
    rw [extentLess_iff] at htrue
    have hsep := hpw0 i (i + 1) hi_len hlen1 (by omega)
    have hstart : es[i + 1].start_block ≤ e.start_block := by
      rcases htrue with h | ⟨h, -⟩ <;> omega
    omega
  have hS0 : ∀ E ∈ es.drop ub,
      min (eEnd e) (eEnd E) - max e.start_block E.start_block = 0 := by
    intro E hEmem
    rw [List.mem_drop_iff_getElem] at hEmem
    obtain ⟨i, hm, rfl⟩ := hEmem
    have hub_lt : ub < es.length := by omega
    have hfalse := takeWhile_length_false hub_lt hub2
    rw [show es.get ⟨ub, hub_lt⟩ = es[ub] from rfl] at hfalse
    simp only [decide_eq_false_iff_not, not_lt] at hfalse
    have hstart_ge : es[ub].start_block ≤ es[ub + i].start_block := by
      rcases Nat.eq_zero_or_pos i with h0 | hposi
      · subst h0
        simp
      · have hsep := hpw0 ub (ub + i) hub_lt (by omega) (by omega)
        have hposub : 0 < es[ub].num_blocks := (hent _ (List.getElem_mem hub_lt)).1
        unfold eEnd at hsep
        omega
    omega
  have hES : es.take low ++ ((es.drop low).take (ub - low) ++ es.drop ub) = es := by
    have h1 : (es.drop low).take (ub - low) ++ (es.drop low).drop (ub - low) =
        es.drop low := List.take_append_drop _ _
    rw [List.drop_drop] at h1
    rw [show low + (ub - low) = ub by omega] at h1
    rw [h1, List.take_append_drop]
  have hsplit : (es.map fun E =>
      min (eEnd e) (eEnd E) - max e.start_block E.start_block).sum =
      (((es.drop low).take (ub - low)).map fun E =>
        min (eEnd e) (eEnd E) - max e.start_block E.start_block).sum := by
    conv_lhs => rw [← hES]
    rw [List.map_append, List.map_append, List.sum_append, List.sum_append]
    have hz1 : ((es.take low).map fun E =>
        min (eEnd e) (eEnd E) - max e.start_block E.start_block).sum = 0 := by
      apply List.sum_eq_zero
      intro x hx
      simp only [List.mem_map] at hx
      obtain ⟨E, hE, rfl⟩ := hx
      exact hP0 E hE
    have hz2 : ((es.drop ub).map fun E =>
        min (eEnd e) (eEnd E) - max e.start_block E.start_block).sum = 0 := by
      apply List.sum_eq_zero
      intro x hx
      simp only [List.mem_map] at hx
      obtain ⟨E, hE, rfl⟩ := hx
      exact hS0 E hE
    omega
  rw [hsplit]
  exact filterLoop_spec _ e res hpos hew
    (fun E hE => hent E (List.mem_of_mem_drop (List.mem_of_mem_take hE)))
    ((hch.drop low).take _)

theorem filterFold_spec (X : ExtentRanges)
    (hent : ∀ E ∈ X.extent_set_, 0 < E.num_blocks ∧ eEnd E < U64)
    (hch : X.extent_set_.Chain' fun a b => eEnd a ≤ b.start_block) :
    ∀ (extents res : List Extent), (∀ e ∈ extents, eEnd e < U64) →
      BlocksInExtents
          (extents.foldl
            (fun result extent =>
              filterLoop
                ((X.extent_set_.drop
                    (if lowerBound X.extent_set_ extent ≠ 0 then
                      lowerBound X.extent_set_ extent - 1
                    else lowerBound X.extent_set_ extent)).take
                  (lowerBound X.extent_set_
                      (ExtentForRange
                        (u64add extent.start_block extent.num_blocks) 0) -
                    (if lowerBound X.extent_set_ extent ≠ 0 then
                      lowerBound X.extent_set_ extent - 1
                    else lowerBound X.extent_set_ extent)))
                extent result)
            res) +
        (extents.map fun e => (X.extent_set_.map fun E =>
          min (eEnd e) (eEnd E) - max e.start_block E.start_block).sum).sum =
      BlocksInExtents res + BlocksInExtents extents := by
  intro extents
  induction extents with
  | nil =>
    intro res _
    simp [BlocksInExtents]
  | cons e rest ih =>
    intro res hin
    simp only [List.foldl_cons, List.map_cons, List.sum_cons, BlocksInExtents_cons]
    have hew := hin e (by simp)
    rcases Nat.eq_zero_or_pos e.num_blocks with h0 | hpos
    · rw [filterLoop_zero _ _ _ h0 (by unfold eEnd at hew; omega)]
      have hrow : (X.extent_set_.map fun E =>
          min (eEnd e) (eEnd E) - max e.start_block E.start_block).sum = 0 := by
        apply List.sum_eq_zero
        intro x hx
        simp only [List.mem_map] at hx
        obtain ⟨E, hE, rfl⟩ := hx
        have he0 : eEnd e = e.start_block := by
          unfold eEnd
          omega
        omega
      have hr := ih res fun x hx => hin x (by simp [hx])
      rw [hrow]
      omega
    · have h1 := filterOne_spec X.extent_set_ e res hent hch hpos hew
      have hr := ih
        (filterLoop
          ((X.extent_set_.drop
              (if lowerBound X.extent_set_ e ≠ 0 then lowerBound X.extent_set_ e - 1
              else lowerBound X.extent_set_ e)).take
            (lowerBound X.extent_set_
                (ExtentForRange (u64add e.start_block e.num_blocks) 0) -
              (if lowerBound X.extent_set_ e ≠ 0 then lowerBound X.extent_set_ e - 1
              else lowerBound X.extent_set_ e)))
          e res)
        fun x hx => hin x (by simp [hx])
      omega

/-- Claim C3 (amended): for input extents whose ends do not overflow `uint64`
and an exclude set satisfying the maintained invariant, the number of blocks
in the output of `FilterExtentRanges` plus the number of blocks of the
intersection between the inputs and the exclude set equals the number of
input blocks (i.e. output = input minus intersection). -/
theorem claim_C3_amended (extents : List Extent) (X : ExtentRanges)
    (hX : SetInv X) (hin : ∀ e ∈ extents, eEnd e < U64) :
    BlocksInExtents (FilterExtentRanges extents X) +
      inputIntersectionBlocks extents X.extent_set_ =
    BlocksInExtents extents := by
  obtain ⟨⟨hwf, hch⟩, -⟩ := hX
  have hent : ∀ E ∈ X.extent_set_, 0 < E.num_blocks ∧ eEnd E < U64 :=
    fun E hE => ⟨(hwf E hE).1, (hwf E hE).2.1⟩
  have hch' : X.extent_set_.Chain' fun a b => eEnd a ≤ b.start_block :=
    List.Chain'.imp (fun _ _ => sep_le) hch
  rw [inputIntersectionBlocks_eq_sum _ _ (fun E hE => (hent E hE).1) hch']
  have hfold := filterFold_spec X hent hch' extents [] hin
  rw [show BlocksInExtents ([] : List Extent) = 0 from rfl, Nat.zero_add] at hfold
  exact hfold

/-- Claim C3 witness: filtering `[{0,10}]` against the exclude set `{[3,4]}`. -/
theorem claim_C3_witness :
    BlocksInExtents (FilterExtentRanges [⟨0, 10⟩] ⟨[⟨3, 4⟩], 4, true⟩) +
      inputIntersectionBlocks [⟨0, 10⟩]
        (⟨[⟨3, 4⟩], 4, true⟩ : ExtentRanges).extent_set_ =
    BlocksInExtents [⟨0, 10⟩] :=
  claim_C3_amended [⟨0, 10⟩] ⟨[⟨3, 4⟩], 4, true⟩
    ⟨⟨fun E hE => by
        simp only [List.mem_singleton] at hE
        subst hE
        exact ⟨by decide, by decide, by decide⟩,
      List.chain'_singleton _⟩, rfl⟩
    (by decide)

/-! ## Extent construction and union arithmetic -/

theorem mk_start (a b : Nat) : (Extent.mk a b).start_block = a := rfl

theorem mk_num (a b : Nat) : (Extent.mk a b).num_blocks = b := rfl

theorem eEnd_mk (a b : Nat) : eEnd (Extent.mk a b) = a + b := rfl

theorem ExtentForRange_eq (a b : Nat) : ExtentForRange a b = Extent.mk a b := rfl

theorem u64sub_zero {a : Nat} (h : a < U64) : u64sub a 0 = a := by
  unfold u64sub
  rw [show a + U64 - 0 = a + U64 from rfl, Nat.add_mod_right, Nat.mod_eq_of_lt h]

theorem Union_eq {f s : Extent} (hf : eEnd f < U64) (hs : eEnd s < U64) :
    UnionOverlappingExtents f s =
      ⟨min f.start_block s.start_block,
        max (eEnd f) (eEnd s) - min f.start_block s.start_block⟩ := by
  have hf' : f.start_block + f.num_blocks < U64 := hf
  have hs' : s.start_block + s.num_blocks < U64 := hs
  show ExtentForRange (min f.start_block s.start_block)
      (u64sub
        (max (u64add f.start_block f.num_blocks) (u64add s.start_block s.num_blocks))
        (min f.start_block s.start_block)) = _
  rw [u64add_eq hf', u64add_eq hs', ExtentForRange_eq,
    u64sub_eq (by omega) (by omega)]
  rfl

theorem Union_span {f s : Extent} (hf : eEnd f < U64) (hs : eEnd s < U64)
    (hfp : 0 < f.num_blocks) (hsp : 0 < s.num_blocks)
    (h1 : s.start_block ≤ eEnd f) (h2 : f.start_block ≤ eEnd s) (x : Nat) :
    spanMem (UnionOverlappingExtents f s) x ↔ spanMem f x ∨ spanMem s x := by
  rw [Union_eq hf hs]
  have he1 : eEnd f = f.start_block + f.num_blocks := rfl
  have he2 : eEnd s = s.start_block + s.num_blocks := rfl
  simp only [spanMem, eEnd_mk, mk_start]
  omega

theorem Union_facts {f s : Extent} (hf : eEnd f < U64) (hs : eEnd s < U64)
    (hfp : 0 < f.num_blocks) :
    (UnionOverlappingExtents f s).start_block = min f.start_block s.start_block ∧
    eEnd (UnionOverlappingExtents f s) = max (eEnd f) (eEnd s) ∧
    0 < (UnionOverlappingExtents f s).num_blocks := by
  rw [Union_eq hf hs]
  have he1 : eEnd f = f.start_block + f.num_blocks := rfl
  refine ⟨rfl, ?_, ?_⟩
  · simp only [eEnd_mk]
    omega
  · simp only [mk_num]
    omega

/-! ## `setInsert` placement -/

theorem extentLess_asymm {a b : Extent} (h : extentLess a b = true) :
    extentLess b a = false := by
  rw [extentLess_iff] at h
  rw [extentLess_false_iff]
  omega

theorem setInsert_append {L R : List Extent} {x : Extent}
    (h : ∀ a ∈ L, extentLess a x = true) :
    setInsert (L ++ R) x = L ++ setInsert R x := by
  induction L with
  | nil => rfl
  | cons a L' ih =>
    have ha := h a (by simp)
    simp only [List.cons_append, setInsert]
    rw [if_neg (by simp [extentLess_asymm ha]), if_pos ha, List.append_eq,
      ih fun y hy => h y (by simp [hy])]

theorem setInsert_cons_lt {x r : Extent} {R : List Extent}
    (h : extentLess x r = true) : setInsert (r :: R) x = x :: r :: R := by
  simp only [setInsert]
  rw [if_pos h]

/-! ## `takeWhile`/`dropWhile` splitting -/

theorem dropWhile_append_all {α : Type} {p : α → Bool} {l1 l2 : List α}
    (h : ∀ x ∈ l1, p x = true) :
    (l1 ++ l2).dropWhile p = l2.dropWhile p := by
  induction l1 with
  | nil => rfl
  | cons x xs ih =>
    rw [List.cons_append, List.dropWhile_cons_of_pos (h x (by simp))]
    exact ih fun y hy => h y (by simp [hy])

theorem takeWhile_split {α : Type} {p q : α → Bool} {l : List α}
    (h : ∀ x ∈ l, q x = true → p x = true) :
    l.takeWhile p = l.takeWhile q ++ (l.dropWhile q).takeWhile p := by
  induction l with
  | nil => rfl
  | cons x xs ih =>
    by_cases hq : q x = true
    · rw [List.takeWhile_cons_of_pos (h x (by simp) hq),
        List.takeWhile_cons_of_pos hq, List.dropWhile_cons_of_pos hq,
        List.cons_append, ih fun y hy => h y (by simp [hy])]
    · rw [List.takeWhile_cons_of_neg hq, List.dropWhile_cons_of_neg hq,
        List.nil_append]

/-! ## The run decomposition -/

theorem run_decomp (m : Bool) (l : List Extent) (e : Extent) :
    runL m l e ++ (runMid m l e ++ runR m l e) = l := by
  unfold runL runMid runR
  rw [List.takeWhile_append_dropWhile, List.takeWhile_append_dropWhile]

theorem sep_true_iff {a b : Extent} : sep true a b ↔ eEnd a < b.start_block := by
  simp [sep]

theorem sep_false_iff {a b : Extent} : sep false a b ↔ eEnd a ≤ b.start_block := by
  simp [sep]

theorem sep_trans_pos {m : Bool} {a b c : Extent} (hb : 0 < b.num_blocks)
    (h1 : sep m a b) (h2 : sep m b c) : sep m a c := by
  have he : eEnd b = b.start_block + b.num_blocks := rfl
  cases m
  · rw [sep_false_iff] at *
    omega
  · rw [sep_true_iff] at *
    omega

theorem chain_sepm_head {m : Bool} {x : Extent} {xs : List Extent}
    (hpos : ∀ q ∈ xs, 0 < q.num_blocks)
    (hch : List.Chain' (sep m) (x :: xs)) :
    ∀ b ∈ xs, sep m x b := by
  induction xs generalizing x with
  | nil => simp
  | cons y ys ih =>
    intro b hb
    rw [List.chain'_cons] at hch
    rcases List.mem_cons.mp hb with rfl | hb'
    · exact hch.1
    · exact sep_trans_pos (hpos y (by simp)) hch.1
        (ih (fun q hq => hpos q (by simp [hq])) hch.2 b hb')

theorem chain_sepm_pairwise {m : Bool} {l : List Extent}
    (hpos : ∀ q ∈ l, 0 < q.num_blocks) (hch : l.Chain' (sep m)) :
    l.Pairwise (sep m) := by
  induction l with
  | nil => simp
  | cons x xs ih =>
    rw [List.chain'_cons'] at hch
    refine List.Pairwise.cons ?_ (ih (fun q hq => hpos q (by simp [hq])) hch.2)
    exact chain_sepm_head (fun q hq => hpos q (by simp [hq]))
      (List.chain'_cons'.mpr hch)

/-! ## The total size of a separated entry list fits in 64 bits -/

theorem blocks_bound : ∀ {l : List Extent} {lb : Nat},
    (∀ q ∈ l, 0 < q.num_blocks ∧ eEnd q < U64) →
    l.Chain' (fun a b => eEnd a ≤ b.start_block) →
    (∀ x ∈ l.head?, lb ≤ x.start_block) →
    l = [] ∨ lb + BlocksInExtents l < U64 := by
  intro l
  induction l with
  | nil => exact fun _ _ _ => Or.inl rfl
  | cons x xs ih =>
    intro lb hq hch hhd
    right
    have hx := hq x (by simp)
    have hlb : lb ≤ x.start_block := hhd x rfl
    rw [List.chain'_cons'] at hch
    have hxs := ih (fun q h => hq q (by simp [h])) hch.2 hch.1
    have he : eEnd x = x.start_block + x.num_blocks := rfl
    rcases hxs with rfl | h
    · simp only [BlocksInExtents, List.map_cons, List.map_nil, List.sum_cons,
        List.sum_nil]
      omega
    · simp only [BlocksInExtents, List.map_cons, List.sum_cons] at *
      omega

theorem goodBlocks_lt {l : List Extent}
    (hq : ∀ q ∈ l, 0 < q.num_blocks ∧ eEnd q < U64)
    (hch : l.Chain' (fun a b => eEnd a ≤ b.start_block)) :
    BlocksInExtents l < U64 := by
  rcases @blocks_bound l 0 hq hch (fun x _ => Nat.zero_le _) with rfl | h
  · decide
  · omega

/-! ## Specialisations of the run predicates -/

theorem qualB_false_iff {e q : Extent} :
    qualB false e q = true ↔ q.start_block < eEnd e ∧ e.start_block < eEnd q := by
  simp [qualB]

theorem qualB_true_iff {e q : Extent} :
    qualB true e q = true ↔ q.start_block ≤ eEnd e ∧ e.start_block ≤ eEnd q := by
  simp [qualB]

theorem leftOfB_false_iff {e q : Extent} :
    leftOfB false e q = true ↔ eEnd q ≤ e.start_block := by
  simp [leftOfB]

theorem leftOfB_true_iff {e q : Extent} :
    leftOfB true e q = true ↔ eEnd q < e.start_block := by
  simp [leftOfB]

theorem coveredBy_cons {e : Extent} {l : List Extent} {x : Nat} :
    coveredBy (e :: l) x ↔ spanMem e x ∨ coveredBy l x := by
  simp [coveredBy]

theorem coveredBy_nil {x : Nat} : ¬ coveredBy [] x := by
  simp [coveredBy]

theorem coveredBy_append {l1 l2 : List Extent} {x : Nat} :
    coveredBy (l1 ++ l2) x ↔ coveredBy l1 x ∨ coveredBy l2 x := by
  simp [coveredBy, List.mem_append, or_and_right, exists_or]

/-! ## The `AddExtent` scan loop -/

theorem addScanLoop_append (m : Bool) :
    ∀ (xs ys : List Extent) (i : Nat) (del : Option (Nat × Nat)) (db : Nat)
      (ext : Extent),
      addScanLoop m (xs ++ ys) i del db ext =
        addScanLoop m ys (i + xs.length)
          (addScanLoop m xs i del db ext).1
          (addScanLoop m xs i del db ext).2.1
          (addScanLoop m xs i del db ext).2.2 := by
  intro xs
  induction xs with
  | nil =>
    intro ys i del db ext
    simp [addScanLoop]
  | cons it rest ih =>
    intro ys i del db ext
    simp only [List.cons_append, addScanLoop, List.length_cons, List.append_eq]
    split <;> split <;>
      rw [ih, show i + 1 + rest.length = i + (rest.length + 1) by omega]

theorem addScanLoop_skip (m : Bool) :
    ∀ (xs : List Extent) (i : Nat) (del : Option (Nat × Nat)) (db : Nat)
      (ext : Extent),
      (∀ it ∈ xs,
        (if m then ExtentRanges.ExtentsOverlapOrTouch it ext
          else ExtentRanges.ExtentsOverlap it ext) = false) →
      addScanLoop m xs i del db ext = (del, db, ext) := by
  intro xs
  induction xs with
  | nil => intro i del db ext _; rfl
  | cons it rest ih =>
    intro i del db ext h
    have hit := h it (by simp)
    simp only [addScanLoop]
    rw [if_neg (by simp [hit])]
    exact ih _ _ _ _ fun y hy => h y (by simp [hy])

theorem addScanLoop_all_merge (m : Bool) (e0 : Extent) :
    ∀ (M : List Extent) (i a db : Nat) (ext : Extent),
      (∀ q ∈ M, (0 < q.num_blocks ∧ eEnd q < U64) ∧ qualB m e0 q = true) →
      ext.start_block ≤ e0.start_block → eEnd e0 ≤ eEnd ext →
      eEnd ext < U64 → 0 < ext.num_blocks →
      db + (M.map Extent.num_blocks).sum < U64 →
      addScanLoop m M i (some (a, i)) db ext =
        (some (a, i + M.length), db + (M.map Extent.num_blocks).sum,
          M.foldl UnionOverlappingExtents ext) := by
  intro M
  induction M with
  | nil =>
    intro i a db ext _ _ _ _ _ _
    simp [addScanLoop]
  | cons q M' ih =>
    intro i a db ext hM hs1 hs2 hs3 hs4 hsum
    obtain ⟨⟨hqp, hqw⟩, hqual⟩ := hM q (by simp)
    have he0 : eEnd e0 = e0.start_block + e0.num_blocks := rfl
    have heq : eEnd q = q.start_block + q.num_blocks := rfl
    have hee : eEnd ext = ext.start_block + ext.num_blocks := rfl
    have hsum' : db + (q.num_blocks + (M'.map Extent.num_blocks).sum) < U64 := by
      simpa using hsum
    have hm : (if m then ExtentRanges.ExtentsOverlapOrTouch q ext
        else ExtentRanges.ExtentsOverlap q ext) = true := by
      cases m
      · show ExtentRanges.ExtentsOverlap q ext = true
        rw [ExtentsOverlap_eq_true_iff hqp hs4 hqw hs3
          (nonsent_of_wf hqp hqw) (nonsent_of_wf hs4 hs3)]
        have h := qualB_false_iff.mp hqual
        omega
      · show ExtentRanges.ExtentsOverlapOrTouch q ext = true
        rw [ExtentsOverlapOrTouch_eq_true_iff hqp hs4 hqw hs3
          (nonsent_of_wf hqp hqw) (nonsent_of_wf hs4 hs3)]
        have h := qualB_true_iff.mp hqual
        omega
    obtain ⟨hu1, hu2, hu3⟩ := Union_facts hs3 hqw hs4
    have hdb : u64add db q.num_blocks = db + q.num_blocks := u64add_eq (by omega)
    have ih' := ih (i + 1) a (db + q.num_blocks) (UnionOverlappingExtents ext q)
      (fun y hy => hM y (by simp [hy]))
      (by rw [hu1]; omega)
      (by rw [hu2]; omega)
      (by rw [hu2]; omega)
      hu3
      (by omega)
    simp only [addScanLoop, List.foldl_cons, List.map_cons, List.sum_cons,
      List.length_cons]
    rw [if_pos hm]
    simp only [Option.map_some', Option.getD_some]
    rw [hdb, ih', show i + 1 + M'.length = i + (M'.length + 1) by omega,
      show db + q.num_blocks + (M'.map Extent.num_blocks).sum =
        db + (q.num_blocks + (M'.map Extent.num_blocks).sum) by omega]

/-! ## The union of the affected run -/

theorem foldU_facts :
    ∀ (M : List Extent) (ext : Extent),
      (∀ q ∈ M, (0 < q.num_blocks ∧ eEnd q < U64) ∧
        q.start_block ≤ eEnd ext ∧ ext.start_block ≤ eEnd q) →
      0 < ext.num_blocks → eEnd ext < U64 →
      (M.foldl UnionOverlappingExtents ext).start_block ≤ ext.start_block ∧
      eEnd ext ≤ eEnd (M.foldl UnionOverlappingExtents ext) ∧
      eEnd (M.foldl UnionOverlappingExtents ext) < U64 ∧
      0 < (M.foldl UnionOverlappingExtents ext).num_blocks ∧
      ((M.foldl UnionOverlappingExtents ext).start_block = ext.start_block ∨
        ∃ q ∈ M, (M.foldl UnionOverlappingExtents ext).start_block = q.start_block) ∧
      (eEnd (M.foldl UnionOverlappingExtents ext) = eEnd ext ∨
        ∃ q ∈ M, eEnd (M.foldl UnionOverlappingExtents ext) = eEnd q) ∧
      (∀ x, spanMem (M.foldl UnionOverlappingExtents ext) x ↔
        spanMem ext x ∨ coveredBy M x) := by
  intro M
  induction M with
  | nil =>
    intro ext _ hp hw
    refine ⟨le_refl _, le_refl _, hw, hp, Or.inl rfl, Or.inl rfl, fun x => ?_⟩
    simp [coveredBy_nil]
  | cons q M' ih =>
    intro ext hM hp hw
    obtain ⟨⟨hqp, hqw⟩, hq1, hq2⟩ := hM q (by simp)
    obtain ⟨hu1, hu2, hu3⟩ := Union_facts hw hqw hp
    have ih' := ih (UnionOverlappingExtents ext q)
      (fun y hy => ⟨(hM y (by simp [hy])).1,
        le_trans (hM y (by simp [hy])).2.1 (by rw [hu2]; omega),
        le_trans (by rw [hu1]; omega) (hM y (by simp [hy])).2.2⟩)
      hu3
      (by rw [hu2]; omega)
    obtain ⟨ja, jb, jc, jd, je, jf, jg⟩ := ih'
    simp only [List.foldl_cons]
    refine ⟨le_trans ja (by rw [hu1]; exact min_le_left _ _), ?_, jc, jd, ?_, ?_,
      fun x => ?_⟩
    · calc eEnd ext ≤ eEnd (UnionOverlappingExtents ext q) := by
            rw [hu2]
            exact le_max_left _ _
        _ ≤ _ := jb
    · rcases je with h | ⟨y, hy, h⟩
      · rw [h, hu1]
        rcases Nat.le_total ext.start_block q.start_block with hle | hle
        · exact Or.inl (Nat.min_eq_left hle)
        · exact Or.inr ⟨q, by simp, Nat.min_eq_right hle⟩
      · exact Or.inr ⟨y, by simp [hy], h⟩
    · rcases jf with h | ⟨y, hy, h⟩
      · rw [h, hu2]
        rcases Nat.le_total (eEnd ext) (eEnd q) with hle | hle
        · exact Or.inr ⟨q, by simp, Nat.max_eq_right hle⟩
        · exact Or.inl (Nat.max_eq_left hle)
      · exact Or.inr ⟨y, by simp [hy], h⟩
    · rw [jg x, Union_span hw hqw hp hqp hq1 hq2 x, coveredBy_cons]
      tauto

/-! ## The candidate range -/

theorem lowerWalk_spec (l : List Extent) (s : Nat) :
    ∀ j, lowerWalk l s j ≤ j ∧
      (lowerWalk l s j = 0 ∨
        ∃ it, l[lowerWalk l s j]? = some it ∧
          u64add it.start_block it.num_blocks ≤ s) := by
  intro j
  induction j with
  | zero => exact ⟨le_refl _, Or.inl rfl⟩
  | succ j ih =>
    simp only [lowerWalk]
    cases h : l[j + 1]? with
    | none => exact ⟨le_trans ih.1 (by omega), ih.2⟩
    | some it =>
      dsimp only
      by_cases hlt : s < u64add it.start_block it.num_blocks
      · rw [if_pos hlt]
        exact ⟨le_trans ih.1 (by omega), ih.2⟩
      · rw [if_neg hlt]
        exact ⟨le_refl _, Or.inr ⟨it, h, by omega⟩⟩

theorem candidate_hi_eq {l : List Extent} {e : Extent} (hw : eEnd e < U64) :
    upperWalk l (u64add e.start_block e.num_blocks)
      (upperBound l (ExtentForRange (u64add e.start_block e.num_blocks) 1)) =
    (l.takeWhile fun it => decide (it.start_block ≤ eEnd e)).length := by
  have hstop : u64add e.start_block e.num_blocks = eEnd e := u64add_eq hw
  rw [hstop]
  unfold upperWalk upperBound
  rw [drop_length_takeWhile]
  have hpq : ∀ x ∈ l, (!extentLess (ExtentForRange (eEnd e) 1) x) = true →
      decide (x.start_block ≤ eEnd e) = true := by
    intro x _ hx
    rw [Bool.not_eq_true'] at hx
    rw [extentLess_false_iff] at hx
    simp only [ExtentForRange_eq, mk_start, mk_num] at hx
    simp only [decide_eq_true_eq]
    omega
  rw [takeWhile_split hpq, List.length_append]

/-! ## Predicate conversions for the run decomposition -/

theorem qualB_le {m : Bool} {e q : Extent} (h : qualB m e q = true) :
    q.start_block ≤ eEnd e ∧ e.start_block ≤ eEnd q := by
  cases m
  · have h' := qualB_false_iff.mp h
    exact ⟨le_of_lt h'.1, le_of_lt h'.2⟩
  · exact qualB_true_iff.mp h

theorem leftOfB_le {m : Bool} {e q : Extent} (h : leftOfB m e q = true) :
    eEnd q ≤ e.start_block := by
  cases m
  · exact leftOfB_false_iff.mp h
  · exact le_of_lt (leftOfB_true_iff.mp h)

theorem sep_of {m : Bool} {a b : Extent} (h1 : eEnd a ≤ b.start_block)
    (h2 : m = true → eEnd a < b.start_block) : sep m a b := by
  cases m
  · exact sep_false_iff.mpr h1
  · exact sep_true_iff.mpr (h2 rfl)

theorem sep_lt_of_merge {a b : Extent} (h : sep true a b) :
    eEnd a < b.start_block := sep_true_iff.mp h

theorem qualB_false_of_leftOfB {m : Bool} {e q : Extent}
    (h : leftOfB m e q = true) : qualB m e q = false := by
  cases m
  · have h' := leftOfB_false_iff.mp h
    rw [← Bool.not_eq_true, qualB_false_iff]
    omega
  · have h' := leftOfB_true_iff.mp h
    rw [← Bool.not_eq_true, qualB_true_iff]
    omega

theorem qualB_false_of_right {m : Bool} {e r : Extent}
    (h1 : eEnd e ≤ r.start_block) (h2 : m = true → eEnd e < r.start_block) :
    qualB m e r = false := by
  cases m
  · rw [← Bool.not_eq_true, qualB_false_iff]
    omega
  · have h' := h2 rfl
    rw [← Bool.not_eq_true, qualB_true_iff]
    omega

theorem shouldMerge_eq_qualB {m : Bool} {it ext : Extent}
    (h1 : 0 < it.num_blocks) (h2 : 0 < ext.num_blocks)
    (h3 : eEnd it < U64) (h4 : eEnd ext < U64) :
    (if m then ExtentRanges.ExtentsOverlapOrTouch it ext
      else ExtentRanges.ExtentsOverlap it ext) = qualB m ext it := by
  cases m
  · show ExtentRanges.ExtentsOverlap it ext = qualB false ext it
    rw [Bool.eq_iff_iff,
      ExtentsOverlap_eq_true_iff h1 h2 h3 h4 (nonsent_of_wf h1 h3) (nonsent_of_wf h2 h4),
      qualB_false_iff]
    constructor
    · exact fun h => ⟨h.2, h.1⟩
    · exact fun h => ⟨h.2, h.1⟩
  · show ExtentRanges.ExtentsOverlapOrTouch it ext = qualB true ext it
    rw [Bool.eq_iff_iff,
      ExtentsOverlapOrTouch_eq_true_iff h1 h2 h3 h4 (nonsent_of_wf h1 h3) (nonsent_of_wf h2 h4),
      qualB_true_iff]
    constructor
    · exact fun h => ⟨h.2, h.1⟩
    · exact fun h => ⟨h.2, h.1⟩

theorem num_le_blocks {l : List Extent} {q : Extent} (h : q ∈ l) :
    q.num_blocks ≤ BlocksInExtents l :=
  List.single_le_sum (fun _ _ => Nat.zero_le _) _ (List.mem_map_of_mem _ h)

/-! ## Every entry after the affected run lies beyond `e`'s reach -/

theorem runR_bound {m : Bool} {l : List Extent} {e : Extent}
    (hpos : ∀ q ∈ l, 0 < q.num_blocks)
    (hch : l.Chain' (fun a b => eEnd a ≤ b.start_block)) :
    ∀ r ∈ runR m l e,
      eEnd e ≤ r.start_block ∧ (m = true → eEnd e < r.start_block) := by
  cases hR : runR m l e with
  | nil => simp
  | cons h t =>
    have hl' : l.drop (runL m l e).length = l.dropWhile (leftOfB m e) :=
      drop_length_takeWhile
    have hsub' : ∀ q ∈ l.dropWhile (leftOfB m e), q ∈ l := by
      intro q hq
      rw [← hl'] at hq
      exact List.mem_of_mem_drop hq
    have hch' : (l.dropWhile (leftOfB m e)).Chain'
        (fun a b => eEnd a ≤ b.start_block) := by
      rw [← hl']
      exact hch.drop _
    have hR' : (l.dropWhile (leftOfB m e)).dropWhile (qualB m e) = h :: t := hR
    have hsplit : (l.dropWhile (leftOfB m e)).takeWhile (qualB m e) ++ (h :: t) =
        l.dropWhile (leftOfB m e) := by
      rw [← hR']
      exact List.takeWhile_append_dropWhile _ _
    have hhq : qualB m e h = false := dropWhile_head_not hR'
    have hhl : h ∈ l := hsub' h (by rw [← hsplit]; simp)
    have hhp : 0 < h.num_blocks := hpos h hhl
    have hhe : eEnd h = h.start_block + h.num_blocks := rfl
    have hee : eEnd e = e.start_block + e.num_blocks := rfl
    have hhead : eEnd e ≤ h.start_block ∧ (m = true → eEnd e < h.start_block) := by
      cases hM : (l.dropWhile (leftOfB m e)).takeWhile (qualB m e) with
      | nil =>
        have hdw : (l.dropWhile (leftOfB m e)).dropWhile (qualB m e) =
            l.dropWhile (leftOfB m e) := by
          rw [← drop_length_takeWhile, hM]
          simp
        have hlh : leftOfB m e h = false :=
          dropWhile_head_not (show l.dropWhile (leftOfB m e) = h :: t by
            rw [← hdw]; exact hR')
        cases m
        · have h1 : ¬ (qualB false e h = true) := by simp [hhq]
          have h2 : ¬ (leftOfB false e h = true) := by simp [hlh]
          rw [qualB_false_iff] at h1
          rw [leftOfB_false_iff] at h2
          exact ⟨by omega, fun hm => by simp at hm⟩
        · have h1 : ¬ (qualB true e h = true) := by simp [hhq]
          have h2 : ¬ (leftOfB true e h = true) := by simp [hlh]
          rw [qualB_true_iff] at h1
          rw [leftOfB_true_iff] at h2
          exact ⟨by omega, fun _ => by omega⟩
      | cons q M' =>
        have hchsplit : ((q :: M') ++ (h :: t)).Chain'
            (fun a b => eEnd a ≤ b.start_block) := by
          rw [hM] at hsplit
          rw [hsplit]
          exact hch'
        obtain ⟨-, -, hlast⟩ := List.chain'_append.mp hchsplit
        have hgl_mem : (q :: M').getLast (List.cons_ne_nil _ _) ∈ (q :: M') :=
          List.getLast_mem _
        have hqlq : qualB m e ((q :: M').getLast (List.cons_ne_nil _ _)) = true := by
        
          have hmem : (q :: M').getLast (List.cons_ne_nil _ _) ∈
              (l.dropWhile (leftOfB m e)).takeWhile (qualB m e) := by
            rw [hM]
            exact hgl_mem
          exact mem_takeWhile_sat hmem
        have hsep := hlast _ (by
            rw [List.getLast?_eq_getLast _ (List.cons_ne_nil _ _)]
            rfl) h rfl
        have hqle := qualB_le hqlq
        cases m
        · have h1 : ¬ (qualB false e h = true) := by simp [hhq]
          rw [qualB_false_iff] at h1
          exact ⟨by omega, fun hm => by simp at hm⟩
        · have h1 : ¬ (qualB true e h = true) := by simp [hhq]
          rw [qualB_true_iff] at h1
          exact ⟨by omega, fun _ => by omega⟩
    intro r hr
    rcases List.mem_cons.mp hr with rfl | hrt
    · exact hhead
    · have hcht : (h :: t).Chain' (fun a b => eEnd a ≤ b.start_block) := by
        rw [← hsplit] at hch'
        exact (List.chain'_append.mp hch').2.1
      have hsep2 : eEnd h ≤ r.start_block :=
        chain_sep_head
          (fun y hy => hpos y (hsub' y (by rw [← hsplit]; simp [hy]))) hcht r hrt
      have hh1 := hhead.1
      exact ⟨by omega, fun _ => by omega⟩

/-! ## Evaluating `AddExtent` from its scan -/

theorem AddExtent_eval (l : List Extent) (blocks : Nat) (m : Bool) (e : Extent)
    (hno : ¬ (e.start_block = kSparseHole ∨ e.num_blocks = 0))
    (lo hi : Nat) (hcr : GetCandidateRange l e = (lo, hi))
    (del : Option (Nat × Nat)) (db : Nat) (U : Extent)
    (hscan : addScanLoop m ((l.drop lo).take (hi - lo)) lo none 0 e = (del, db, U)) :
    ExtentRanges.AddExtent ⟨l, blocks, m⟩ e =
      ⟨setInsert
          (match del with
            | none => l
            | some be => l.take be.1 ++ l.drop be.2) U,
        u64add (u64sub blocks db) U.num_blocks, m⟩ := by
  unfold ExtentRanges.AddExtent
  rw [if_neg hno]
  simp only [hcr]
  simp only [hscan]
  cases del <;> rfl

/-! ## The `AddExtent` characterisation -/

theorem addCore (m : Bool) (L M R : List Extent) (e : Extent) (blocks : Nat)
    (hL : ∀ a ∈ L, WfExtent a ∧ leftOfB m e a = true)
    (hM : ∀ q ∈ M, WfExtent q ∧ qualB m e q = true)
    (hR : ∀ r ∈ R, WfExtent r ∧ eEnd e ≤ r.start_block ∧
      (m = true → eEnd e < r.start_block))
    (hch : (L ++ (M ++ R)).Chain' (sep m))
    (hblocks : blocks = BlocksInExtents (L ++ (M ++ R)))
    (hwf : WfExtent e) :
    ExtentRanges.AddExtent ⟨L ++ (M ++ R), blocks, m⟩ e =
      ⟨L ++ (M.foldl UnionOverlappingExtents e :: R),
        BlocksInExtents (L ++ (M.foldl UnionOverlappingExtents e :: R)), m⟩ ∧
    GoodList m (L ++ (M.foldl UnionOverlappingExtents e :: R)) := by
  obtain ⟨hep, hew, hes⟩ := hwf
  have hee : eEnd e = e.start_block + e.num_blocks := rfl
  have hwfl : ∀ q ∈ L ++ (M ++ R), WfExtent q := by
    intro q hq
    rcases List.mem_append.mp hq with h | h
    · exact (hL q h).1
    · rcases List.mem_append.mp h with h' | h'
      · exact (hM q h').1
      · exact (hR q h').1
  have hqpos : ∀ q ∈ L ++ (M ++ R), 0 < q.num_blocks := fun q h => (hwfl q h).1
  have hqw : ∀ q ∈ L ++ (M ++ R), eEnd q < U64 := fun q h => (hwfl q h).2.1
  have hchle : (L ++ (M ++ R)).Chain' (fun a b => eEnd a ≤ b.start_block) :=
    hch.imp fun _ _ => sep_le
  have hblt : BlocksInExtents (L ++ (M ++ R)) < U64 :=
    goodBlocks_lt (fun q h => ⟨hqpos q h, hqw q h⟩) hchle
  have hpw := chain_sepm_pairwise hqpos hch
  rw [List.pairwise_append] at hpw
  obtain ⟨hpwL, hpwMR, hcrossL⟩ := hpw
  rw [List.pairwise_append] at hpwMR
  obtain ⟨hpwM, hpwR, hcrossMR⟩ := hpwMR
  have hch2 := hch
  rw [List.chain'_append] at hch2
  obtain ⟨hchL, hchMR, hLlast⟩ := hch2
  rw [List.chain'_append] at hchMR
  obtain ⟨hchM, hchR, hMhead⟩ := hchMR
  have hUf := foldU_facts M e
    (fun q hq => ⟨⟨(hM q hq).1.1, (hM q hq).1.2.1⟩,
      (qualB_le (hM q hq).2).1, (qualB_le (hM q hq).2).2⟩)
    hep hew
  obtain ⟨hU1, hU2, hU3, hU4, hU5, hU6, -⟩ := hUf
  have hsepLU : ∀ a ∈ L, sep m a (M.foldl UnionOverlappingExtents e) := by
    intro a ha
    obtain ⟨⟨hap, haw, -⟩, haleft⟩ := hL a ha
    have hale := leftOfB_le haleft
    have hae : eEnd a = a.start_block + a.num_blocks := rfl
    rcases hU5 with h5 | ⟨q, hq, h5⟩
    · refine sep_of (by omega) (fun hm => ?_)
      subst hm
      have := leftOfB_true_iff.mp haleft
      omega
    · have hsep := hcrossL a ha q (List.mem_append_left _ hq)
      refine sep_of ?_ (fun hm => ?_)
      · have := sep_le hsep
        omega
      · subst hm
        have := sep_lt_of_merge hsep
        omega
  have hsepUR : ∀ r ∈ R, sep m (M.foldl UnionOverlappingExtents e) r := by
    intro r hr
    obtain ⟨-, hr1, hr2⟩ := hR r hr
    rcases hU6 with h6 | ⟨q, hq, h6⟩
    · exact sep_of (by omega) (fun hm => by have := hr2 hm; omega)
    · have hsep := hcrossMR q hq r hr
      refine sep_of ?_ (fun hm => ?_)
      · have := sep_le hsep
        omega
      · subst hm
        have := sep_lt_of_merge hsep
        omega
  have hgood : GoodList m (L ++ (M.foldl UnionOverlappingExtents e :: R)) := by
    constructor
    · intro q hq
      rcases List.mem_append.mp hq with h | h
      · exact (hL q h).1
      · rcases List.mem_cons.mp h with rfl | h'
        · exact ⟨hU4, hU3, nonsent_of_wf hU4 hU3⟩
        · exact (hR q h').1
    · rw [List.chain'_append]
      refine ⟨hchL, ?_, ?_⟩
      · rw [List.chain'_cons']
        exact ⟨fun y hy => hsepUR y (List.mem_of_mem_head? hy), hchR⟩
      · intro x hx y hy
        have hyU : M.foldl UnionOverlappingExtents e = y := by
          simpa using hy
        subst hyU
        exact hsepLU x (List.mem_of_mem_getLast? hx)
  have hbnew :
      BlocksInExtents (L ++ (M.foldl UnionOverlappingExtents e :: R)) < U64 :=
    goodBlocks_lt (fun q h => ⟨(hgood.1 q h).1, (hgood.1 q h).2.1⟩)
      (hgood.2.imp fun _ _ => sep_le)
  have hblt' : blocks < U64 := hblocks ▸ hblt
  have hnoop : ¬ (e.start_block = kSparseHole ∨ e.num_blocks = 0) := by
    push_neg
    exact ⟨hes, by omega⟩
  refine ⟨?_, hgood⟩
  have hhi : upperWalk (L ++ (M ++ R)) (u64add e.start_block e.num_blocks)
      (upperBound (L ++ (M ++ R))
        (ExtentForRange (u64add e.start_block e.num_blocks) 1)) =
      ((L ++ (M ++ R)).takeWhile fun it =>
        decide (it.start_block ≤ eEnd e)).length := candidate_hi_eq hew
  have hcr : GetCandidateRange (L ++ (M ++ R)) e =
      (lowerWalk (L ++ (M ++ R)) e.start_block (lowerBound (L ++ (M ++ R)) e),
        ((L ++ (M ++ R)).takeWhile fun it =>
          decide (it.start_block ≤ eEnd e)).length) := by
    rw [← hhi]
    rfl
  have hlwspec := lowerWalk_spec (L ++ (M ++ R)) e.start_block
    (lowerBound (L ++ (M ++ R)) e)
  set lo := lowerWalk (L ++ (M ++ R)) e.start_block (lowerBound (L ++ (M ++ R)) e)
    with hlodef
  set hi := ((L ++ (M ++ R)).takeWhile fun it =>
    decide (it.start_block ≤ eEnd e)).length with hhidef
  have hlo_len : lo ≤ (L ++ (M ++ R)).length :=
    le_trans hlwspec.1 (takeWhile_length_le _ _)
  have hhi_le : hi ≤ (L ++ (M ++ R)).length := by
    rw [hhidef]
    exact takeWhile_length_le _ _
  have hLM_p : ∀ a ∈ L ++ M, (fun it => decide (it.start_block ≤ eEnd e)) a = true := by
    intro a ha
    simp only [decide_eq_true_eq]
    rcases List.mem_append.mp ha with h | h
    · have h1 := leftOfB_le (hL a h).2
      have hap : 0 < a.num_blocks := (hL a h).1.1
      have hae : eEnd a = a.start_block + a.num_blocks := rfl
      omega
    · have h1 := (qualB_le (hM a h).2).1
      omega
  have hhi_ge : L.length + M.length ≤ hi := by
    rw [hhidef, ← List.append_assoc, takeWhile_append_all hLM_p,
      List.length_append, List.length_append]
    omega
  rcases M with _ | ⟨q₁, M'⟩
  · -- empty run: nothing merges, `e` itself is inserted
    simp only [List.nil_append, List.foldl_nil] at *
    have hfail : ∀ it ∈ ((L ++ R).drop lo).take (hi - lo),
        (if m then ExtentRanges.ExtentsOverlapOrTouch it e
          else ExtentRanges.ExtentsOverlap it e) = false := by
      intro it hit
      have hmem : it ∈ L ++ R := List.mem_of_mem_drop (List.mem_of_mem_take hit)
      have hwfit := hwfl it hmem
      rw [shouldMerge_eq_qualB hwfit.1 hep hwfit.2.1 hew]
      rcases List.mem_append.mp hmem with h | h
      · exact qualB_false_of_leftOfB (hL it h).2
      · exact qualB_false_of_right (hR it h).2.1 (hR it h).2.2
    have hscan := addScanLoop_skip m (((L ++ R).drop lo).take (hi - lo)) lo
      none 0 e hfail
    rw [AddExtent_eval (L ++ R) blocks m e hnoop lo hi hcr none 0 e hscan]
    show (⟨setInsert (L ++ R) e, u64add (u64sub blocks 0) e.num_blocks, m⟩ :
      ExtentRanges) = _
    have hLessL : ∀ a ∈ L, extentLess a e = true := by
      intro a ha
      have h1 := leftOfB_le (hL a ha).2
      have hap : 0 < a.num_blocks := (hL a ha).1.1
      have hae : eEnd a = a.start_block + a.num_blocks := rfl
      rw [extentLess_iff]
      exact Or.inl (by omega)
    rw [setInsert_append hLessL]
    have hsetR : setInsert R e = e :: R := by
      cases hRc : R with
      | nil => rfl
      | cons r t =>
        refine setInsert_cons_lt ?_
        have hr := hR r (by rw [hRc]; simp)
        have hre : eEnd e ≤ r.start_block := hr.2.1
        rw [extentLess_iff]
        exact Or.inl (by omega)
    rw [hsetR, ExtentRanges.mk.injEq]
    refine ⟨rfl, ?_, rfl⟩
    have hsum_new : BlocksInExtents (L ++ e :: R) =
        BlocksInExtents L + (e.num_blocks + BlocksInExtents R) := by
      rw [BlocksInExtents_append, BlocksInExtents_cons]
    have hsum_l : blocks = BlocksInExtents L + BlocksInExtents R := by
      rw [hblocks, BlocksInExtents_append]
    rw [u64sub_zero hblt', u64add_eq (by omega)]
    omega
  · -- nonempty run
    have hq1 := hM q₁ (by simp)
    have hq1w : eEnd q₁ < U64 := hq1.1.2.1
    have hq1p : 0 < q₁.num_blocks := hq1.1.1
    have hq1e : eEnd q₁ = q₁.start_block + q₁.num_blocks := rfl
    have hlc : (q₁ :: M').length = M'.length + 1 := List.length_cons _ _
    have hlo_le_L : lo ≤ L.length := by
      rcases hlwspec.2 with h0 | ⟨it, hit, hend⟩
      · omega
      · obtain ⟨hlt, hgetit⟩ := List.getElem?_eq_some_iff.mp hit
        have hitmem : it ∈ L ++ ((q₁ :: M') ++ R) := hgetit ▸ List.getElem_mem hlt
        have hitw : it.start_block + it.num_blocks < U64 := hqw it hitmem
        rw [u64add_eq hitw] at hend
        by_contra hcon
        push_neg at hcon
        have hlen_q1 : L.length < (L ++ ((q₁ :: M') ++ R)).length := by
          rw [List.length_append, List.length_append, List.length_cons]
          omega
        have hq1get : (L ++ ((q₁ :: M') ++ R))[L.length] = q₁ := by
          rw [List.getElem_append_right (le_refl L.length)]
          simp
        have hpwle := chain_sep_pairwise hqpos hchle
        rw [List.pairwise_iff_getElem] at hpwle
        have hsep := hpwle L.length lo hlen_q1 (by omega) (by omega)
        rw [hq1get, hgetit] at hsep
        have hitp : 0 < it.num_blocks := hqpos it hitmem
        have hq1qual := (qualB_le hq1.2).2
        omega
    have hcand : ((L ++ ((q₁ :: M') ++ R)).drop lo).take (hi - lo) =
        L.drop lo ++ ((q₁ :: M') ++
          R.take (hi - L.length - (q₁ :: M').length)) := by
      rw [List.drop_append_eq_append_drop,
        show lo - L.length = 0 by omega, List.drop_zero,
        List.take_append_eq_append_take,
        List.take_of_length_le (by rw [List.length_drop]; omega),
        List.length_drop,
        show hi - lo - (L.length - lo) = hi - L.length by omega,
        List.take_append_eq_append_take,
        List.take_of_length_le (by omega)]
    set R' := R.take (hi - L.length - (q₁ :: M').length) with hRtdef
    have hRtsub : ∀ r ∈ R', r ∈ R := by
      intro r hr
      rw [hRtdef] at hr
      exact List.mem_of_mem_take hr
    have hskipL : ∀ it ∈ L.drop lo,
        (if m then ExtentRanges.ExtentsOverlapOrTouch it e
          else ExtentRanges.ExtentsOverlap it e) = false := by
      intro it hit
      have hitL : it ∈ L := List.mem_of_mem_drop hit
      have hwfit := (hL it hitL).1
      rw [shouldMerge_eq_qualB hwfit.1 hep hwfit.2.1 hew]
      exact qualB_false_of_leftOfB (hL it hitL).2
    have hq1merge : (if m then ExtentRanges.ExtentsOverlapOrTouch q₁ e
        else ExtentRanges.ExtentsOverlap q₁ e) = true := by
      rw [shouldMerge_eq_qualB hq1p hep hq1w hew]
      exact hq1.2
    have hsumM : q₁.num_blocks + (M'.map Extent.num_blocks).sum =
        BlocksInExtents (q₁ :: M') := by
      simp [BlocksInExtents]
    have hMle : BlocksInExtents (q₁ :: M') ≤
        BlocksInExtents (L ++ ((q₁ :: M') ++ R)) := by
      rw [BlocksInExtents_append, BlocksInExtents_append]
      omega
    obtain ⟨hv1, hv2, hv3⟩ := Union_facts hew hq1w hep
    have hallM' : ∀ y ∈ M', (0 < y.num_blocks ∧ eEnd y < U64) ∧
        qualB m e y = true :=
      fun y hy => ⟨⟨(hM y (by simp [hy])).1.1, (hM y (by simp [hy])).1.2.1⟩,
        (hM y (by simp [hy])).2⟩
    have hrun := addScanLoop_all_merge m e M' (L.length + 1) L.length
      q₁.num_blocks (UnionOverlappingExtents e q₁) hallM'
      (by rw [hv1]; exact min_le_left _ _)
      (by rw [hv2]; exact le_max_left _ _)
      (by rw [hv2]; exact max_lt hew hq1w)
      hv3
      (by omega)
    have hscan : addScanLoop m
        (((L ++ ((q₁ :: M') ++ R)).drop lo).take (hi - lo)) lo none 0 e =
        (some (L.length, L.length + (q₁ :: M').length),
          BlocksInExtents (q₁ :: M'),
          (q₁ :: M').foldl UnionOverlappingExtents e) := by
      rw [hcand, addScanLoop_append, addScanLoop_skip m _ _ _ _ _ hskipL]
      dsimp only
      rw [List.length_drop, show lo + (L.length - lo) = L.length by omega,
        addScanLoop_append]
      have hq1step : addScanLoop m (q₁ :: M') L.length none 0 e =
          (some (L.length, L.length + (q₁ :: M').length),
            BlocksInExtents (q₁ :: M'),
            (q₁ :: M').foldl UnionOverlappingExtents e) := by
        simp only [addScanLoop]
        rw [if_pos hq1merge]
        simp only [Option.map_none', Option.getD_none]
        rw [show u64add 0 q₁.num_blocks = q₁.num_blocks by
            rw [u64add_eq (by omega), Nat.zero_add],
          hrun, hsumM, List.foldl_cons, List.length_cons,
          show L.length + 1 + M'.length = L.length + (M'.length + 1) by omega]
      rw [hq1step]
      dsimp only
      have hskipR : ∀ it ∈ R',
          (if m then ExtentRanges.ExtentsOverlapOrTouch it
              ((q₁ :: M').foldl UnionOverlappingExtents e)
            else ExtentRanges.ExtentsOverlap it
              ((q₁ :: M').foldl UnionOverlappingExtents e)) = false := by
        intro it hit
        have hitR := hRtsub it hit
        have hwfit := (hR it hitR).1
        rw [shouldMerge_eq_qualB hwfit.1 hU4 hwfit.2.1 hU3]
        have hsud := hsepUR it hitR
        exact qualB_false_of_right (sep_le hsud) (fun hm => by
          subst hm
          exact sep_lt_of_merge hsud)
      rw [addScanLoop_skip m R' _ _ _ _ hskipR]
    rw [AddExtent_eval (L ++ ((q₁ :: M') ++ R)) blocks m e hnoop lo hi hcr
      (some (L.length, L.length + (q₁ :: M').length))
      (BlocksInExtents (q₁ :: M'))
      ((q₁ :: M').foldl UnionOverlappingExtents e) hscan]
    show (⟨setInsert ((L ++ ((q₁ :: M') ++ R)).take L.length ++
        (L ++ ((q₁ :: M') ++ R)).drop (L.length + (q₁ :: M').length))
        ((q₁ :: M').foldl UnionOverlappingExtents e),
      u64add (u64sub blocks (BlocksInExtents (q₁ :: M')))
        ((q₁ :: M').foldl UnionOverlappingExtents e).num_blocks, m⟩ :
      ExtentRanges) = _
    have hdropR : (L ++ ((q₁ :: M') ++ R)).drop (L.length + (q₁ :: M').length) =
        R := by
      rw [← List.append_assoc]
      exact List.drop_left' (by rw [List.length_append])
    rw [List.take_left, hdropR]
    have hLessLU : ∀ a ∈ L,
        extentLess a ((q₁ :: M').foldl UnionOverlappingExtents e) = true := by
      intro a ha
      have hsl := sep_le (hsepLU a ha)
      have hap : 0 < a.num_blocks := (hL a ha).1.1
      have hae : eEnd a = a.start_block + a.num_blocks := rfl
      rw [extentLess_iff]
      exact Or.inl (by omega)
    rw [setInsert_append hLessLU]
    have hUe : eEnd ((q₁ :: M').foldl UnionOverlappingExtents e) =
        ((q₁ :: M').foldl UnionOverlappingExtents e).start_block +
          ((q₁ :: M').foldl UnionOverlappingExtents e).num_blocks := rfl
    have hsetR : setInsert R ((q₁ :: M').foldl UnionOverlappingExtents e) =
        (q₁ :: M').foldl UnionOverlappingExtents e :: R := by
      cases hRc : R with
      | nil => rfl
      | cons r t =>
        refine setInsert_cons_lt ?_
        have hsud := hsepUR r (by rw [hRc]; simp)
        have hsl := sep_le hsud
        rw [extentLess_iff]
        exact Or.inl (by omega)
    rw [hsetR, ExtentRanges.mk.injEq]
    refine ⟨rfl, ?_, rfl⟩
    have hsum_l : blocks = BlocksInExtents L + (BlocksInExtents (q₁ :: M') +
        BlocksInExtents R) := by
      rw [hblocks, BlocksInExtents_append, BlocksInExtents_append]
    have hsum_new : BlocksInExtents
        (L ++ ((q₁ :: M').foldl UnionOverlappingExtents e :: R)) =
        BlocksInExtents L +
          (((q₁ :: M').foldl UnionOverlappingExtents e).num_blocks +
            BlocksInExtents R) := by
      rw [BlocksInExtents_append, BlocksInExtents_cons]
    rw [u64sub_eq hblt' (by omega), u64add_eq (by omega)]
    omega

/-! ## `AddExtent` at the `ExtentRanges` level -/

theorem runMid_subset {m : Bool} {l : List Extent} {e : Extent} :
    ∀ q ∈ runMid m l e, q ∈ l :=
  fun _ hq => (run_decomp m l e) ▸
    List.mem_append_right _ (List.mem_append_left _ hq)

theorem runL_subset {m : Bool} {l : List Extent} {e : Extent} :
    ∀ q ∈ runL m l e, q ∈ l :=
  fun _ hq => (run_decomp m l e) ▸ List.mem_append_left _ hq

theorem runR_subset {m : Bool} {l : List Extent} {e : Extent} :
    ∀ q ∈ runR m l e, q ∈ l :=
  fun _ hq => (run_decomp m l e) ▸
    List.mem_append_right _ (List.mem_append_right _ hq)

theorem runU_bounds {m : Bool} {l : List Extent} {e : Extent}
    (hwfl : ∀ q ∈ l, WfExtent q) (hwf : WfExtent e) :
    (runU m l e).start_block ≤ e.start_block ∧ eEnd e ≤ eEnd (runU m l e) := by
  obtain ⟨hep, hew, -⟩ := hwf
  have h := foldU_facts (runMid m l e) e
    (fun q hq => ⟨⟨(hwfl q (runMid_subset q hq)).1, (hwfl q (runMid_subset q hq)).2.1⟩,
      (qualB_le (mem_takeWhile_sat hq)).1, (qualB_le (mem_takeWhile_sat hq)).2⟩)
    hep hew
  exact ⟨h.1, h.2.1⟩

theorem runU_span {m : Bool} {l : List Extent} {e : Extent}
    (hwfl : ∀ q ∈ l, WfExtent q) (hwf : WfExtent e) (x : Nat) :
    spanMem (runU m l e) x ↔ spanMem e x ∨ coveredBy (runMid m l e) x := by
  obtain ⟨hep, hew, -⟩ := hwf
  have h := foldU_facts (runMid m l e) e
    (fun q hq => ⟨⟨(hwfl q (runMid_subset q hq)).1, (hwfl q (runMid_subset q hq)).2.1⟩,
      (qualB_le (mem_takeWhile_sat hq)).1, (qualB_le (mem_takeWhile_sat hq)).2⟩)
    hep hew
  exact h.2.2.2.2.2.2 x

theorem AddExtent_noop (s : ExtentRanges) (e : Extent)
    (h : e.start_block = kSparseHole ∨ e.num_blocks = 0) :
    s.AddExtent e = s := by
  unfold ExtentRanges.AddExtent
  rw [if_pos h]

theorem AddExtent_decomp (s : ExtentRanges) (e : Extent) (hInv : SetInv s)
    (hwf : WfExtent e) :
    s.AddExtent e =
      ⟨runL s.merge_touching_extents_ s.extent_set_ e ++
          (runU s.merge_touching_extents_ s.extent_set_ e ::
            runR s.merge_touching_extents_ s.extent_set_ e),
        BlocksInExtents
          (runL s.merge_touching_extents_ s.extent_set_ e ++
            (runU s.merge_touching_extents_ s.extent_set_ e ::
              runR s.merge_touching_extents_ s.extent_set_ e)),
        s.merge_touching_extents_⟩ ∧
    GoodList s.merge_touching_extents_
      (runL s.merge_touching_extents_ s.extent_set_ e ++
        (runU s.merge_touching_extents_ s.extent_set_ e ::
          runR s.merge_touching_extents_ s.extent_set_ e)) := by
  obtain ⟨⟨hwfl, hch⟩, hblocks⟩ := hInv
  have hchle : s.extent_set_.Chain' (fun a b => eEnd a ≤ b.start_block) :=
    hch.imp fun _ _ => sep_le
  have hdec := run_decomp s.merge_touching_extents_ s.extent_set_ e
  have hRb : ∀ r ∈ runR s.merge_touching_extents_ s.extent_set_ e,
      eEnd e ≤ r.start_block ∧
        (s.merge_touching_extents_ = true → eEnd e < r.start_block) :=
    runR_bound (fun q hq => (hwfl q hq).1) hchle
  have hcore := addCore s.merge_touching_extents_
    (runL s.merge_touching_extents_ s.extent_set_ e)
    (runMid s.merge_touching_extents_ s.extent_set_ e)
    (runR s.merge_touching_extents_ s.extent_set_ e) e s.blocks_
    (fun a ha => ⟨hwfl a (runL_subset a ha), mem_takeWhile_sat ha⟩)
    (fun q hq => ⟨hwfl q (runMid_subset q hq), mem_takeWhile_sat hq⟩)
    (fun r hr => ⟨hwfl r (runR_subset r hr), (hRb r hr).1, (hRb r hr).2⟩)
    (hdec.symm ▸ hch)
    (by rw [hdec]; exact hblocks)
    hwf
  rw [hdec] at hcore
  exact hcore

theorem AddExtent_SetInv (s : ExtentRanges) (e : Extent) (hInv : SetInv s)
    (hwf : WfExtent e) : SetInv (s.AddExtent e) := by
  obtain ⟨heq, hgood⟩ := AddExtent_decomp s e hInv hwf
  rw [heq]
  exact ⟨hgood, rfl⟩

theorem AddExtent_merge_pres (s : ExtentRanges) (e : Extent) (hInv : SetInv s)
    (hwf : WfExtent e) :
    (s.AddExtent e).merge_touching_extents_ = s.merge_touching_extents_ := by
  rw [(AddExtent_decomp s e hInv hwf).1]

theorem AddExtent_cover (s : ExtentRanges) (e : Extent) (hInv : SetInv s)
    (hwf : WfExtent e) (x : Nat) :
    coveredBy (s.AddExtent e).extent_set_ x ↔
      coveredBy s.extent_set_ x ∨ spanMem e x := by
  have hwfl : ∀ q ∈ s.extent_set_, WfExtent q := hInv.1.1
  obtain ⟨heq, -⟩ := AddExtent_decomp s e hInv hwf
  rw [heq]
  show coveredBy (runL s.merge_touching_extents_ s.extent_set_ e ++
      (runU s.merge_touching_extents_ s.extent_set_ e ::
        runR s.merge_touching_extents_ s.extent_set_ e)) x ↔ _
  have hdec := run_decomp s.merge_touching_extents_ s.extent_set_ e
  conv_rhs => rw [← hdec]
  rw [coveredBy_append, coveredBy_cons, coveredBy_append, coveredBy_append,
    runU_span hwfl hwf x]
  tauto

theorem AddExtent_absorbed (s : ExtentRanges) (e : Extent) (hInv : SetInv s)
    (hwf : WfExtent e) (E : Extent) (hEmem : E ∈ s.extent_set_)
    (hE1 : E.start_block ≤ e.start_block) (hE2 : eEnd e ≤ eEnd E) :
    s.AddExtent e = s := by
  obtain ⟨hep, hew, hes⟩ := hwf
  have hee : eEnd e = e.start_block + e.num_blocks := rfl
  obtain ⟨⟨hwfl, hch⟩, hblocks⟩ := hInv
  have hEw : eEnd E < U64 := (hwfl E hEmem).2.1
  have hEp : 0 < E.num_blocks := (hwfl E hEmem).1
  have hEe : eEnd E = E.start_block + E.num_blocks := rfl
  obtain ⟨L₀, R₀, hsplit⟩ := List.append_of_mem hEmem
  have hqpos : ∀ q ∈ s.extent_set_, 0 < q.num_blocks := fun q hq => (hwfl q hq).1
  have hpw := chain_sepm_pairwise hqpos hch
  rw [hsplit, List.pairwise_append] at hpw
  obtain ⟨-, hpwER, hcross⟩ := hpw
  rw [List.pairwise_cons] at hpwER
  obtain ⟨hER, -⟩ := hpwER
  have hL₀ : ∀ a ∈ L₀, leftOfB s.merge_touching_extents_ e a = true := by
    intro a ha
    have hsep := hcross a ha E (by simp)
    have hap : 0 < a.num_blocks := hqpos a (by rw [hsplit]; simp [ha])
    have hae : eEnd a = a.start_block + a.num_blocks := rfl
    cases hmc : s.merge_touching_extents_
    · rw [leftOfB_false_iff]
      have := sep_le hsep
      omega
    · rw [leftOfB_true_iff]
      rw [hmc] at hsep
      have := sep_lt_of_merge hsep
      omega
  have hEnotL : leftOfB s.merge_touching_extents_ e E = false := by
    cases hmc : s.merge_touching_extents_
    · rw [← Bool.not_eq_true, leftOfB_false_iff]
      omega
    · rw [← Bool.not_eq_true, leftOfB_true_iff]
      omega
  have hEqual : qualB s.merge_touching_extents_ e E = true := by
    cases hmc : s.merge_touching_extents_
    · rw [qualB_false_iff]
      omega
    · rw [qualB_true_iff]
      omega
  have hR₀fail : ∀ r ∈ R₀, qualB s.merge_touching_extents_ e r = false := by
    intro r hr
    have hsep := hER r hr
    refine qualB_false_of_right ?_ (fun hm => ?_)
    · have := sep_le hsep
      omega
    · rw [hm] at hsep
      have := sep_lt_of_merge hsep
      omega
  have hrunL : runL s.merge_touching_extents_ s.extent_set_ e = L₀ := by
    rw [hsplit]
    unfold runL
    rw [takeWhile_append_all hL₀, List.takeWhile_cons_of_neg (by simp [hEnotL]),
      List.append_nil]
  have hdw : s.extent_set_.dropWhile (leftOfB s.merge_touching_extents_ e) =
      E :: R₀ := by
    rw [hsplit]
    rw [dropWhile_append_all hL₀, List.dropWhile_cons_of_neg (by simp [hEnotL])]
  have hrunM : runMid s.merge_touching_extents_ s.extent_set_ e = [E] := by
    unfold runMid
    rw [hdw, List.takeWhile_cons_of_pos hEqual]
    cases hR₀c : R₀ with
    | nil => rfl
    | cons r t =>
      rw [List.takeWhile_cons_of_neg (by simp [hR₀fail r (by rw [hR₀c]; simp)])]
  have hrunR : runR s.merge_touching_extents_ s.extent_set_ e = R₀ := by
    unfold runR
    rw [hdw, List.dropWhile_cons_of_pos hEqual]
    cases hR₀c : R₀ with
    | nil => rfl
    | cons r t =>
      rw [List.dropWhile_cons_of_neg (by simp [hR₀fail r (by rw [hR₀c]; simp)])]
  have hrunU : runU s.merge_touching_extents_ s.extent_set_ e = E := by
    unfold runU
    rw [hrunM]
    show UnionOverlappingExtents e E = E
    rw [Union_eq hew hEw, Nat.min_eq_right hE1, Nat.max_eq_right hE2,
      show eEnd E - E.start_block = E.num_blocks by omega]
  obtain ⟨heq, -⟩ := AddExtent_decomp s e ⟨⟨hwfl, hch⟩, hblocks⟩ ⟨hep, hew, hes⟩
  rw [heq, hrunL, hrunU, hrunR, ← hsplit, ← hblocks]

/-! ## Claim C10 -/

/-- Claim C10 (amended): on a set satisfying the maintained invariant, for an
argument extent that is either a no-op input (sentinel `start_block` or zero
`num_blocks`) or has a non-overflowing end, `AddExtent` is idempotent: adding
the same extent twice yields exactly the same entry set and `blocks_` counter
as adding it once. -/
theorem claim_C10_amended (s : ExtentRanges) (e : Extent) (hInv : SetInv s)
    (hok : okInput e) :
    (s.AddExtent e).AddExtent e = s.AddExtent e := by
  by_cases hno : e.start_block = kSparseHole ∨ e.num_blocks = 0
  · rw [AddExtent_noop s e hno, AddExtent_noop s e hno]
  · push_neg at hno
    have hwf : WfExtent e := by
      rcases hok with h | h | h
      · exact absurd h hno.1
      · exact absurd h hno.2
      · exact ⟨Nat.pos_of_ne_zero hno.2, h, hno.1⟩
    have hInv' := AddExtent_SetInv s e hInv hwf
    obtain ⟨heq, -⟩ := AddExtent_decomp s e hInv hwf
    refine AddExtent_absorbed (s.AddExtent e) e hInv' hwf
      (runU s.merge_touching_extents_ s.extent_set_ e) ?_
      (runU_bounds hInv.1.1 hwf).1 (runU_bounds hInv.1.1 hwf).2
    rw [heq]
    show runU s.merge_touching_extents_ s.extent_set_ e ∈
      runL s.merge_touching_extents_ s.extent_set_ e ++
        (runU s.merge_touching_extents_ s.extent_set_ e ::
          runR s.merge_touching_extents_ s.extent_set_ e)
    exact List.mem_append_right _ (List.mem_cons_self _ _)

/-- Claim C10 witness: adding `{5,6}` twice to the set `{[3,4]}` (merge mode)
equals adding it once. -/
theorem claim_C10_witness :
    ((⟨[⟨3, 4⟩], 4, true⟩ : ExtentRanges).AddExtent ⟨5, 6⟩).AddExtent ⟨5, 6⟩ =
      (⟨[⟨3, 4⟩], 4, true⟩ : ExtentRanges).AddExtent ⟨5, 6⟩ :=
  claim_C10_amended ⟨[⟨3, 4⟩], 4, true⟩ ⟨5, 6⟩
    ⟨⟨fun E hE => by
        simp only [List.mem_singleton] at hE
        subst hE
        exact ⟨by decide, by decide, by decide⟩,
      List.chain'_singleton _⟩, rfl⟩
    (by decide)

/-! ## The `SubtractExtent` scan loop -/

theorem subScanLoop_append (e : Extent) :
    ∀ (xs ys : List Extent) (i : Nat) (del : Option (Nat × Nat)) (db : Nat)
      (news : List Extent),
      subScanLoop e (xs ++ ys) i del db news =
        subScanLoop e ys (i + xs.length)
          (subScanLoop e xs i del db news).1
          (subScanLoop e xs i del db news).2.1
          (subScanLoop e xs i del db news).2.2 := by
  intro xs
  induction xs with
  | nil =>
    intro ys i del db news
    simp [subScanLoop]
  | cons it rest ih =>
    intro ys i del db news
    simp only [List.cons_append, subScanLoop, List.length_cons, List.append_eq]
    split <;>
      rw [ih, show i + 1 + rest.length = i + (rest.length + 1) by omega]

theorem subScanLoop_skip (e : Extent) :
    ∀ (xs : List Extent) (i : Nat) (del : Option (Nat × Nat)) (db : Nat)
      (news : List Extent),
      (∀ it ∈ xs, ExtentRanges.ExtentsOverlap it e = false) →
      subScanLoop e xs i del db news = (del, db, news) := by
  intro xs
  induction xs with
  | nil => intro i del db news _; rfl
  | cons it rest ih =>
    intro i del db news h
    have hit := h it (by simp)
    simp only [subScanLoop]
    rw [if_neg (by simp [hit])]
    exact ih _ _ _ _ fun y hy => h y (by simp [hy])

theorem overlap_false_of_left {e a : Extent} (hap : 0 < a.num_blocks)
    (hep : 0 < e.num_blocks) (haw : eEnd a < U64) (hew : eEnd e < U64)
    (h : eEnd a ≤ e.start_block) :
    ExtentRanges.ExtentsOverlap a e = false := by
  rw [← Bool.not_eq_true,
    ExtentsOverlap_eq_true_iff hap hep haw hew (nonsent_of_wf hap haw)
      (nonsent_of_wf hep hew)]
  have hae : eEnd a = a.start_block + a.num_blocks := rfl
  omega

theorem overlap_false_of_right {e r : Extent} (hrp : 0 < r.num_blocks)
    (hep : 0 < e.num_blocks) (hrw : eEnd r < U64) (hew : eEnd e < U64)
    (h : eEnd e ≤ r.start_block) :
    ExtentRanges.ExtentsOverlap r e = false := by
  rw [← Bool.not_eq_true,
    ExtentsOverlap_eq_true_iff hrp hep hrw hew (nonsent_of_wf hrp hrw)
      (nonsent_of_wf hep hew)]
  have hee : eEnd e = e.start_block + e.num_blocks := rfl
  omega

theorem SubtractOverlapping_eq {q e : Extent} (hqw : eEnd q < U64)
    (hew : eEnd e < U64) :
    SubtractOverlappingExtents q e =
      (if q.start_block < e.start_block then
        [⟨q.start_block, e.start_block - q.start_block⟩]
      else []) ++
      (if eEnd e < eEnd q then [⟨eEnd e, eEnd q - eEnd e⟩] else []) := by
  have hq' : q.start_block + q.num_blocks < U64 := hqw
  have he' : e.start_block + e.num_blocks < U64 := hew
  have hql : eEnd q = q.start_block + q.num_blocks := rfl
  have hel : eEnd e = e.start_block + e.num_blocks := rfl
  unfold SubtractOverlappingExtents
  simp only [u64add_eq hq', u64add_eq he', gt_iff_lt]
  by_cases hb : q.start_block < e.start_block
  · rw [if_pos hb,
      show u64sub e.start_block q.start_block = e.start_block - q.start_block by
        rw [u64sub_eq (by omega) (by omega)],
      if_pos hb]
    by_cases ha : e.start_block + e.num_blocks < q.start_block + q.num_blocks
    · rw [if_pos ha, if_pos (show eEnd e < eEnd q by omega),
        show u64sub (q.start_block + q.num_blocks) (e.start_block + e.num_blocks) =
          eEnd q - eEnd e by rw [u64sub_eq (by omega) (by omega)]; rfl]
      simp only [setInsert, ExtentForRange_eq]
      rw [if_neg (by rw [extentLess_iff]; simp only [mk_start, mk_num]; omega),
        if_pos (by rw [extentLess_iff]; simp only [mk_start, mk_num]; omega)]
      rfl
    · rw [if_neg ha, if_neg (show ¬ eEnd e < eEnd q by omega)]
      rfl
  · rw [if_neg hb, if_neg hb]
    by_cases ha : e.start_block + e.num_blocks < q.start_block + q.num_blocks
    · rw [if_pos ha, if_pos (show eEnd e < eEnd q by omega),
        show u64sub (q.start_block + q.num_blocks) (e.start_block + e.num_blocks) =
          eEnd q - eEnd e by rw [u64sub_eq (by omega) (by omega)]; rfl]
      rfl
    · rw [if_neg ha, if_neg (show ¬ eEnd e < eEnd q by omega)]
      rfl

/-! ## The residual pieces of a subtracted run -/

theorem tailPiece_nil (e : Extent) : tailPiece e [] = [] := rfl

theorem tailPiece_cons_cons (e q q' : Extent) (t : List Extent) :
    tailPiece e (q :: q' :: t) = tailPiece e (q' :: t) := by
  unfold tailPiece
  rw [List.getLast?_cons_cons]

theorem tailPiece_single (e q : Extent) :
    tailPiece e [q] =
      if eEnd e < eEnd q then [⟨eEnd e, eEnd q - eEnd e⟩] else [] := rfl

theorem tailPiece_blocks_le {e : Extent} {M : List Extent}
    (h : ∀ q ∈ M, q.start_block < eEnd e) :
    BlocksInExtents (tailPiece e M) ≤ (M.map Extent.num_blocks).sum := by
  cases hL : M.getLast? with
  | none =>
    unfold tailPiece
    rw [hL]
    simp [BlocksInExtents]
  | some k =>
    have hkmem : k ∈ M := List.mem_of_getLast?_eq_some hL
    have h1 : k.num_blocks ≤ (M.map Extent.num_blocks).sum :=
      List.single_le_sum (fun _ _ => Nat.zero_le _) _ (List.mem_map_of_mem _ hkmem)
    have hke : eEnd k = k.start_block + k.num_blocks := rfl
    have h2 := h k hkmem
    unfold tailPiece
    rw [hL]
    dsimp only
    split_ifs with hc
    · have hB : BlocksInExtents [(⟨eEnd e, eEnd k - eEnd e⟩ : Extent)] =
          eEnd k - eEnd e := by simp [BlocksInExtents]
      omega
    · simp [BlocksInExtents]

theorem subScanLoop_tail (e : Extent) (hep : 0 < e.num_blocks)
    (hew : eEnd e < U64) :
    ∀ (M : List Extent) (i a db : Nat) (news : List Extent),
      (∀ q ∈ M, (0 < q.num_blocks ∧ eEnd q < U64) ∧
        (q.start_block < eEnd e ∧ e.start_block < eEnd q) ∧
        e.start_block < q.start_block) →
      M.Chain' (fun x y => eEnd x ≤ y.start_block) →
      db + (M.map Extent.num_blocks).sum < U64 →
      subScanLoop e M i (some (a, i)) db news =
        (some (a, i + M.length),
          db + ((M.map Extent.num_blocks).sum -
            BlocksInExtents (tailPiece e M)),
          (tailPiece e M).foldl setInsert news) := by
  intro M
  induction M with
  | nil =>
    intro i a db news _ _ _
    rw [tailPiece_nil]
    simp [subScanLoop, BlocksInExtents]
  | cons q M' ih =>
    intro i a db news hall hch hsum
    obtain ⟨⟨hqp, hqw⟩, ⟨hq1, hq2⟩, hq3⟩ := hall q (by simp)
    have hqe : eEnd q = q.start_block + q.num_blocks := rfl
    have hee : eEnd e = e.start_block + e.num_blocks := rfl
    have hsum' : db + (q.num_blocks + (M'.map Extent.num_blocks).sum) < U64 := by
      simpa using hsum
    have hov : ExtentRanges.ExtentsOverlap q e = true := by
      rw [ExtentsOverlap_eq_true_iff hqp hep hqw hew (nonsent_of_wf hqp hqw)
        (nonsent_of_wf hep hew)]
      omega
    simp only [subScanLoop]
    rw [if_pos hov, SubtractOverlapping_eq hqw hew,
      if_neg (show ¬ q.start_block < e.start_block by omega)]
    simp only [List.nil_append, Option.map_some', Option.getD_some]
    cases M' with
    | nil =>
      rw [tailPiece_single]
      by_cases ha : eEnd e < eEnd q
      · rw [if_pos ha]
        simp only [List.foldl_cons, List.foldl_nil, mk_num]
        rw [show u64add db q.num_blocks = db + q.num_blocks from u64add_eq (by omega),
          show u64sub (db + q.num_blocks) (eEnd q - eEnd e) =
            db + q.num_blocks - (eEnd q - eEnd e) from u64sub_eq (by omega) (by omega)]
        simp only [subScanLoop]
        rw [Prod.mk.injEq, Prod.mk.injEq]
        refine ⟨by simp, ?_, rfl⟩
        simp only [BlocksInExtents, List.map_cons, List.map_nil, List.sum_cons,
          List.sum_nil]
        omega
      · rw [if_neg ha]
        simp only [List.foldl_nil]
        rw [show u64add db q.num_blocks = db + q.num_blocks from u64add_eq (by omega)]
        simp only [subScanLoop]
        rw [Prod.mk.injEq, Prod.mk.injEq]
        refine ⟨by simp, ?_, rfl⟩
        simp only [BlocksInExtents, List.map_cons, List.map_nil, List.sum_cons,
          List.sum_nil]
        omega
    | cons q' t =>
      have hq'1 : q'.start_block < eEnd e := (hall q' (by simp)).2.1.1
      have hsep1 : eEnd q ≤ q'.start_block := (List.chain'_cons.mp hch).1
      have hnoA : ¬ eEnd e < eEnd q := by omega
      rw [if_neg hnoA, tailPiece_cons_cons]
      simp only [List.foldl_nil]
      rw [show u64add db q.num_blocks = db + q.num_blocks from u64add_eq (by omega)]
      have ih' := ih (i + 1) a (db + q.num_blocks) news
        (fun y hy => hall y (by simp [hy]))
        (List.Chain'.tail hch)
        (by omega)
      rw [ih']
      rw [Prod.mk.injEq, Prod.mk.injEq]
      refine ⟨by simp; try omega, ?_, rfl⟩
      have hle : BlocksInExtents (tailPiece e (q' :: t)) ≤
          ((q' :: t).map Extent.num_blocks).sum :=
        tailPiece_blocks_le fun y hy => (hall y (by simp [hy])).2.1.1
      simp only [List.map_cons, List.sum_cons] at hle ⊢
      omega

theorem subScanLoop_run (e : Extent) (hep : 0 < e.num_blocks)
    (hew : eEnd e < U64) (q₁ : Extent) (M' : List Extent)
    (i db : Nat) (news : List Extent)
    (hall : ∀ q ∈ q₁ :: M', (0 < q.num_blocks ∧ eEnd q < U64) ∧
      (q.start_block < eEnd e ∧ e.start_block < eEnd q))
    (hch : (q₁ :: M').Chain' (fun x y => eEnd x ≤ y.start_block))
    (hsum : db + ((q₁ :: M').map Extent.num_blocks).sum < U64) :
    subScanLoop e (q₁ :: M') i none db news =
      (some (i, i + (q₁ :: M').length),
        db + (((q₁ :: M').map Extent.num_blocks).sum -
          BlocksInExtents (subPieces e (q₁ :: M'))),
        (subPieces e (q₁ :: M')).foldl setInsert news) := by
  obtain ⟨⟨hqp, hqw⟩, hq1, hq2⟩ := hall q₁ (by simp)
  have hqe : eEnd q₁ = q₁.start_block + q₁.num_blocks := rfl
  have hee : eEnd e = e.start_block + e.num_blocks := rfl
  have hsum' : db + (q₁.num_blocks + (M'.map Extent.num_blocks).sum) < U64 := by
    simpa using hsum
  have hov : ExtentRanges.ExtentsOverlap q₁ e = true := by
    rw [ExtentsOverlap_eq_true_iff hqp hep hqw hew (nonsent_of_wf hqp hqw)
      (nonsent_of_wf hep hew)]
    omega
  simp only [subScanLoop]
  rw [if_pos hov, SubtractOverlapping_eq hqw hew]
  simp only [Option.map_none', Option.getD_none]
  unfold subPieces headPiece
  cases M' with
  | nil =>
    rw [tailPiece_single]
    by_cases hb : q₁.start_block < e.start_block
    · by_cases ha : eEnd e < eEnd q₁
      · simp only [if_pos hb, if_pos ha, List.cons_append, List.nil_append,
          List.foldl_cons, List.foldl_nil, mk_num]
        rw [show u64add db q₁.num_blocks = db + q₁.num_blocks from
            u64add_eq (by omega),
          show u64sub (db + q₁.num_blocks) (e.start_block - q₁.start_block) =
            db + q₁.num_blocks - (e.start_block - q₁.start_block) from
            u64sub_eq (by omega) (by omega),
          show u64sub (db + q₁.num_blocks - (e.start_block - q₁.start_block))
              (eEnd q₁ - eEnd e) =
            db + q₁.num_blocks - (e.start_block - q₁.start_block) -
              (eEnd q₁ - eEnd e) from u64sub_eq (by omega) (by omega)]
        simp only [subScanLoop]
        rw [Prod.mk.injEq, Prod.mk.injEq]
        refine ⟨by simp, ?_, rfl⟩
        simp only [BlocksInExtents, List.map_cons, List.map_nil, List.sum_cons,
          List.sum_nil, mk_num]
        omega
      · simp only [if_pos hb, if_neg ha, List.append_nil, List.foldl_cons,
          List.foldl_nil, mk_num]
        rw [show u64add db q₁.num_blocks = db + q₁.num_blocks from
            u64add_eq (by omega),
          show u64sub (db + q₁.num_blocks) (e.start_block - q₁.start_block) =
            db + q₁.num_blocks - (e.start_block - q₁.start_block) from
            u64sub_eq (by omega) (by omega)]
        simp only [subScanLoop]
        rw [Prod.mk.injEq, Prod.mk.injEq]
        refine ⟨by simp, ?_, rfl⟩
        simp only [BlocksInExtents, List.map_cons, List.map_nil, List.sum_cons,
          List.sum_nil, mk_num]
        omega
    · by_cases ha : eEnd e < eEnd q₁
      · simp only [if_neg hb, if_pos ha, List.nil_append, List.foldl_cons,
          List.foldl_nil, mk_num]
        rw [show u64add db q₁.num_blocks = db + q₁.num_blocks from
            u64add_eq (by omega),
          show u64sub (db + q₁.num_blocks) (eEnd q₁ - eEnd e) =
            db + q₁.num_blocks - (eEnd q₁ - eEnd e) from
            u64sub_eq (by omega) (by omega)]
        simp only [subScanLoop]
        rw [Prod.mk.injEq, Prod.mk.injEq]
        refine ⟨by simp, ?_, rfl⟩
        simp only [BlocksInExtents, List.map_cons, List.map_nil, List.sum_cons,
          List.sum_nil, mk_num]
        omega
      · simp only [if_neg hb, if_neg ha, List.nil_append, List.foldl_nil]
        rw [show u64add db q₁.num_blocks = db + q₁.num_blocks from
            u64add_eq (by omega)]
        simp only [subScanLoop]
        rw [Prod.mk.injEq, Prod.mk.injEq]
        refine ⟨by simp, ?_, rfl⟩
        simp only [BlocksInExtents, List.map_cons, List.map_nil, List.sum_cons,
          List.sum_nil]
        omega
  | cons q' t =>
    have hq'1 : q'.start_block < eEnd e := (hall q' (by simp)).2.1
    have hsep1 : eEnd q₁ ≤ q'.start_block := (List.chain'_cons.mp hch).1
    have hnoA : ¬ eEnd e < eEnd q₁ := by omega
    rw [tailPiece_cons_cons]
    have htailhyp : ∀ q ∈ q' :: t, (0 < q.num_blocks ∧ eEnd q < U64) ∧
        (q.start_block < eEnd e ∧ e.start_block < eEnd q) ∧
        e.start_block < q.start_block := by
      intro y hy
      refine ⟨(hall y (by simp [hy])).1, (hall y (by simp [hy])).2, ?_⟩
      have hsh := chain_sep_head
        (fun z hz => ((hall z (by simp [hz])).1).1) hch y hy
      omega
    have hle : BlocksInExtents (tailPiece e (q' :: t)) ≤
        ((q' :: t).map Extent.num_blocks).sum :=
      tailPiece_blocks_le fun y hy => (htailhyp y hy).2.1.1
    by_cases hb : q₁.start_block < e.start_block
    · simp only [if_pos hb, if_neg hnoA, List.append_nil, List.cons_append,
        List.nil_append, List.foldl_cons, List.foldl_nil, mk_num]
      rw [show u64add db q₁.num_blocks = db + q₁.num_blocks from
          u64add_eq (by omega),
        show u64sub (db + q₁.num_blocks) (e.start_block - q₁.start_block) =
          db + q₁.num_blocks - (e.start_block - q₁.start_block) from
          u64sub_eq (by omega) (by omega)]
      rw [subScanLoop_tail e hep hew (q' :: t) (i + 1) i
        (db + q₁.num_blocks - (e.start_block - q₁.start_block))
        (setInsert news ⟨q₁.start_block, e.start_block - q₁.start_block⟩)
        htailhyp (List.Chain'.tail hch) (by omega)]
      rw [Prod.mk.injEq, Prod.mk.injEq]
      refine ⟨by simp; try omega, ?_, rfl⟩
      simp only [List.map_cons, List.sum_cons, BlocksInExtents] at hle ⊢
      omega
    · simp only [if_neg hb, if_neg hnoA, List.nil_append, List.foldl_nil]
      rw [show u64add db q₁.num_blocks = db + q₁.num_blocks from
          u64add_eq (by omega)]
      rw [subScanLoop_tail e hep hew (q' :: t) (i + 1) i
        (db + q₁.num_blocks) news htailhyp (List.Chain'.tail hch)
        (by omega)]
      rw [Prod.mk.injEq, Prod.mk.injEq]
      refine ⟨by simp; try omega, ?_, rfl⟩
      simp only [List.map_cons, List.sum_cons, BlocksInExtents] at hle ⊢
      omega

/-! ## Evaluating `SubtractExtent` from its scan -/

theorem SubtractExtent_eval (l : List Extent) (blocks : Nat) (m : Bool) (e : Extent)
    (hno : ¬ (e.start_block = kSparseHole ∨ e.num_blocks = 0))
    (del : Option (Nat × Nat)) (db : Nat) (news : List Extent)
    (hscan : subScanLoop e l 0 none 0 [] = (del, db, news)) :
    ExtentRanges.SubtractExtent ⟨l, blocks, m⟩ e =
      ⟨news.foldl setInsert
          (match del with
            | none => l
            | some be => l.take be.1 ++ l.drop be.2),
        u64sub blocks db, m⟩ := by
  unfold ExtentRanges.SubtractExtent
  rw [if_neg hno]
  simp only [hscan]
  cases del <;> rfl

theorem subPieces_nil (e : Extent) : subPieces e [] = [] := rfl

/-! ## Inserting a sorted block of extents between two flanks -/

theorem foldl_setInsert_middle :
    ∀ (P L R : List Extent),
      (∀ a ∈ L, ∀ p ∈ P, extentLess a p = true) →
      P.Pairwise (fun p p' => extentLess p p' = true) →
      (∀ p ∈ P, ∀ r ∈ R, extentLess p r = true) →
      P.foldl setInsert (L ++ R) = L ++ (P ++ R) := by
  intro P
  induction P with
  | nil =>
    intro L R _ _ _
    simp
  | cons p P' ih =>
    intro L R hLP hpw hPR
    rw [List.pairwise_cons] at hpw
    rw [List.foldl_cons, setInsert_append (fun a ha => hLP a ha p (by simp))]
    have hsetR : setInsert R p = p :: R := by
      cases hRc : R with
      | nil => rfl
      | cons r t => exact setInsert_cons_lt (hPR p (by simp) r (by rw [hRc]; simp))
    have hLP' : ∀ a ∈ L ++ [p], ∀ p' ∈ P', extentLess a p' = true := by
      intro a ha p' hp'
      rcases List.mem_append.mp ha with h | h
      · exact hLP a h p' (by simp [hp'])
      · simp only [List.mem_singleton] at h
        subst h
        exact hpw.1 p' hp'
    rw [hsetR, show L ++ p :: R = (L ++ [p]) ++ R by simp,
      ih (L ++ [p]) R hLP' hpw.2 (fun p' hp' r hr => hPR p' (by simp [hp']) r hr)]
    simp

theorem insertPieces_spec (m : Bool) (L P R : List Extent)
    (hLwf : ∀ a ∈ L, WfExtent a) (hPwf : ∀ p ∈ P, WfExtent p)
    (hRwf : ∀ r ∈ R, WfExtent r)
    (hchL : L.Chain' (sep m)) (hchP : P.Chain' (sep m)) (hchR : R.Chain' (sep m))
    (hLP : ∀ a ∈ L, ∀ p ∈ P, sep m a p)
    (hPR : ∀ p ∈ P, ∀ r ∈ R, sep m p r)
    (hLR : ∀ a ∈ L, ∀ r ∈ R, sep m a r) :
    GoodList m (L ++ (P ++ R)) ∧
    P.foldl setInsert (L ++ R) = L ++ (P ++ R) := by
  have hless1 : ∀ a ∈ L, ∀ p ∈ P, extentLess a p = true := by
    intro a ha p hp
    have h1 := sep_le (hLP a ha p hp)
    have hap : 0 < a.num_blocks := (hLwf a ha).1
    have hae : eEnd a = a.start_block + a.num_blocks := rfl
    rw [extentLess_iff]
    exact Or.inl (by omega)
  have hless2 : ∀ p ∈ P, ∀ r ∈ R, extentLess p r = true := by
    intro p hp r hr
    have h1 := sep_le (hPR p hp r hr)
    have hpp : 0 < p.num_blocks := (hPwf p hp).1
    have hpe : eEnd p = p.start_block + p.num_blocks := rfl
    rw [extentLess_iff]
    exact Or.inl (by omega)
  have hlessP : P.Pairwise (fun p p' => extentLess p p' = true) := by
    refine (chain_sepm_pairwise (fun p hp => (hPwf p hp).1) hchP).imp_of_mem ?_
    intro p p' hp hp' hsep
    have h1 := sep_le hsep
    have hpp : 0 < p.num_blocks := (hPwf p hp).1
    have hpe : eEnd p = p.start_block + p.num_blocks := rfl
    rw [extentLess_iff]
    exact Or.inl (by omega)
  refine ⟨⟨?_, ?_⟩, foldl_setInsert_middle P L R hless1 hlessP hless2⟩
  · intro q hq
    rcases List.mem_append.mp hq with h | h
    · exact hLwf q h
    · rcases List.mem_append.mp h with h' | h'
      · exact hPwf q h'
      · exact hRwf q h'
  · rw [List.chain'_append]
    refine ⟨hchL, ?_, ?_⟩
    · rw [List.chain'_append]
      refine ⟨hchP, hchR, ?_⟩
      intro x hx y hy
      exact hPR x (List.mem_of_mem_getLast? hx) y (List.mem_of_mem_head? hy)
    · intro x hx y hy
      have hxL := List.mem_of_mem_getLast? hx
      have hy' := List.mem_of_mem_head? hy
      rcases List.mem_append.mp hy' with h | h
      · exact hLP x hxL y h
      · exact hLR x hxL y h

/-! ## The subtract master theorem -/

theorem subCore (m : Bool) (L M R : List Extent) (e : Extent) (blocks : Nat)
    (hL : ∀ a ∈ L, WfExtent a ∧ eEnd a ≤ e.start_block)
    (hM : ∀ q ∈ M, WfExtent q ∧ q.start_block < eEnd e ∧ e.start_block < eEnd q)
    (hR : ∀ r ∈ R, WfExtent r ∧ eEnd e ≤ r.start_block)
    (hch : (L ++ (M ++ R)).Chain' (sep m))
    (hblocks : blocks = BlocksInExtents (L ++ (M ++ R)))
    (hwf : WfExtent e) :
    ExtentRanges.SubtractExtent ⟨L ++ (M ++ R), blocks, m⟩ e =
      ⟨L ++ (subPieces e M ++ R),
        BlocksInExtents (L ++ (subPieces e M ++ R)), m⟩ ∧
    GoodList m (L ++ (subPieces e M ++ R)) ∧
    (∀ x, coveredBy (subPieces e M) x ↔ coveredBy M x ∧ ¬ spanMem e x) := by
  obtain ⟨hep, hew, hes⟩ := hwf
  have hee : eEnd e = e.start_block + e.num_blocks := rfl
  have hwfl : ∀ q ∈ L ++ (M ++ R), WfExtent q := by
    intro q hq
    rcases List.mem_append.mp hq with h | h
    · exact (hL q h).1
    · rcases List.mem_append.mp h with h' | h'
      · exact (hM q h').1
      · exact (hR q h').1
  have hqpos : ∀ q ∈ L ++ (M ++ R), 0 < q.num_blocks := fun q h => (hwfl q h).1
  have hqw : ∀ q ∈ L ++ (M ++ R), eEnd q < U64 := fun q h => (hwfl q h).2.1
  have hchle : (L ++ (M ++ R)).Chain' (fun a b => eEnd a ≤ b.start_block) :=
    hch.imp fun _ _ => sep_le
  have hblt : BlocksInExtents (L ++ (M ++ R)) < U64 :=
    goodBlocks_lt (fun q h => ⟨hqpos q h, hqw q h⟩) hchle
  have hpw := chain_sepm_pairwise hqpos hch
  rw [List.pairwise_append] at hpw
  obtain ⟨hpwL, hpwMR, hcrossL⟩ := hpw
  rw [List.pairwise_append] at hpwMR
  obtain ⟨hpwM, hpwR, hcrossMR⟩ := hpwMR
  have hch2 := hch
  rw [List.chain'_append] at hch2
  obtain ⟨hchL, hchMR, hLlast⟩ := hch2
  rw [List.chain'_append] at hchMR
  obtain ⟨hchM, hchR, hMhead⟩ := hchMR
  have hblt' : blocks < U64 := hblocks ▸ hblt
  have hnoop : ¬ (e.start_block = kSparseHole ∨ e.num_blocks = 0) := by
    push_neg
    exact ⟨hes, by omega⟩
  have hcrossLR : ∀ a ∈ L, ∀ r ∈ R, sep m a r := fun a ha r hr =>
    hcrossL a ha r (List.mem_append_right _ hr)
  have hskipL : ∀ it ∈ L, ExtentRanges.ExtentsOverlap it e = false := by
    intro it hit
    obtain ⟨⟨hp, hw, -⟩, hle⟩ := hL it hit
    exact overlap_false_of_left hp hep hw hew hle
  have hskipR : ∀ it ∈ R, ExtentRanges.ExtentsOverlap it e = false := by
    intro it hit
    obtain ⟨⟨hp, hw, -⟩, hle⟩ := hR it hit
    exact overlap_false_of_right hp hep hw hew hle
  rcases M with _ | ⟨q₁, M'⟩
  · -- empty run: nothing is subtracted
    simp only [subPieces_nil, List.nil_append] at *
    have hfail : ∀ it ∈ L ++ R, ExtentRanges.ExtentsOverlap it e = false := by
      intro it hit
      rcases List.mem_append.mp hit with h | h
      · exact hskipL it h
      · exact hskipR it h
    have hscan := subScanLoop_skip e (L ++ R) 0 none 0 [] hfail
    rw [SubtractExtent_eval (L ++ R) blocks m e hnoop none 0 [] hscan]
    refine ⟨?_, ⟨hwfl, hch⟩, ?_⟩
    · show (⟨L ++ R, u64sub blocks 0, m⟩ : ExtentRanges) = _
      rw [u64sub_zero hblt', ExtentRanges.mk.injEq]
      exact ⟨rfl, hblocks, rfl⟩
    · intro x
      simp [coveredBy]
  · -- nonempty run
    obtain ⟨M₀, k, hcat⟩ :=
      (List.eq_nil_or_concat (q₁ :: M')).resolve_left (by simp)
    rw [List.concat_eq_append] at hcat
    have hgetlast : (q₁ :: M').getLast? = some k := by
      rw [hcat]
      exact List.getLast?_concat _
    have hkmem : k ∈ q₁ :: M' := by rw [hcat]; simp
    have hq1mem : q₁ ∈ q₁ :: M' := by simp
    have hkmax : ∀ q ∈ q₁ :: M', eEnd q ≤ eEnd k := by
      intro q hq
      rw [hcat] at hq hpwM
      rw [List.pairwise_append] at hpwM
      rcases List.mem_append.mp hq with h | h
      · have hsep := hpwM.2.2 q h k (by simp)
        have h1 := sep_le hsep
        have hkp : 0 < k.num_blocks := (hM k hkmem).1.1
        have hke : eEnd k = k.start_block + k.num_blocks := rfl
        omega
      · simp only [List.mem_singleton] at h
        subst h
        exact le_rfl
    have hkstrict := (hM k hkmem).2
    have hq1strict := (hM q₁ hq1mem).2
    have hkwf := (hM k hkmem).1
    have hq1e : eEnd q₁ = q₁.start_block + q₁.num_blocks := rfl
    have hke : eEnd k = k.start_block + k.num_blocks := rfl
    have htp : tailPiece e (q₁ :: M') =
        (if eEnd e < eEnd k then [⟨eEnd e, eEnd k - eEnd e⟩] else []) := by
      unfold tailPiece
      rw [hgetlast]
    have hhp : headPiece e (q₁ :: M') =
        (if q₁.start_block < e.start_block then
          [⟨q₁.start_block, e.start_block - q₁.start_block⟩] else []) := rfl
    have hPsplit : subPieces e (q₁ :: M') =
        headPiece e (q₁ :: M') ++ tailPiece e (q₁ :: M') := rfl
    have hHPmem : ∀ p ∈ headPiece e (q₁ :: M'),
        p = (⟨q₁.start_block, e.start_block - q₁.start_block⟩ : Extent) ∧
          q₁.start_block < e.start_block := by
      intro p hp
      rw [hhp] at hp
      by_cases hb : q₁.start_block < e.start_block
      · rw [if_pos hb] at hp
        simp only [List.mem_singleton] at hp
        exact ⟨hp, hb⟩
      · rw [if_neg hb] at hp
        simp at hp
    have hTPmem : ∀ p ∈ tailPiece e (q₁ :: M'),
        p = (⟨eEnd e, eEnd k - eEnd e⟩ : Extent) ∧ eEnd e < eEnd k := by
      intro p hp
      rw [htp] at hp
      by_cases ha : eEnd e < eEnd k
      · rw [if_pos ha] at hp
        simp only [List.mem_singleton] at hp
        exact ⟨hp, ha⟩
      · rw [if_neg ha] at hp
        simp at hp
    have hPwf : ∀ p ∈ subPieces e (q₁ :: M'), WfExtent p := by
      intro p hp
      rcases List.mem_append.mp hp with h | h
      · obtain ⟨rfl, hb⟩ := hHPmem p h
        have h1 : 0 < (⟨q₁.start_block, e.start_block - q₁.start_block⟩ :
            Extent).num_blocks := by
          simp only [mk_num]
          omega
        have h2 : eEnd (⟨q₁.start_block, e.start_block - q₁.start_block⟩ :
            Extent) < U64 := by
          rw [eEnd_mk]
          omega
        exact ⟨h1, h2, nonsent_of_wf h1 h2⟩
      · obtain ⟨rfl, hA⟩ := hTPmem p h
        have hkw : eEnd k < U64 := hkwf.2.1
        have h1 : 0 < (⟨eEnd e, eEnd k - eEnd e⟩ : Extent).num_blocks := by
          simp only [mk_num]
          omega
        have h2 : eEnd (⟨eEnd e, eEnd k - eEnd e⟩ : Extent) < U64 := by
          rw [eEnd_mk]
          omega
        exact ⟨h1, h2, nonsent_of_wf h1 h2⟩
    have hLP : ∀ a ∈ L, ∀ p ∈ subPieces e (q₁ :: M'), sep m a p := by
      intro a ha p hp
      obtain ⟨⟨hap, haw, -⟩, hale⟩ := hL a ha
      have hae : eEnd a = a.start_block + a.num_blocks := rfl
      rcases List.mem_append.mp hp with h | h
      · obtain ⟨rfl, hb⟩ := hHPmem p h
        exact hcrossL a ha q₁ (List.mem_append_left _ hq1mem)
      · obtain ⟨rfl, hA⟩ := hTPmem p h
        refine sep_of ?_ (fun hm => ?_)
        · show eEnd a ≤ eEnd e
          omega
        · show eEnd a < eEnd e
          omega
    have hPR : ∀ p ∈ subPieces e (q₁ :: M'), ∀ r ∈ R, sep m p r := by
      intro p hp r hr
      have hrle := (hR r hr).2
      rcases List.mem_append.mp hp with h | h
      · obtain ⟨rfl, hb⟩ := hHPmem p h
        refine sep_of ?_ (fun hm => ?_)
        · rw [eEnd_mk]
          omega
        · rw [eEnd_mk]
          omega
      · obtain ⟨rfl, hA⟩ := hTPmem p h
        have hsep := hcrossMR k hkmem r hr
        have h1 := sep_le hsep
        refine sep_of ?_ (fun hm => ?_)
        · rw [eEnd_mk]
          omega
        · subst hm
          have h2 := sep_lt_of_merge hsep
          rw [eEnd_mk]
          omega
    have hchP : (subPieces e (q₁ :: M')).Chain' (sep m) := by
      rw [hPsplit, hhp, htp]
      by_cases hb : q₁.start_block < e.start_block
      · rw [if_pos hb]
        by_cases ha : eEnd e < eEnd k
        · rw [if_pos ha]
          simp only [List.cons_append, List.nil_append]
          refine List.chain'_cons.mpr ⟨?_, List.chain'_singleton _⟩
          refine sep_of ?_ (fun hm => ?_)
          · show q₁.start_block + (e.start_block - q₁.start_block) ≤ eEnd e
            omega
          · show q₁.start_block + (e.start_block - q₁.start_block) < eEnd e
            omega
        · rw [if_neg ha, List.append_nil]
          exact List.chain'_singleton _
      · rw [if_neg hb, List.nil_append]
        by_cases ha : eEnd e < eEnd k
        · rw [if_pos ha]
          exact List.chain'_singleton _
        · rw [if_neg ha]
          exact List.chain'_nil
    have hassem := insertPieces_spec m L (subPieces e (q₁ :: M')) R
      (fun a ha => (hL a ha).1) hPwf (fun r hr => (hR r hr).1)
      hchL hchP hchR hLP hPR hcrossLR
    obtain ⟨hgood, hfold⟩ := hassem
    have hfold0 : (subPieces e (q₁ :: M')).foldl setInsert [] =
        subPieces e (q₁ :: M') := by
      have h := (insertPieces_spec m [] (subPieces e (q₁ :: M')) []
        (by simp) hPwf (by simp) List.chain'_nil hchP List.chain'_nil
        (by simp) (by simp) (by simp)).2
      simpa using h
    have hPle : BlocksInExtents (subPieces e (q₁ :: M')) ≤
        ((q₁ :: M').map Extent.num_blocks).sum := by
      rw [hPsplit, BlocksInExtents_append]
      have hhd : BlocksInExtents (headPiece e (q₁ :: M')) ≤
          e.start_block - q₁.start_block := by
        rw [hhp]
        by_cases hb : q₁.start_block < e.start_block
        · rw [if_pos hb]
          simp [BlocksInExtents]
        · rw [if_neg hb]
          simp [BlocksInExtents]
      have htl : BlocksInExtents (tailPiece e (q₁ :: M')) ≤ eEnd k - eEnd e := by
        rw [htp]
        by_cases ha : eEnd e < eEnd k
        · rw [if_pos ha]
          simp [BlocksInExtents]
        · rw [if_neg ha]
          simp [BlocksInExtents]
      have hs1 := hq1strict.1
      have hs2 := hq1strict.2
      have hs3 := hkstrict.1
      rcases M₀ with _ | ⟨m₀, M₀'⟩
      · simp only [List.nil_append] at hcat
        injection hcat with h1 h2
        subst h1
        subst h2
        simp only [List.map_cons, List.map_nil, List.sum_cons, List.sum_nil]
        omega
      · simp only [List.cons_append] at hcat
        injection hcat with h1 h2
        have hkM' : k ∈ M' := by rw [h2]; simp
        have hksum : k.num_blocks ≤ (M'.map Extent.num_blocks).sum :=
          List.single_le_sum (fun _ _ => Nat.zero_le _) _
            (List.mem_map_of_mem _ hkM')
        simp only [List.map_cons, List.sum_cons]
        omega
    have hallM : ∀ q ∈ q₁ :: M', (0 < q.num_blocks ∧ eEnd q < U64) ∧
        (q.start_block < eEnd e ∧ e.start_block < eEnd q) :=
      fun q hq => ⟨⟨(hM q hq).1.1, (hM q hq).1.2.1⟩, (hM q hq).2⟩
    have hchMle : (q₁ :: M').Chain' (fun x y => eEnd x ≤ y.start_block) :=
      hchM.imp fun _ _ => sep_le
    have hsumMle : ((q₁ :: M').map Extent.num_blocks).sum ≤ blocks := by
      rw [hblocks, BlocksInExtents_append, BlocksInExtents_append]
      have hq1M : BlocksInExtents (q₁ :: M') =
          ((q₁ :: M').map Extent.num_blocks).sum := rfl
      omega
    have hsum : 0 + ((q₁ :: M').map Extent.num_blocks).sum < U64 := by omega
    have hrun := subScanLoop_run e hep hew q₁ M' L.length 0 [] hallM hchMle hsum
    have hscan : subScanLoop e (L ++ ((q₁ :: M') ++ R)) 0 none 0 [] =
        (some (L.length, L.length + (q₁ :: M').length),
          0 + (((q₁ :: M').map Extent.num_blocks).sum -
            BlocksInExtents (subPieces e (q₁ :: M'))),
          (subPieces e (q₁ :: M')).foldl setInsert []) := by
      rw [subScanLoop_append, subScanLoop_skip e L 0 none 0 [] hskipL]
      dsimp only
      rw [show 0 + L.length = L.length by omega]
      rw [subScanLoop_append, hrun]
      dsimp only
      exact subScanLoop_skip e R _ _ _ _ hskipR
    refine ⟨?_, hgood, ?_⟩
    · rw [SubtractExtent_eval (L ++ ((q₁ :: M') ++ R)) blocks m e hnoop
        (some (L.length, L.length + (q₁ :: M').length))
        (0 + (((q₁ :: M').map Extent.num_blocks).sum -
          BlocksInExtents (subPieces e (q₁ :: M'))))
        ((subPieces e (q₁ :: M')).foldl setInsert []) hscan]
      have hdropR : (L ++ ((q₁ :: M') ++ R)).drop
          (L.length + (q₁ :: M').length) = R := by
        rw [← List.append_assoc]
        exact List.drop_left' (by rw [List.length_append])
      dsimp only
      rw [hfold0, List.take_left, hdropR, hfold, ExtentRanges.mk.injEq]
      refine ⟨rfl, ?_, rfl⟩
      have hq1M : BlocksInExtents (q₁ :: M') =
          ((q₁ :: M').map Extent.num_blocks).sum := rfl
      have hbnewdef : BlocksInExtents (L ++ (subPieces e (q₁ :: M') ++ R)) =
          BlocksInExtents L + (BlocksInExtents (subPieces e (q₁ :: M')) +
            BlocksInExtents R) := by
        rw [BlocksInExtents_append, BlocksInExtents_append]
      have hbolddef : blocks = BlocksInExtents L + (BlocksInExtents (q₁ :: M') +
          BlocksInExtents R) := by
        rw [hblocks, BlocksInExtents_append, BlocksInExtents_append]
      rw [Nat.zero_add, u64sub_eq hblt' (by omega)]
      omega
    · intro x
      constructor
      · rintro ⟨p, hp, hpx⟩
        rcases List.mem_append.mp hp with h | h
        · obtain ⟨rfl, hb⟩ := hHPmem p h
          have hpx' : (⟨q₁.start_block, e.start_block - q₁.start_block⟩ :
              Extent).start_block ≤ x ∧
              x < eEnd ⟨q₁.start_block, e.start_block - q₁.start_block⟩ := hpx
          obtain ⟨hx1, hx2⟩ := hpx'
          rw [mk_start] at hx1
          rw [eEnd_mk] at hx2
          have hs2 := hq1strict.2
          refine ⟨⟨q₁, hq1mem, ?_, ?_⟩, ?_⟩
          · exact hx1
          · omega
          · intro hsp
            have hsp' : e.start_block ≤ x ∧ x < eEnd e := hsp
            omega
        · obtain ⟨rfl, hA⟩ := hTPmem p h
          have hpx' : (⟨eEnd e, eEnd k - eEnd e⟩ : Extent).start_block ≤ x ∧
              x < eEnd ⟨eEnd e, eEnd k - eEnd e⟩ := hpx
          obtain ⟨hx1, hx2⟩ := hpx'
          rw [mk_start] at hx1
          rw [eEnd_mk] at hx2
          have hs3 := hkstrict.1
          refine ⟨⟨k, hkmem, ?_, ?_⟩, ?_⟩
          · omega
          · omega
          · intro hsp
            have hsp' : e.start_block ≤ x ∧ x < eEnd e := hsp
            omega
      · rintro ⟨⟨q, hq, hqx⟩, hnspan⟩
        have hqx' : q.start_block ≤ x ∧ x < eEnd q := hqx
        obtain ⟨hq1x, hq2x⟩ := hqx'
        have hnsp : x < e.start_block ∨ eEnd e ≤ x := by
          by_contra hcon
          push_neg at hcon
          exact hnspan ⟨by omega, by omega⟩
        rcases hnsp with hlt | hge
        · have hxq1 : q₁.start_block ≤ x := by
            rcases List.mem_cons.mp hq with rfl | hq'
            · exact hq1x
            · have hsep := (List.pairwise_cons.mp hpwM).1 q hq'
              have h1 := sep_le hsep
              have hs2 := hq1strict.2
              omega
          have hb : q₁.start_block < e.start_block := by omega
          refine ⟨⟨q₁.start_block, e.start_block - q₁.start_block⟩, ?_, ?_, ?_⟩
          · rw [hPsplit]
            exact List.mem_append_left _ (by rw [hhp, if_pos hb]; simp)
          · rw [mk_start]
            exact hxq1
          · rw [eEnd_mk]
            omega
        · have hxk : x < eEnd k := by
            have := hkmax q hq
            omega
          have hA : eEnd e < eEnd k := by omega
          refine ⟨⟨eEnd e, eEnd k - eEnd e⟩, ?_, ?_, ?_⟩
          · rw [hPsplit]
            exact List.mem_append_right _ (by rw [htp, if_pos hA]; simp)
          · rw [mk_start]
            exact hge
          · rw [eEnd_mk]
            omega

/-! ## `SubtractExtent` on an invariant set -/

theorem SubtractExtent_noop (s : ExtentRanges) (e : Extent)
    (h : e.start_block = kSparseHole ∨ e.num_blocks = 0) :
    s.SubtractExtent e = s := by
  unfold ExtentRanges.SubtractExtent
  rw [if_pos h]

theorem SubtractExtent_decomp (s : ExtentRanges) (e : Extent) (hInv : SetInv s)
    (hwf : WfExtent e) :
    s.SubtractExtent e =
      ⟨runL false s.extent_set_ e ++
          (subPieces e (runMid false s.extent_set_ e) ++
            runR false s.extent_set_ e),
        BlocksInExtents
          (runL false s.extent_set_ e ++
            (subPieces e (runMid false s.extent_set_ e) ++
              runR false s.extent_set_ e)),
        s.merge_touching_extents_⟩ ∧
    GoodList s.merge_touching_extents_
      (runL false s.extent_set_ e ++
        (subPieces e (runMid false s.extent_set_ e) ++
          runR false s.extent_set_ e)) ∧
    (∀ x, coveredBy (subPieces e (runMid false s.extent_set_ e)) x ↔
      coveredBy (runMid false s.extent_set_ e) x ∧ ¬ spanMem e x) := by
  obtain ⟨⟨hwfl, hch⟩, hblocks⟩ := hInv
  have hchle : s.extent_set_.Chain' (fun a b => eEnd a ≤ b.start_block) :=
    hch.imp fun _ _ => sep_le
  have hdec := run_decomp false s.extent_set_ e
  have hRb : ∀ r ∈ runR false s.extent_set_ e,
      eEnd e ≤ r.start_block ∧ (false = true → eEnd e < r.start_block) :=
    runR_bound (fun q hq => (hwfl q hq).1) hchle
  have hcore := subCore s.merge_touching_extents_
    (runL false s.extent_set_ e) (runMid false s.extent_set_ e)
    (runR false s.extent_set_ e) e s.blocks_
    (fun a ha => ⟨hwfl a (runL_subset a ha),
      leftOfB_le (mem_takeWhile_sat ha)⟩)
    (fun q hq => ⟨hwfl q (runMid_subset q hq),
      qualB_false_iff.mp (mem_takeWhile_sat hq)⟩)
    (fun r hr => ⟨hwfl r (runR_subset r hr), (hRb r hr).1⟩)
    (hdec.symm ▸ hch)
    (by rw [hdec]; exact hblocks)
    hwf
  rw [hdec] at hcore
  exact hcore

theorem SubtractExtent_SetInv (s : ExtentRanges) (e : Extent) (hInv : SetInv s)
    (hwf : WfExtent e) : SetInv (s.SubtractExtent e) := by
  obtain ⟨heq, hgood, -⟩ := SubtractExtent_decomp s e hInv hwf
  rw [heq]
  exact ⟨hgood, rfl⟩

theorem SubtractExtent_merge_pres (s : ExtentRanges) (e : Extent)
    (hInv : SetInv s) (hwf : WfExtent e) :
    (s.SubtractExtent e).merge_touching_extents_ = s.merge_touching_extents_ := by
  rw [(SubtractExtent_decomp s e hInv hwf).1]

theorem SubtractExtent_cover (s : ExtentRanges) (e : Extent) (hInv : SetInv s)
    (hwf : WfExtent e) (x : Nat) :
    coveredBy (s.SubtractExtent e).extent_set_ x ↔
      coveredBy s.extent_set_ x ∧ ¬ spanMem e x := by
  have hwfl : ∀ q ∈ s.extent_set_, WfExtent q := hInv.1.1
  obtain ⟨heq, -, hcov⟩ := SubtractExtent_decomp s e hInv hwf
  rw [heq]
  show coveredBy (runL false s.extent_set_ e ++
      (subPieces e (runMid false s.extent_set_ e) ++
        runR false s.extent_set_ e)) x ↔ _
  have hdec := run_decomp false s.extent_set_ e
  conv_rhs => rw [← hdec]
  rw [coveredBy_append, coveredBy_append, coveredBy_append, coveredBy_append,
    hcov x]
  have hLx : coveredBy (runL false s.extent_set_ e) x → ¬ spanMem e x := by
    rintro ⟨a, ha, hax⟩ hsp
    have h1 := leftOfB_le (mem_takeWhile_sat ha)
    have hax' : a.start_block ≤ x ∧ x < eEnd a := hax
    have hsp' : e.start_block ≤ x ∧ x < eEnd e := hsp
    omega
  have hRx : coveredBy (runR false s.extent_set_ e) x → ¬ spanMem e x := by
    rintro ⟨r, hr, hrx⟩ hsp
    have hchle : s.extent_set_.Chain' (fun a b => eEnd a ≤ b.start_block) :=
      hInv.1.2.imp fun _ _ => sep_le
    have h1 := (runR_bound (fun q hq => (hwfl q hq).1) hchle r hr).1
    have hrx' : r.start_block ≤ x ∧ x < eEnd r := hrx
    have hsp' : e.start_block ≤ x ∧ x < eEnd e := hsp
    omega
  tauto

/-! ## The invariant is maintained from the empty set -/

theorem SetInv_empty (m : Bool) : SetInv (ExtentRanges.empty m) :=
  ⟨⟨fun q hq => absurd hq (List.not_mem_nil q), List.chain'_nil⟩, rfl⟩

theorem wf_of_okInput {e : Extent} (hok : okInput e)
    (hno : ¬ (e.start_block = kSparseHole ∨ e.num_blocks = 0)) : WfExtent e := by
  push_neg at hno
  rcases hok with h | h | h
  · exact absurd h hno.1
  · exact absurd h hno.2
  · exact ⟨Nat.pos_of_ne_zero hno.2, h, hno.1⟩

theorem applyOp_SetInv (s : ExtentRanges) (op : RangeOp) (hInv : SetInv s)
    (hok : okInput op.extent) : SetInv (applyOp s op) := by
  cases op with
  | add e =>
    by_cases hno : e.start_block = kSparseHole ∨ e.num_blocks = 0
    · show SetInv (s.AddExtent e)
      rw [AddExtent_noop s e hno]
      exact hInv
    · exact AddExtent_SetInv s e hInv (wf_of_okInput hok hno)
  | sub e =>
    by_cases hno : e.start_block = kSparseHole ∨ e.num_blocks = 0
    · show SetInv (s.SubtractExtent e)
      rw [SubtractExtent_noop s e hno]
      exact hInv
    · exact SubtractExtent_SetInv s e hInv (wf_of_okInput hok hno)

theorem applyOps_SetInv :
    ∀ (ops : List RangeOp) (s : ExtentRanges), SetInv s →
      (∀ op ∈ ops, okInput op.extent) → SetInv (applyOps s ops) := by
  intro ops
  induction ops with
  | nil => intro s h _; exact h
  | cons op rest ih =>
    intro s h hok
    exact ih (applyOp s op) (applyOp_SetInv s op h (hok op (by simp)))
      (fun o ho => hok o (by simp [ho]))

theorem SetInv_ClaimedInvariant (s : ExtentRanges) (h : SetInv s) :
    ClaimedInvariant s := by
  obtain ⟨⟨hwfl, hch⟩, hb⟩ := h
  refine ⟨?_, hch.imp fun _ _ => sep_le, ?_, hb⟩
  · intro q hq
    obtain ⟨h1, h2, h3⟩ := hwfl q hq
    exact ⟨h3, by omega⟩
  · intro hm
    refine hch.imp fun a b hab => ?_
    rw [hm] at hab
    exact sep_lt_of_merge hab

/-! ## Claim C1 -/

/-- Claim C1 (amended): starting from the empty set, any sequence of
`AddExtent`/`SubtractExtent` calls (the bulk variants being their repeated
application) whose argument extents do not overflow `uint64` arithmetic
(each is a sentinel, empty, or has `start_block + num_blocks < 2^64`)
maintains the claimed invariant: no stored extent has the sentinel
`start_block` or zero `num_blocks`, the entries are sorted ascending by
`start_block` and pairwise non-overlapping (pairwise non-touching when
`merge_touching_extents_` is true), and the cached `blocks_` counter equals
the sum of `num_blocks` over all entries. -/
theorem claim_C1_amended (m : Bool) (ops : List RangeOp)
    (hok : ∀ op ∈ ops, okInput op.extent) :
    ClaimedInvariant (applyOps (ExtentRanges.empty m) ops) :=
  SetInv_ClaimedInvariant _
    (applyOps_SetInv ops (ExtentRanges.empty m) (SetInv_empty m) hok)

/-- Claim C1 witness: the invariant holds after adding `{5,3}` and then
subtracting `{6,1}` on an initially empty merging set. -/
theorem claim_C1_witness :
    (∀ op ∈ [RangeOp.add ⟨5, 3⟩, RangeOp.sub ⟨6, 1⟩], okInput op.extent) ∧
    ClaimedInvariant (applyOps (ExtentRanges.empty true)
      [RangeOp.add ⟨5, 3⟩, RangeOp.sub ⟨6, 1⟩]) :=
  ⟨by decide,
    claim_C1_amended true [RangeOp.add ⟨5, 3⟩, RangeOp.sub ⟨6, 1⟩] (by decide)⟩

/-! ## Claim C2 -/

/-- Claim C2 (amended): on a set satisfying the maintained invariant and for
a non-degenerate extent `e` whose end does not overflow `uint64`
(`WfExtent e`), the blocks covered after `AddExtent(e)` are exactly the old
covered blocks together with `[e.start_block, e.start_block + e.num_blocks)`,
and the blocks covered after `SubtractExtent(e)` are exactly the old covered
blocks without that interval; no other block changes membership. -/
theorem claim_C2_amended (s : ExtentRanges) (e : Extent) (hInv : SetInv s)
    (hwf : WfExtent e) :
    (∀ x, coveredBy (s.AddExtent e).extent_set_ x ↔
      coveredBy s.extent_set_ x ∨ spanMem e x) ∧
    (∀ x, coveredBy (s.SubtractExtent e).extent_set_ x ↔
      coveredBy s.extent_set_ x ∧ ¬ spanMem e x) :=
  ⟨fun x => AddExtent_cover s e hInv hwf x,
    fun x => SubtractExtent_cover s e hInv hwf x⟩

/-- Claim C2 witness: on the invariant set `{[3,2]}` (non-merging) and the
extent `{4,3}`, the add-coverage equivalence holds at block 6 and the
subtract-coverage equivalence holds at block 3. -/
theorem claim_C2_witness :
    SetInv ⟨[⟨3, 2⟩], 2, false⟩ ∧ WfExtent ⟨4, 3⟩ ∧
    (coveredBy ((⟨[⟨3, 2⟩], 2, false⟩ : ExtentRanges).AddExtent
        ⟨4, 3⟩).extent_set_ 6 ↔
      coveredBy (⟨[⟨3, 2⟩], 2, false⟩ : ExtentRanges).extent_set_ 6 ∨
        spanMem ⟨4, 3⟩ 6) ∧
    (coveredBy ((⟨[⟨3, 2⟩], 2, false⟩ : ExtentRanges).SubtractExtent
        ⟨4, 3⟩).extent_set_ 3 ↔
      coveredBy (⟨[⟨3, 2⟩], 2, false⟩ : ExtentRanges).extent_set_ 3 ∧
        ¬ spanMem ⟨4, 3⟩ 3) := by
  have hInv : SetInv ⟨[⟨3, 2⟩], 2, false⟩ :=
    ⟨⟨fun E hE => by
        simp only [List.mem_singleton] at hE
        subst hE
        exact ⟨by decide, by decide, by decide⟩,
      List.chain'_singleton _⟩, rfl⟩
  have hwf : WfExtent ⟨4, 3⟩ := ⟨by decide, by decide, by decide⟩
  exact ⟨hInv, hwf, (claim_C2_amended _ _ hInv hwf).1 6,
    (claim_C2_amended _ _ hInv hwf).2 3⟩
